import Mathlib

/-! # Image-effects pipeline of `samples/linux-x86_64/python/common_util/effects.cc`

A shallow embedding of the blur / mask-blur / compositor pipeline and the
properties established about it.

Conventions of the embedding:

* `int32_t` values are `Int`; buffer positions and loop counters that the
  source keeps non-negative are `Nat`.  A frame dimension is read through
  `Int.toNat`, so a loop `for (i = 0; i < n; ++i)` with `n ≤ 0` runs zero times.
* `uint8_t` / `uint16_t` samples are `Nat`, reduced `% 2^w` where the source
  stores a wider value.
* `float` is IEEE-754 binary32 with round-to-nearest-even, every operation
  rounded on its own (SSE arithmetic of the x86-64 target).  A finite binary32
  value is an integer multiple of `2^(-149)`; the embedding stores that integer.
  Infinities, NaN and the sign of zero are outside the model (no value of the
  pipeline comes near `2^128`).
* Buffers are `List`s.  A read outside the buffer is undefined behaviour in the
  source; the embedding returns `0` there, and a write outside is dropped.
  The entry points (`ConvertBytes`, `PyEffectsBlur`) return an `Outcome`, which
  is `undefined` on the inputs where the source leaves defined behaviour
  (a freed garbage pointer, an access outside a buffer, a division by zero).
-/

namespace Effects

/-! ## binary32 arithmetic -/

/-- A finite binary32 value `v`, stored as the integer `v * 2^149`. -/
abbrev F32 := Int

/-- The stored integer of `1.0f`. -/
def F32.one : F32 := 2 ^ 149

/-- The stored integer of `0.5f`. -/
def F32.half : F32 := 2 ^ 148

/-- How many low bits a magnitude `k` (in units of `2^(-149)`) loses to fit a
24-bit significand: the least `s` with `k < 2^(24+s)`.  The first argument is
fuel; `dropBits k k` always has enough. -/
def dropBits : Nat → Nat → Nat
  | 0, _ => 0
  | fuel + 1, k => if k < 2 ^ 24 then 0 else dropBits fuel (k / 2) + 1

/-- Round the magnitude `a / q` (units of `2^(-149)`, `q > 0`) to the nearest
binary32 magnitude, ties to the even significand. -/
def roundMag (a q : Nat) : Nat :=
  let s := dropBits (a / q) (a / q)
  let d := q * 2 ^ s
  let t := a / d
  let r := a % d
  if d < 2 * r ∨ (2 * r = d ∧ t % 2 = 1) then (t + 1) * 2 ^ s else t * 2 ^ s

/-- Round the rational `p / q` (units of `2^(-149)`, `q > 0`) to binary32. -/
def F32.round (p : Int) (q : Nat) : F32 :=
  if p < 0 then -(roundMag p.natAbs q : Int) else (roundMag p.natAbs q : Int)

/-- The `float` sum `x + y`. -/
def F32.add (x y : F32) : F32 := F32.round (x + y) 1

/-- The `float` difference `x - y`. -/
def F32.sub (x y : F32) : F32 := F32.round (x - y) 1

/-- The `float` product `x * y`. -/
def F32.mul (x y : F32) : F32 := F32.round (x * y) (2 ^ 149)

/-- The `float` quotient `x / y` (`y ≠ 0`). -/
def F32.div (x y : F32) : F32 :=
  if y < 0 then F32.round (-(x * 2 ^ 149)) y.natAbs else F32.round (x * 2 ^ 149) y.natAbs

/-- Conversion `static_cast<float>(n)` of an integer. -/
def F32.ofInt (n : Int) : F32 := F32.round (n * 2 ^ 149) 1

/-- Conversion `static_cast<int32_t>(x)` of a float: truncation toward zero
when the truncated value is an `int32_t`; otherwise the conversion instruction
of the x86-64 target (`cvttss2si`) yields `INT_MIN`. -/
def F32.toInt (x : F32) : Int :=
  let t := Int.tdiv x (2 ^ 149)
  if -2 ^ 31 ≤ t ∧ t < 2 ^ 31 then t else -2 ^ 31

/-! ## Data model and constants -/

/-- `template <typename T> struct Frame`. -/
structure Frame (T : Type) where
  width : Int
  height : Int
  data : List T
  stride : Int

def kDownsampleFactor : Nat := 3
def kBlurIterations : Nat := 2
def kBoxSize : Nat := 41 / kDownsampleFactor
def kRgbChannels : Nat := 4
def kHalfBox : Nat := kBoxSize / 2
/-- `1.0f / kBoxSize`. -/
def kBoxFactor : F32 := F32.div F32.one (F32.ofInt kBoxSize)

def kMaskBlurIterations : Nat := 1
def kMaskBoxSizeX : Nat := 8
def kMaskHalfBoxX : Nat := kMaskBoxSizeX / 2
/-- `1.0f / kMaskBoxSizeX`. -/
def kMaskBoxFactorX : F32 := F32.div F32.one (F32.ofInt kMaskBoxSizeX)
def kMaskBoxSizeY : Nat := 15
def kMaskHalfBoxY : Nat := kMaskBoxSizeY / 2
/-- `1.0f / kMaskBoxSizeY`. -/
def kMaskBoxFactorY : F32 := F32.div F32.one (F32.ofInt kMaskBoxSizeY)

/-- `clampint<T>(val)` for an unsigned `T` of `bits` bits. -/
def clampint (bits : Nat) (val : Int) : Nat :=
  (max 0 (min val ((1 <<< bits : Nat) - 1 : Int))).toNat

/-- `zero_one(val)`. -/
def zero_one (val : F32) : F32 := max 0 (min val F32.one)

/-- `round_half(val)`. -/
def round_half (val : F32) : Int := F32.toInt (F32.add val F32.half)

/-- `modulo(a, m)`, with the truncating `%` of C++, for `m ≠ 0`.  At `m = 0`
the source divides by zero (the process is killed); the callers of the
embedding reach `modulo` with `m = 0` only for a buffer of width or height 0,
which `PyEffectsBlur.inBounds` excludes. -/
def modulo (a m : Int) : Int := Int.tmod (Int.tmod a m + m) m

/-- The loop `for (i = 0; i < n; ++i) s = body(i, s)`. -/
def forUp {σ : Type} (n : Nat) (body : Nat → σ → σ) (s : σ) : σ :=
  (List.range n).foldl (fun acc i => body i acc) s

/-- The loop `for (i = lo; i < lo + n; ++i) s = body(i, s)` over signed `i`. -/
def forFrom {σ : Type} (lo : Int) (n : Nat) (body : Int → σ → σ) (s : σ) : σ :=
  forUp n (fun i acc => body (lo + i) acc) s

/-! ## `BitmapToFloatMap` -/

/-- `BitmapToFloatMap(bitmap)`. -/
def BitmapToFloatMap (bitmap : Frame Nat) : Frame F32 :=
  let w := bitmap.width.toNat
  let h := bitmap.height.toNat
  let data :=
    forUp h (fun y buf =>
      forUp w (fun x buf =>
        let byte_x := x / 8
        let bit_x := x % 8
        let value := (bitmap.data.getD (y * bitmap.stride.toNat + byte_x) 0 >>> bit_x) &&& 1
        buf.set (y * w + x) (F32.ofInt value)) buf)
      (List.replicate (w * h) 0)
  { width := bitmap.width, height := bitmap.height, data := data, stride := 0 }

/-! ## `BlurMask` -/

/-- The horizontal pass of `BlurMask` on row `y`. -/
def BlurMask.hRow (w : Nat) (y : Nat) (result : List F32) : List F32 :=
  let y_offset := y * w
  let result := result.set y_offset 0
  let result :=
    forFrom (-(kMaskHalfBoxX : Int)) (2 * kMaskHalfBoxX + 1) (fun x result =>
      let i := y_offset + (modulo x w).toNat
      result.set y_offset (F32.add (result.getD y_offset 0)
        (F32.mul kMaskBoxFactorX (result.getD i 0)))) result
  forFrom 1 (w - 1) (fun x result =>
    let i := y_offset + x.toNat
    let min_x := modulo (x - kMaskHalfBoxX - 1) w
    let max_x := modulo (x + kMaskHalfBoxX + 1) w
    let last_i := i - 1
    let min_i := y_offset + min_x.toNat
    let max_i := y_offset + max_x.toNat
    result.set i (zero_one (F32.add
      (F32.sub (result.getD last_i 0) (F32.mul kMaskBoxFactorX (result.getD min_i 0)))
      (F32.mul kMaskBoxFactorX (result.getD max_i 0))))) result

/-- The vertical pass of `BlurMask`. -/
def BlurMask.vPass (w h : Nat) (result : List F32) : List F32 :=
  let result := forUp w (fun x result => result.set x 0) result
  let result :=
    forFrom (-(kMaskHalfBoxY : Int)) (2 * kMaskHalfBoxY + 1) (fun y result =>
      let wrapped_y := (modulo (y.natAbs : Int) h).toNat
      forUp w (fun x result =>
        result.set x (F32.add (result.getD x 0)
          (F32.mul kMaskBoxFactorY (result.getD (wrapped_y * w + x) 0)))) result) result
  forFrom 1 (h - 1) (fun y result =>
    let y_offset := y.toNat * w
    let last_y := y_offset - w
    let min_y := (modulo (y - kMaskHalfBoxY - 1) h).toNat * w
    let max_y := (modulo (y + kMaskHalfBoxY + 1) h).toNat * w
    forUp w (fun x result =>
      let i := y_offset + x
      let i_last := last_y + x
      let i_min := min_y + x
      let i_max := max_y + x
      result.set i (zero_one (F32.add
        (F32.sub (result.getD i_last 0) (F32.mul kMaskBoxFactorY (result.getD i_min 0)))
        (F32.mul kMaskBoxFactorY (result.getD i_max 0))))) result) result

/-- `BlurMask(mask)`: the buffer after the call. -/
def BlurMask (mask : Frame F32) : Frame F32 :=
  let w := mask.width.toNat
  let h := mask.height.toNat
  let data :=
    forUp kMaskBlurIterations (fun _ result =>
      let result := forUp h (fun y result => BlurMask.hRow w y result) result
      BlurMask.vPass w h result) mask.data
  { mask with data := data }

/-! ## `Blur` -/

/-- One tap of a full-kernel accumulation of `Blur`:
`result[acc] += round_half(kBoxFactor * result[src])`, stored as `uint16_t`. -/
def Blur.tap (acc src : Nat) (result : List Nat) : List Nat :=
  result.set acc
    (((result.getD acc 0 : Int) +
      round_half (F32.mul kBoxFactor (F32.ofInt (result.getD src 0)))) % 65536).toNat

/-- One sliding update of `Blur`:
`result[i] = clampint<uint16_t>(round_half(result[last] - kBoxFactor * result[mn]
+ kBoxFactor * result[mx]))`. -/
def Blur.slide (i last mn mx : Nat) (result : List Nat) : List Nat :=
  result.set i (clampint 16 (round_half (F32.add
    (F32.sub (F32.ofInt (result.getD last 0))
      (F32.mul kBoxFactor (F32.ofInt (result.getD mn 0))))
    (F32.mul kBoxFactor (F32.ofInt (result.getD mx 0))))))

/-- The horizontal pass of `Blur` on row `y`. -/
def Blur.hRow (w : Nat) (y : Nat) (result : List Nat) : List Nat :=
  let base_stride := w * kRgbChannels
  let y_offset := y * base_stride
  let result := ((result.set (y_offset + 2) 0).set (y_offset + 1) 0).set (y_offset + 0) 0
  let result :=
    forFrom (-(kHalfBox : Int)) (2 * kHalfBox + 1) (fun x result =>
      let i := y_offset + (modulo x w).toNat * kRgbChannels
      let result := Blur.tap (y_offset + 0) (i + 0) result
      let result := Blur.tap (y_offset + 1) (i + 1) result
      Blur.tap (y_offset + 2) (i + 2) result) result
  forFrom 1 (w - 1) (fun x result =>
    let i := y_offset + x.toNat * kRgbChannels
    let min_x := modulo (x - kHalfBox - 1) w
    let max_x := modulo (x + kHalfBox + 1) w
    let last_i := i - kRgbChannels
    let min_i := y_offset + min_x.toNat * kRgbChannels
    let max_i := y_offset + max_x.toNat * kRgbChannels
    let result := Blur.slide (i + 0) (last_i + 0) (min_i + 0) (max_i + 0) result
    let result := Blur.slide (i + 1) (last_i + 1) (min_i + 1) (max_i + 1) result
    Blur.slide (i + 2) (last_i + 2) (min_i + 2) (max_i + 2) result) result

/-- The vertical pass of `Blur`. -/
def Blur.vPass (w h : Nat) (result : List Nat) : List Nat :=
  let base_stride := w * kRgbChannels
  let result :=
    forUp w (fun x result =>
      let i := x * kRgbChannels
      ((result.set (i + 2) 0).set (i + 1) 0).set (i + 0) 0) result
  let result :=
    forFrom (-(kHalfBox : Int)) (2 * kHalfBox + 1) (fun y result =>
      let wrapped_y := (modulo y h).toNat
      forUp w (fun x result =>
        let i_x := x * kRgbChannels
        let result := Blur.tap (i_x + 0) (wrapped_y * base_stride + i_x + 0) result
        let result := Blur.tap (i_x + 1) (wrapped_y * base_stride + i_x + 1) result
        Blur.tap (i_x + 2) (wrapped_y * base_stride + i_x + 2) result) result) result
  forFrom 1 (h - 1) (fun y result =>
    let y_offset := y.toNat * base_stride
    let last_y := y_offset - base_stride
    let min_y := (modulo (y - kHalfBox - 1) h).toNat * base_stride
    let max_y := (modulo (y + kHalfBox + 1) h).toNat * base_stride
    forUp w (fun x result =>
      let i_x := x * kRgbChannels
      let i := y_offset + i_x
      let i_last := last_y + i_x
      let i_min := min_y + i_x
      let i_max := max_y + i_x
      let result := Blur.slide (i + 0) (i_last + 0) (i_min + 0) (i_max + 0) result
      let result := Blur.slide (i + 1) (i_last + 1) (i_min + 1) (i_max + 1) result
      Blur.slide (i + 2) (i_last + 2) (i_min + 2) (i_max + 2) result) result) result

/-- `Blur(base)`: the buffer after the call. -/
def Blur (base : Frame Nat) : Frame Nat :=
  let w := base.width.toNat
  let h := base.height.toNat
  let data :=
    forUp kBlurIterations (fun _ result =>
      let result := forUp h (fun y result => Blur.hRow w y result) result
      Blur.vPass w h result) base.data
  { base with data := data }

/-! ## `BackgroundMask` -/

/-- Word `i` of a byte buffer seen through `reinterpret_cast<uint32_t*>`
(little-endian target). -/
def loadWord (d : List Nat) (i : Nat) : Nat :=
  d.getD (4 * i) 0 + (d.getD (4 * i + 1) 0 <<< 8) + (d.getD (4 * i + 2) 0 <<< 16) +
    (d.getD (4 * i + 3) 0 <<< 24)

/-- Store of the `uint32_t` value `v` as word `i` of a byte buffer. -/
def storeWord (d : List Nat) (i : Nat) (v : Nat) : List Nat :=
  (((d.set (4 * i) (v % 256)).set (4 * i + 1) ((v >>> 8) % 256)).set (4 * i + 2)
    ((v >>> 16) % 256)).set (4 * i + 3) ((v >>> 24) % 256)

/-- The nearest-neighbour coordinate `int32_t c = (static_cast<float>(x) / n) * m`. -/
def sampleCoord (x : Nat) (n m : Int) : Int :=
  F32.toInt (F32.mul (F32.div (F32.ofInt x) (F32.ofInt n)) (F32.ofInt m))

/-- The index `mask_y * mask.width + mask_x` at which pixel `(x, y)` samples a
`width × height` grid. -/
def sampleIndex (fw fh : Int) (width height : Int) (x y : Nat) : Nat :=
  (sampleCoord y fh height * width + sampleCoord x fw width).toNat

/-- One blended channel: `clampint<uint8_t>(bg + (frame - bg) * mask_val)`; the
`float` argument is converted to the `int32_t` parameter by truncation. -/
def BackgroundMask.mix (bg fr : Int) (mask_val : F32) : Nat :=
  clampint 8 (F32.toInt (F32.add (F32.ofInt bg) (F32.mul (F32.ofInt (fr - bg)) mask_val)))

/-- The word written for a pixel whose frame word is `frame_color`, background
word `bg_color` and mask sample `mask_val`. -/
def BackgroundMask.blend (frame_color bg_color : Nat) (mask_val : F32) : Nat :=
  let frame_r : Int := (frame_color &&& 0x0000FF : Nat)
  let frame_g : Int := ((frame_color &&& 0x00FF00) >>> 8 : Nat)
  let frame_b : Int := ((frame_color &&& 0xFF0000) >>> 16 : Nat)
  let bg_r : Int := (bg_color &&& 0x0000FF : Nat)
  let bg_g : Int := ((bg_color &&& 0x00FF00) >>> 8 : Nat)
  let bg_b : Int := ((bg_color &&& 0xFF0000) >>> 16 : Nat)
  let mixed_r := BackgroundMask.mix bg_r frame_r mask_val
  let mixed_g := BackgroundMask.mix bg_g frame_g mask_val
  let mixed_b := BackgroundMask.mix bg_b frame_b mask_val
  mixed_r ||| (mixed_g <<< 8) ||| (mixed_b <<< 16)

/-- The body of the pixel loop of `BackgroundMask` at `(x, y)`. -/
def BackgroundMask.pixel (fw fh : Int) (mask : Frame F32) (background : Frame Nat)
    (y x : Nat) (frame_data : List Nat) : List Nat :=
  let mask_val := mask.data.getD (sampleIndex fw fh mask.width mask.height x y) 0
  let bg_color := loadWord background.data
    (sampleIndex fw fh background.width background.height x y)
  let frame_color := loadWord frame_data (y * fw.toNat + x)
  storeWord frame_data (y * fw.toNat + x) (BackgroundMask.blend frame_color bg_color mask_val)

/-- `BackgroundMask(frame, mask, background)`: the frame after the call. -/
def BackgroundMask (frame : Frame Nat) (mask : Frame F32) (background : Frame Nat) :
    Frame Nat :=
  let data :=
    forUp frame.height.toNat (fun y frame_data =>
      forUp frame.width.toNat (fun x frame_data =>
        BackgroundMask.pixel frame.width frame.height mask background y x frame_data)
        frame_data) frame.data
  { frame with data := data }

/-! ## Outcomes of the entry points -/

/-- How a call of an entry point of the extension ends. -/
inductive Outcome (α : Type) where
  /-- The call returns the value `a`. -/
  | ok (a : α)
  /-- The call returns `0` or `nullptr` (a Python error). -/
  | error
  /-- The source leaves defined behaviour on this input (it frees a garbage
  pointer, reads or writes outside a buffer, or divides by zero): the embedding
  gives no result. -/
  | undefined
  deriving DecidableEq

/-- The result of a call that returns a value, seen through `f`. -/
def Outcome.map {α β : Type} (f : α → β) : Outcome α → Outcome β
  | Outcome.ok a => Outcome.ok (f a)
  | Outcome.error => Outcome.error
  | Outcome.undefined => Outcome.undefined

/-- The low 32 bits of an integer, read as an `int32_t`. -/
def wrap32 (v : Int) : Int := (v + 2 ^ 31) % 2 ^ 32 - 2 ^ 31

/-! ## `ConvertBytes` -/

/-- The argument of `ConvertBytes` as `PyArg_ParseTuple(obj, "s(ll)y#", ...)`
sees it: a tuple `(format, (width, height), bytes)` whose first item is a
string and whose second item is a pair of Python integers.  `bytes_data` is
`none` when the third item is not a bytes object (the parse fails there, after
the two `l` conversions have stored). -/
structure PyFrame where
  format_str : String
  width : Int
  height : Int
  bytes_data : Option (List Nat)

/-- A Python integer fits the C `long` of the target (64 bits); the `l`
conversion raises `OverflowError` otherwise. -/
def fitsLong (v : Int) : Bool := decide (-2 ^ 63 ≤ v ∧ v < 2 ^ 63)

/-- The `l` conversion stores a 64-bit `long` through `&frame.height`, the
address of an `int32_t` that is followed in `Frame` by the pointer
`frame.data`: the upper 32 bits of `height` overwrite the lower half of that
pointer, which was null.  This is the 32-bit value left there. -/
def ConvertBytes.clobber (height : Int) : Int := (height / 2 ^ 32) % 2 ^ 32

/-- The RGBA buffer `ConvertBytes` allocates and fills from the RGB bytes. -/
def ConvertBytes.rgba (bytes_data : List Nat) : List Nat :=
  let bytes_size := bytes_data.length
  let rgba_size := bytes_size * 4 / 3
  forUp (bytes_size / 3) (fun i data =>
    (((data.set (4 * i + 0) (bytes_data.getD (3 * i + 0) 0)).set (4 * i + 1)
      (bytes_data.getD (3 * i + 1) 0)).set (4 * i + 2)
      (bytes_data.getD (3 * i + 2) 0)).set (4 * i + 3) 255)
    (List.replicate rgba_size 0)

/-- `ConvertBytes(obj, frame_addr)` step by step: how the call ends
(`ok frame` when it returns 1 and has assigned the frame, `error` when it
returns 0) and the size of the RGBA buffer it has allocated with
`make_unique`, if it got that far.  The argument is `none` when
`PyArg_ParseTuple` rejects the object before the `l` conversions.

The `l` conversion of `width` stores 64 bits over `frame.width` and
`frame.height`; the one of `height` then stores over `frame.height` and the
lower half of `frame.data`.  So `frame.width` and `frame.height` end up as the
low 32 bits of the two integers, and when `ConvertBytes.clobber height` is not
0 the pointer `frame.data` is garbage: every way out of the function (the two
`return 0` and the assignment of the new buffer) then calls `delete[]` on it. -/
def ConvertBytes.run (obj : Option PyFrame) : Outcome (Frame Nat) × Option Nat :=
  match obj with
  | none => (Outcome.error, none)
  | some a =>
    if ¬ (fitsLong a.width ∧ fitsLong a.height) then (Outcome.error, none)
    else if ConvertBytes.clobber a.height ≠ 0 then (Outcome.undefined, none)
    else
      match a.bytes_data with
      | none => (Outcome.error, none)
      | some bytes_data =>
        if a.format_str ≠ "RGB" then (Outcome.error, none)
        else if 2 ^ 31 ≤ bytes_data.length * 4 then (Outcome.undefined, none)
        else
          (Outcome.ok { width := wrap32 a.width, height := wrap32 a.height,
                        data := ConvertBytes.rgba bytes_data, stride := 0 },
            some (bytes_data.length * 4 / 3))

/-- `ConvertBytes(obj, frame_addr)`: how the call ends. -/
def ConvertBytes (obj : Option PyFrame) : Outcome (Frame Nat) := (ConvertBytes.run obj).1

/-! ## Expand and downsample (`PyEffectsBlur`) -/

/-- The body of the expand/downsample loop of `PyEffectsBlur` at source pixel
`(x, y)`: `w` is `frame.width`, `w16` is `frame16.width`. -/
def expandDownsample.pixel (frame_data : List Nat) (w w16 : Nat) (y x : Nat)
    (data16 : List Nat) : List Nat :=
  let i := y * w * kRgbChannels + x * kRgbChannels
  let ihalf := (y / kDownsampleFactor) * w16 * kRgbChannels +
    (x / kDownsampleFactor) * kRgbChannels
  let data16 := data16.set (ihalf + 0) ((frame_data.getD (i + 0) 0 <<< 8) % 65536)
  let data16 := data16.set (ihalf + 1) ((frame_data.getD (i + 1) 0 <<< 8) % 65536)
  data16.set (ihalf + 2) ((frame_data.getD (i + 2) 0 <<< 8) % 65536)

/-- The 16-bit frame `frame16` that `PyEffectsBlur` builds from the 8-bit frame
before calling `Blur`; `make_unique<uint16_t[]>(n)` zero-fills the buffer and
`/` is the truncating division of C++.  The embedding follows the source when
the width and the height of the frame are multiples of 3; otherwise the source
writes past `frame16` (see `expandDownsample.ihalf`), which `PyEffectsBlur`
reports as `Outcome.undefined`. -/
def expandDownsample (frame : Frame Nat) : Frame Nat :=
  let downsampled_width := Int.tdiv frame.width kDownsampleFactor
  let downsampled_height := Int.tdiv frame.height kDownsampleFactor
  let n_elements := downsampled_width * downsampled_height * kRgbChannels
  let data :=
    forUp frame.height.toNat (fun y data16 =>
      forUp frame.width.toNat (fun x data16 =>
        expandDownsample.pixel frame.data frame.width.toNat downsampled_width.toNat y x data16)
        data16)
      (List.replicate n_elements.toNat 0)
  { width := downsampled_width, height := downsampled_height, data := data, stride := 0 }

/-! ## `ConvertMask` -/

/-- What `ConvertMask` can read from its argument: the attributes `width`,
`height` and `_stride` as `PyLong_AsLong` returns them (a C `long`; `none` when
the attribute is missing or is not an integer that fits) and the result of
`to_bytes()` (`none` when the call fails or does not return bytes). -/
structure PyMask where
  width : Option Int
  height : Option Int
  stride : Option Int
  to_bytes : Option (List Nat)

/-- `ConvertMask(obj, frame_addr)`: `some frame` when the function returns 1 and
has assigned the frame, `none` when it returns 0.  Each attribute is narrowed
from `long` to `int32_t` (`int32_t val = PyLong_AsLong(py_attr)`). -/
def ConvertMask (obj : PyMask) : Option (Frame Nat) :=
  match obj.width with
  | none => none
  | some width =>
    match obj.height with
    | none => none
    | some height =>
      match obj.stride with
      | none => none
      | some stride =>
        match obj.to_bytes with
        | none => none
        | some data =>
          some { width := wrap32 width, height := wrap32 height, data := data,
                 stride := wrap32 stride }

/-- The 8-bit `background` that `PyEffectsBlur` builds from the blurred 16-bit
frame ("Scale back down to 8 bit"). -/
def narrowTo8 (frame16 : Frame Nat) : Frame Nat :=
  let n_elements := frame16.width * frame16.height * kRgbChannels
  let data :=
    forUp (frame16.width * frame16.height * kRgbChannels).toNat (fun i background =>
      background.set i ((frame16.data.getD i 0 >>> 8) % 256))
      (List.replicate n_elements.toNat 0)
  { width := frame16.width, height := frame16.height, data := data, stride := 0 }

/-- `PyBytes_FromStringAndSize(p, n)`: an error for negative `n`, otherwise a
copy of the first `n` bytes at `p`. -/
def PyBytes_FromStringAndSize (data : List Nat) (n : Int) : Option (List Nat) :=
  if n < 0 then none else some ((List.range n.toNat).map (fun i => data.getD i 0))

/-- The converted arguments on which the body of `PyEffectsBlur` stays within
defined behaviour, so that the embedding follows it:

* the frame is at least 3x3 and its width and height are multiples of 3:
  `frame16` is then not empty (`Blur` would divide by zero in `modulo`) and
  every source pixel has a destination pixel (the expand loop would write past
  `frame16`);
* `frame.data` holds `width * height` RGBA pixels (they are read by the expand
  loop and by `BackgroundMask` and copied into the result), and that count fits
  an `int32_t`;
* the mask is at least 1x1 (`BlurMask` would divide by zero), its stride is not
  negative and its bytes reach the last bit `BitmapToFloatMap` reads;
* no extent exceeds `2^24`, so that the `float` sampling coordinates of
  `BackgroundMask` stay on the grid. -/
def PyEffectsBlur.inBounds (frame mask : Frame Nat) : Bool :=
  decide (3 ≤ frame.width ∧ 3 ≤ frame.height ∧
    frame.width % 3 = 0 ∧ frame.height % 3 = 0 ∧
    frame.width * frame.height * 4 ≤ (frame.data.length : Int) ∧
    frame.width * frame.height * 4 < 2 ^ 31 ∧
    frame.width ≤ 2 ^ 24 ∧ frame.height ≤ 2 ^ 24 ∧
    1 ≤ mask.width ∧ 1 ≤ mask.height ∧ mask.width ≤ 2 ^ 24 ∧ mask.height ≤ 2 ^ 24 ∧
    mask.width * mask.height * 4 < 2 ^ 31 ∧
    0 ≤ mask.stride ∧
    (mask.height - 1) * mask.stride + (mask.width - 1) / 8 < (mask.data.length : Int))

/-- `PyEffectsBlur(self, args)` for a two-element argument tuple: `error` when
the function returns `nullptr`, `ok` with the bytes of the returned object
otherwise. -/
def PyEffectsBlur (frameArg : Option PyFrame) (maskArg : PyMask) : Outcome (List Nat) :=
  match ConvertBytes frameArg with
  | Outcome.undefined => Outcome.undefined
  | Outcome.error => Outcome.error
  | Outcome.ok frame =>
    match ConvertMask maskArg with
    | none => Outcome.error
    | some mask =>
      if ¬ PyEffectsBlur.inBounds frame mask then Outcome.undefined
      else
        let frame16 := Blur (expandDownsample frame)
        let background := narrowTo8 frame16
        let blurred_mask := BlurMask (BitmapToFloatMap mask)
        let frame := BackgroundMask frame blurred_mask background
        match PyBytes_FromStringAndSize frame.data (frame.width * frame.height * 4) with
        | none => Outcome.error
        | some bytes => Outcome.ok bytes

/-! ## `Blur` with every store checked against the `uint16_t` range -/

/-- The horizontal pass of `Blur` on row `y` (the loops of `Blur.hRow`) over
any state, with the three kinds of store as parameters: `zero i` for
`result[i] = 0`, `tap acc src` for a full-kernel tap, `slide i last mn mx` for a
sliding update. -/
def Blur.hRowWith {σ : Type} (zero : Nat → σ → σ) (tap : Nat → Nat → σ → σ)
    (slide : Nat → Nat → Nat → Nat → σ → σ) (w : Nat) (y : Nat) (result : σ) : σ :=
  let base_stride := w * kRgbChannels
  let y_offset := y * base_stride
  let result := zero (y_offset + 0) (zero (y_offset + 1) (zero (y_offset + 2) result))
  let result :=
    forFrom (-(kHalfBox : Int)) (2 * kHalfBox + 1) (fun x result =>
      let i := y_offset + (modulo x w).toNat * kRgbChannels
      let result := tap (y_offset + 0) (i + 0) result
      let result := tap (y_offset + 1) (i + 1) result
      tap (y_offset + 2) (i + 2) result) result
  forFrom 1 (w - 1) (fun x result =>
    let i := y_offset + x.toNat * kRgbChannels
    let min_x := modulo (x - kHalfBox - 1) w
    let max_x := modulo (x + kHalfBox + 1) w
    let last_i := i - kRgbChannels
    let min_i := y_offset + min_x.toNat * kRgbChannels
    let max_i := y_offset + max_x.toNat * kRgbChannels
    let result := slide (i + 0) (last_i + 0) (min_i + 0) (max_i + 0) result
    let result := slide (i + 1) (last_i + 1) (min_i + 1) (max_i + 1) result
    slide (i + 2) (last_i + 2) (min_i + 2) (max_i + 2) result) result

/-- The vertical pass of `Blur` (the loops of `Blur.vPass`) over any state,
with the stores as parameters. -/
def Blur.vPassWith {σ : Type} (zero : Nat → σ → σ) (tap : Nat → Nat → σ → σ)
    (slide : Nat → Nat → Nat → Nat → σ → σ) (w h : Nat) (result : σ) : σ :=
  let base_stride := w * kRgbChannels
  let result :=
    forUp w (fun x result =>
      let i := x * kRgbChannels
      zero (i + 0) (zero (i + 1) (zero (i + 2) result))) result
  let result :=
    forFrom (-(kHalfBox : Int)) (2 * kHalfBox + 1) (fun y result =>
      let wrapped_y := (modulo y h).toNat
      forUp w (fun x result =>
        let i_x := x * kRgbChannels
        let result := tap (i_x + 0) (wrapped_y * base_stride + i_x + 0) result
        let result := tap (i_x + 1) (wrapped_y * base_stride + i_x + 1) result
        tap (i_x + 2) (wrapped_y * base_stride + i_x + 2) result) result) result
  forFrom 1 (h - 1) (fun y result =>
    let y_offset := y.toNat * base_stride
    let last_y := y_offset - base_stride
    let min_y := (modulo (y - kHalfBox - 1) h).toNat * base_stride
    let max_y := (modulo (y + kHalfBox + 1) h).toNat * base_stride
    forUp w (fun x result =>
      let i_x := x * kRgbChannels
      let i := y_offset + i_x
      let i_last := last_y + i_x
      let i_min := min_y + i_x
      let i_max := max_y + i_x
      let result := slide (i + 0) (i_last + 0) (i_min + 0) (i_max + 0) result
      let result := slide (i + 1) (i_last + 1) (i_min + 1) (i_max + 1) result
      slide (i + 2) (i_last + 2) (i_min + 2) (i_max + 2) result) result) result

/-- The iterations of `Blur` over any state, with the stores as parameters. -/
def Blur.runWith {σ : Type} (zero : Nat → σ → σ) (tap : Nat → Nat → σ → σ)
    (slide : Nat → Nat → Nat → Nat → σ → σ) (w h : Nat) (result : σ) : σ :=
  forUp kBlurIterations (fun _ result =>
    let result := forUp h (fun y result => Blur.hRowWith zero tap slide w y result) result
    Blur.vPassWith zero tap slide w h result) result

/-- A value converted to `uint16_t` on a store is unchanged exactly when it lies
in `[0, 65535]`. -/
def Blur.inRange (v : Int) : Bool := decide (0 ≤ v ∧ v ≤ 65535)

/-- `result[i] = 0` on a buffer paired with the flag "no store so far has
wrapped". -/
def Blur.zeroChk (i : Nat) (s : List Nat × Bool) : List Nat × Bool :=
  (s.1.set i 0, s.2)

/-- A full-kernel tap on the flagged buffer: the value
`result[acc] + round_half(kBoxFactor * result[src])` is checked before it is
stored as `uint16_t`. -/
def Blur.tapChk (acc src : Nat) (s : List Nat × Bool) : List Nat × Bool :=
  (Blur.tap acc src s.1,
    s.2 && Blur.inRange ((s.1.getD acc 0 : Int) +
      round_half (F32.mul kBoxFactor (F32.ofInt (s.1.getD src 0)))))

/-- A sliding update on the flagged buffer: the value returned by
`clampint<uint16_t>` is checked before it is stored. -/
def Blur.slideChk (i last mn mx : Nat) (s : List Nat × Bool) : List Nat × Bool :=
  (Blur.slide i last mn mx s.1,
    s.2 && Blur.inRange (clampint 16 (round_half (F32.add
      (F32.sub (F32.ofInt (s.1.getD last 0))
        (F32.mul kBoxFactor (F32.ofInt (s.1.getD mn 0))))
      (F32.mul kBoxFactor (F32.ofInt (s.1.getD mx 0)))))))

/-! ## The 1-D pass of `Blur` on one line -/

/-- The 1-D pass that `Blur` applies to one channel of one line (a row in the
horizontal pass, a column in the vertical pass), as a function of the samples
of that line alone: the loops of `Blur.hRow` for a line stored with stride 1.
Element 0 is zeroed and accumulates the 13 taps, the elements after it are
sliding updates. -/
def Blur.line (n : Nat) (s : List Nat) : List Nat :=
  let s := s.set 0 0
  let s :=
    forFrom (-(kHalfBox : Int)) (2 * kHalfBox + 1) (fun x s =>
      Blur.tap 0 (modulo x n).toNat s) s
  forFrom 1 (n - 1) (fun x s =>
    Blur.slide x.toNat (x.toNat - 1) (modulo (x - kHalfBox - 1) n).toNat
      (modulo (x + kHalfBox + 1) n).toNat s) s

/-! ## Loop headers and index expressions -/

/-- The values of `x` that a full-kernel loop
`for (x = -half; x <= half; ++x)` visits, in order. -/
def kernelTaps (half : Nat) : List Int :=
  forFrom (-(half : Int)) (2 * half + 1) (fun x taps => taps ++ [x]) []

/-- The index `ihalf` of the expand/downsample loop of `PyEffectsBlur` at source
pixel `(x, y)`; `w16` is `frame16.width`. -/
def expandDownsample.ihalf (w16 y x : Nat) : Nat :=
  (y / kDownsampleFactor) * w16 * kRgbChannels + (x / kDownsampleFactor) * kRgbChannels

/-! ## `Blur` and `BlurMask` with every buffer index checked

The loops of the source once more, with the indices as the signed integers
the source computes (`int32_t`, no conversion to a natural number) and a flag
that records whether every index used so far, in a read or in a write, lay in
`[0, N)`. -/

/-- The index `i` lies in `[0, N)`. -/
def inBuffer (N i : Int) : Bool := decide (0 ≤ i ∧ i < N)

/-- `result[i]` as a read, at a signed index. -/
def Blur.loadAt (result : List Nat) (i : Int) : Nat :=
  if 0 ≤ i then result.getD i.toNat 0 else 0

/-- `result[i] = v`, at a signed index. -/
def Blur.storeAt (result : List Nat) (i : Int) (v : Nat) : List Nat :=
  if 0 ≤ i then result.set i.toNat v else result

/-- `result[i] = 0`, index checked. -/
def Blur.zeroAt (N i : Int) (s : List Nat × Bool) : List Nat × Bool :=
  (Blur.storeAt s.1 i 0, s.2 && inBuffer N i)

/-- `result[acc] += round_half(kBoxFactor * result[src])`, indices checked. -/
def Blur.tapAt (N acc src : Int) (s : List Nat × Bool) : List Nat × Bool :=
  (Blur.storeAt s.1 acc
    (((Blur.loadAt s.1 acc : Int) +
      round_half (F32.mul kBoxFactor (F32.ofInt (Blur.loadAt s.1 src)))) % 65536).toNat,
    s.2 && inBuffer N acc && inBuffer N src)

/-- `result[i] = clampint<uint16_t>(round_half(result[last] -
kBoxFactor * result[mn] + kBoxFactor * result[mx]))`, indices checked. -/
def Blur.slideAt (N i last mn mx : Int) (s : List Nat × Bool) : List Nat × Bool :=
  (Blur.storeAt s.1 i (clampint 16 (round_half (F32.add
    (F32.sub (F32.ofInt (Blur.loadAt s.1 last))
      (F32.mul kBoxFactor (F32.ofInt (Blur.loadAt s.1 mn))))
    (F32.mul kBoxFactor (F32.ofInt (Blur.loadAt s.1 mx)))))),
    s.2 && inBuffer N i && inBuffer N last && inBuffer N mn && inBuffer N mx)

/-- The horizontal pass of `Blur` on row `y`, indices checked against `N`. -/
def Blur.hRowAt (N width y : Int) (s : List Nat × Bool) : List Nat × Bool :=
  let base_stride := width * kRgbChannels
  let y_offset := y * base_stride
  let s := Blur.zeroAt N (y_offset + 0) (Blur.zeroAt N (y_offset + 1)
    (Blur.zeroAt N (y_offset + 2) s))
  let s :=
    forFrom (-(kHalfBox : Int)) (2 * kHalfBox + 1) (fun x s =>
      let i := y_offset + modulo x width * kRgbChannels
      let s := Blur.tapAt N (y_offset + 0) (i + 0) s
      let s := Blur.tapAt N (y_offset + 1) (i + 1) s
      Blur.tapAt N (y_offset + 2) (i + 2) s) s
  forFrom 1 (width - 1).toNat (fun x s =>
    let i := y_offset + x * kRgbChannels
    let min_x := modulo (x - kHalfBox - 1) width
    let max_x := modulo (x + kHalfBox + 1) width
    let last_i := i - kRgbChannels
    let min_i := y_offset + min_x * kRgbChannels
    let max_i := y_offset + max_x * kRgbChannels
    let s := Blur.slideAt N (i + 0) (last_i + 0) (min_i + 0) (max_i + 0) s
    let s := Blur.slideAt N (i + 1) (last_i + 1) (min_i + 1) (max_i + 1) s
    Blur.slideAt N (i + 2) (last_i + 2) (min_i + 2) (max_i + 2) s) s

/-- The vertical pass of `Blur`, indices checked against `N`. -/
def Blur.vPassAt (N width height : Int) (s : List Nat × Bool) : List Nat × Bool :=
  let base_stride := width * kRgbChannels
  let s :=
    forFrom 0 width.toNat (fun x s =>
      let i := x * kRgbChannels
      Blur.zeroAt N (i + 0) (Blur.zeroAt N (i + 1) (Blur.zeroAt N (i + 2) s))) s
  let s :=
    forFrom (-(kHalfBox : Int)) (2 * kHalfBox + 1) (fun y s =>
      let wrapped_y := modulo y height
      forFrom 0 width.toNat (fun x s =>
        let i_x := x * kRgbChannels
        let s := Blur.tapAt N (i_x + 0) (wrapped_y * base_stride + i_x + 0) s
        let s := Blur.tapAt N (i_x + 1) (wrapped_y * base_stride + i_x + 1) s
        Blur.tapAt N (i_x + 2) (wrapped_y * base_stride + i_x + 2) s) s) s
  forFrom 1 (height - 1).toNat (fun y s =>
    let y_offset := y * base_stride
    let last_y := y_offset - base_stride
    let min_y := modulo (y - kHalfBox - 1) height * base_stride
    let max_y := modulo (y + kHalfBox + 1) height * base_stride
    forFrom 0 width.toNat (fun x s =>
      let i_x := x * kRgbChannels
      let i := y_offset + i_x
      let i_last := last_y + i_x
      let i_min := min_y + i_x
      let i_max := max_y + i_x
      let s := Blur.slideAt N (i + 0) (i_last + 0) (i_min + 0) (i_max + 0) s
      let s := Blur.slideAt N (i + 1) (i_last + 1) (i_min + 1) (i_max + 1) s
      Blur.slideAt N (i + 2) (i_last + 2) (i_min + 2) (i_max + 2) s) s) s

/-- The iterations of `Blur`, indices checked against `N`. -/
def Blur.runAt (N width height : Int) (s : List Nat × Bool) : List Nat × Bool :=
  forUp kBlurIterations (fun _ s =>
    let s := forFrom 0 height.toNat (fun y s => Blur.hRowAt N width y s) s
    Blur.vPassAt N width height s) s

/-- `result[i]` of the mask as a read, at a signed index. -/
def BlurMask.loadAt (result : List F32) (i : Int) : F32 :=
  if 0 ≤ i then result.getD i.toNat 0 else 0

/-- `result[i] = v` on the mask, at a signed index. -/
def BlurMask.storeAt (result : List F32) (i : Int) (v : F32) : List F32 :=
  if 0 ≤ i then result.set i.toNat v else result

/-- `result[i] = 0` on the mask, index checked. -/
def BlurMask.zeroAt (N i : Int) (s : List F32 × Bool) : List F32 × Bool :=
  (BlurMask.storeAt s.1 i 0, s.2 && inBuffer N i)

/-- `result[acc] += factor * result[src]`, indices checked. -/
def BlurMask.tapAt (factor : F32) (N acc src : Int) (s : List F32 × Bool) : List F32 × Bool :=
  (BlurMask.storeAt s.1 acc (F32.add (BlurMask.loadAt s.1 acc)
      (F32.mul factor (BlurMask.loadAt s.1 src))),
    s.2 && inBuffer N acc && inBuffer N src)

/-- `result[i] = zero_one(result[last] - factor * result[mn] +
factor * result[mx])`, indices checked. -/
def BlurMask.slideAt (factor : F32) (N i last mn mx : Int) (s : List F32 × Bool) :
    List F32 × Bool :=
  (BlurMask.storeAt s.1 i (zero_one (F32.add
      (F32.sub (BlurMask.loadAt s.1 last) (F32.mul factor (BlurMask.loadAt s.1 mn)))
      (F32.mul factor (BlurMask.loadAt s.1 mx)))),
    s.2 && inBuffer N i && inBuffer N last && inBuffer N mn && inBuffer N mx)

/-- The horizontal pass of `BlurMask` on row `y`, indices checked against `N`. -/
def BlurMask.hRowAt (N width y : Int) (s : List F32 × Bool) : List F32 × Bool :=
  let mask_stride := width
  let y_offset := y * mask_stride
  let s := BlurMask.zeroAt N y_offset s
  let s :=
    forFrom (-(kMaskHalfBoxX : Int)) (2 * kMaskHalfBoxX + 1) (fun x s =>
      let i := y_offset + modulo x width
      BlurMask.tapAt kMaskBoxFactorX N y_offset i s) s
  forFrom 1 (width - 1).toNat (fun x s =>
    let i := y_offset + x
    let min_x := modulo (x - kMaskHalfBoxX - 1) width
    let max_x := modulo (x + kMaskHalfBoxX + 1) width
    let last_i := i - 1
    let min_i := y_offset + min_x
    let max_i := y_offset + max_x
    BlurMask.slideAt kMaskBoxFactorX N i last_i min_i max_i s) s

/-- The vertical pass of `BlurMask`, indices checked against `N`. -/
def BlurMask.vPassAt (N width height : Int) (s : List F32 × Bool) : List F32 × Bool :=
  let mask_stride := width
  let s := forFrom 0 width.toNat (fun x s => BlurMask.zeroAt N x s) s
  let s :=
    forFrom (-(kMaskHalfBoxY : Int)) (2 * kMaskHalfBoxY + 1) (fun y s =>
      let wrapped_y := modulo (y.natAbs : Int) height
      forFrom 0 width.toNat (fun x s =>
        BlurMask.tapAt kMaskBoxFactorY N x (wrapped_y * mask_stride + x) s) s) s
  forFrom 1 (height - 1).toNat (fun y s =>
    let y_offset := y * mask_stride
    let last_y := y_offset - mask_stride
    let min_y := modulo (y - kMaskHalfBoxY - 1) height * mask_stride
    let max_y := modulo (y + kMaskHalfBoxY + 1) height * mask_stride
    forFrom 0 width.toNat (fun x s =>
      let i := y_offset + x
      let i_last := last_y + x
      let i_min := min_y + x
      let i_max := max_y + x
      BlurMask.slideAt kMaskBoxFactorY N i i_last i_min i_max s) s) s

/-- The iterations of `BlurMask`, indices checked against `N`. -/
def BlurMask.runAt (N width height : Int) (s : List F32 × Bool) : List F32 × Bool :=
  forUp kMaskBlurIterations (fun _ s =>
    let s := forFrom 0 height.toNat (fun y s => BlurMask.hRowAt N width y s) s
    BlurMask.vPassAt N width height s) s

/-! ## Specification-side notions -/

/-- Representable magnitudes: the stored integers of finite binary32 values,
`± t * 2^s` with a significand `t` of at most 24 bits. -/
def F32.Rep (x : Int) : Prop := ∃ t s : Nat, t < 2 ^ 24 ∧ x.natAbs = t * 2 ^ s

/-- The word `BackgroundMask` writes at flat pixel index `q` of a `W × H` frame
whose word there is `fc`. -/
def BackgroundMask.pixelWord (W H : Nat) (mask : Frame F32) (bg : Frame Nat) (q fc : Nat) :
    Nat :=
  BackgroundMask.blend fc
    (loadWord bg.data (sampleIndex W H bg.width bg.height (q % W) (q / W)))
    (mask.data.getD (sampleIndex W H mask.width mask.height (q % W) (q / W)) 0)

/-! ## Example inputs -/

/-- A 2x2 frame of red pixels `(255, 0, 0)` with fourth byte 255. -/
def redFrame : Frame Nat := ⟨2, 2, [255, 0, 0, 255, 255, 0, 0, 255, 255, 0, 0, 255, 255, 0, 0, 255], 0⟩

/-- A 2x2 background of blue pixels `(0, 0, 255)` with fourth byte 255. -/
def blueFrame : Frame Nat := ⟨2, 2, [0, 0, 255, 255, 0, 0, 255, 255, 0, 0, 255, 255, 0, 0, 255, 255], 0⟩

/-- The 2x2 opacity map with the value `v` everywhere. -/
def constMask (v : F32) : Frame F32 := ⟨2, 2, [v, v, v, v], 0⟩

/-- A 23x1 frame whose pixel `i` is `(i, i, i)` with fourth byte 0. -/
def rampFrame : Frame Nat := ⟨23, 1, (List.range 92).map (fun j => if j % 4 = 3 then 0 else j / 4), 0⟩

/-- A 23x1 frame of grey pixels `(9, 9, 9)` with fourth byte 0. -/
def greyFrame : Frame Nat := ⟨23, 1, (List.range 92).map (fun j => if j % 4 = 3 then 0 else 9), 0⟩

/-- The state of a checked run of `Blur` is good: no store has wrapped so far
and every sample of the buffer fits in 16 bits. -/
def Blur.Good (s : List Nat × Bool) : Prop := s.2 = true ∧ ∀ j, s.1.getD j 0 ≤ 65535

/-- A line of 16 pixels, all zero except pixel 7, whose three active channels
hold 13000 (a 16x1 row, and equally a 1x16 column). -/
def pulseLine : List Nat :=
  (List.range 64).map (fun j => if j / 4 = 7 ∧ j % 4 ≠ 3 then 13000 else 0)

/-- The sliding update in the words of the specification:
`clamp(round(prev - boxFactor * outgoing + boxFactor * incoming))`. -/
def Blur.slidingDelta (prev outgoing incoming : Nat) : Nat :=
  clampint 16 (round_half (F32.add
    (F32.sub (F32.ofInt prev) (F32.mul kBoxFactor (F32.ofInt outgoing)))
    (F32.mul kBoxFactor (F32.ofInt incoming))))

/-- The rounded contribution of one sample to a full-kernel sum of `Blur`:
`round_half(kBoxFactor * v)`. -/
def Blur.term (v : Nat) : Nat :=
  (round_half (F32.mul kBoxFactor (F32.ofInt (v : Int)))).toNat

/-- The sum of the contributions of the first `k` taps of the full-kernel loop
(loop values `-6, -5, ...`), the centre tap (loop value 0) left out; `g i` is the
contribution of the tap with loop value `i`. -/
def Blur.partialSide (g : Int → Nat) : Nat → Nat
  | 0 => 0
  | k + 1 => Blur.partialSide g k + (if k = 6 then 0 else g (-6 + (k : Int)))

/-- The sum of the contributions of the twelve taps beside the centre, loop
values `-6..-1` and `1..6`. -/
def Blur.sideSum (g : Int → Nat) : Nat :=
  ([-6, -5, -4, -3, -2, -1, 1, 2, 3, 4, 5, 6].map g).sum

/-- An accumulator holding `v` after `k` taps of the full-kernel loop: the side
contributions so far plus a centre contribution, which is zero before the centre
tap and at most 5041 after it. -/
def Blur.Chan (g : Int → Nat) (k v : Nat) : Prop :=
  ∃ centre, centre ≤ (if k ≤ 6 then 0 else 5041) ∧
    v = Blur.partialSide g k + centre ∧ v ≤ 5041 * k

/-- The average of the 13 samples of a line centred on element 0, wraparound
indexed, rounded to the nearest integer. -/
def Blur.kernelAverage (line : Int → Nat) : Nat :=
  (2 * ((List.range 13).map (fun k => line (-6 + (k : Int)))).sum + 13) / 26

/-- The buffer `t` holds the line `l` of `n` samples at the indices `idx 0`,
..., `idx (n - 1)`, all inside the buffer. -/
def Blur.View (idx : Nat → Nat) (n : Nat) (t l : List Nat) : Prop :=
  l.length = n ∧ (∀ i, i < n → idx i < t.length) ∧ ∀ i, i < n → t.getD (idx i) 0 = l.getD i 0
/-- The cyclic shift of a `w`x`h` RGBA buffer by `s` rows: row `y` of the result
is row `(y + s) mod h` of `d`. -/
def shiftRows (w h s : Nat) (d : List Nat) : List Nat :=
  (List.range (h * (w * 4))).map (fun j =>
    d.getD (((j / (w * 4) + s) % h) * (w * 4) + j % (w * 4)) 0)

/-- The cyclic shift of a `w`x`h` RGBA buffer by `s` columns: pixel `x` of each
row of the result is pixel `(x + s) mod w` of that row of `d`. -/
def shiftCols (w h s : Nat) (d : List Nat) : List Nat :=
  (List.range (h * (w * 4))).map (fun j =>
    d.getD (j / (w * 4) * (w * 4) + ((j % (w * 4) / 4 + s) % w) * 4 + j % 4) 0)
/-- A 13x13 frame whose column 0 holds 13000 in the three active channels;
every other sample is 0. -/
def stripeFrame : Frame Nat :=
  ⟨13, 13, (List.range 676).map (fun j => if j % 52 < 3 then 13000 else 0), 0⟩

/-- Two float buffers of the same length agree at every index in `S`. -/
def AgreeOn (S : Nat → Prop) (t1 t2 : List F32) : Prop :=
  t1.length = t2.length ∧ ∀ j, S j → t1.getD j 0 = t2.getD j 0

/-- A 3x9 mask: rows 0..7 hold `1.0`, the bottom row holds `0.0`. -/
def onesOverZeroRow : List F32 :=
  [F32.one, F32.one, F32.one, F32.one, F32.one, F32.one, F32.one, F32.one, F32.one,
   F32.one, F32.one, F32.one, F32.one, F32.one, F32.one, F32.one, F32.one, F32.one,
   F32.one, F32.one, F32.one, F32.one, F32.one, F32.one, 0, 0, 0]

/-- A 3x9 mask of `1.0`. -/
def onesMask27 : List F32 :=
  [F32.one, F32.one, F32.one, F32.one, F32.one, F32.one, F32.one, F32.one, F32.one,
   F32.one, F32.one, F32.one, F32.one, F32.one, F32.one, F32.one, F32.one, F32.one,
   F32.one, F32.one, F32.one, F32.one, F32.one, F32.one, F32.one, F32.one, F32.one]

end Effects

/-! # The Ambarella sample: `Canvas` and `MovingAverage`

`std::int32_t` values are integers; the result of an `int32` addition or
multiplication is wrapped to 32 bits by `int32`.  `Color` is a byte, held as a
natural number.  A `throw` is modelled by returning the message together with
the object as it is at the moment of the throw. -/

namespace xnor_sample

open Effects

/-- The value of an `std::int32_t` expression: two's-complement wrap. -/
def int32 (v : Int) : Int := (v + 2 ^ 31) % 2 ^ 32 - 2 ^ 31

/-- The struct `Rect` of `base/rectangle.h`. -/
structure Rect where
  x : Int
  y : Int
  width : Int
  height : Int

def Rect.left (r : Rect) : Int := r.x
def Rect.top (r : Rect) : Int := r.y
/-- `Rect::right()`; the source asserts `width >= 0`. -/
def Rect.right (r : Rect) : Int := int32 (r.x + r.width)
/-- `Rect::bottom()`; the source asserts `height >= 0`. -/
def Rect.bottom (r : Rect) : Int := int32 (r.y + r.height)

/-- The struct `Size` of `base/rectangle.h`. -/
structure Size where
  width : Int
  height : Int

/-- The class `Canvas`: a byte per pixel, row-major. -/
structure Canvas where
  data_ : List Nat
  face_size_ : Size

def Canvas.width (c : Canvas) : Int := c.face_size_.width
def Canvas.height (c : Canvas) : Int := c.face_size_.height

/-- `std::fill(first, last, value)` on offsets into `data_`: one store per
offset from `first` up to `last`. -/
def fill (data : List Nat) (first last : Int) (value : Nat) : List Nat :=
  forFrom first (last - first).toNat
    (fun i d => if 0 ≤ i then d.set i.toNat value else d) data

/-- `Canvas::FillRectangle(color, rect)`: the canvas after the call, and the
message of the exception if one is thrown. -/
def Canvas.FillRectangle (c : Canvas) (color : Nat) (rect : Rect) : Canvas × Option String :=
  let min_x := max 0 rect.left
  let max_x := min c.width rect.right
  if min_x ≥ max_x then
    (c, some "Horizontal fill size is 0 or negative for FillRectangle")
  else
    let min_y := max 0 rect.top
    let max_y := min c.height rect.bottom
    if min_y ≥ max_y then
      (c, some "Vertical fill size is 0 or negative for FillRectangle")
    else
      (⟨forFrom (max 0 rect.top) (max_y - max 0 rect.top).toNat
          (fun y d => fill d (int32 (y * c.width) + min_x) (int32 (y * c.width) + max_x) color)
          c.data_, c.face_size_⟩, none)

/-! ## binary64 arithmetic

A `double` is IEEE-754 binary64 with round-to-nearest-even.  A finite value
is `±m * 2^(-1074)` for a natural number `m < 2^2098` whose significand has at
most 53 bits; the embedding stores the sign and `m`, so the two zeros are
distinct.  NaN payloads are not distinguished. -/

/-- A `double`. -/
inductive F64 where
  /-- The finite value `(-1)^negative * m * 2^(-1074)`. -/
  | finite (negative : Bool) (m : Nat)
  /-- An infinity. -/
  | inf (negative : Bool)
  /-- A NaN. -/
  | nan
  deriving DecidableEq

/-- The `double` `0.0`. -/
def F64.zero : F64 := F64.finite false 0

/-- How many low bits a magnitude `k` (in units of `2^(-1074)`) loses to fit a
53-bit significand: the least `s` with `k < 2^(53+s)`.  The first argument is
fuel; `dropBits53 k k` always has enough. -/
def dropBits53 : Nat → Nat → Nat
  | 0, _ => 0
  | fuel + 1, k => if k < 2 ^ 53 then 0 else dropBits53 fuel (k / 2) + 1

/-- Round the magnitude `a / q` (units of `2^(-1074)`, `q > 0`) to the nearest
magnitude with a 53-bit significand, ties to the even significand. -/
def roundMag53 (a q : Nat) : Nat :=
  let s := dropBits53 (a / q) (a / q)
  let d := q * 2 ^ s
  let t := a / d
  let r := a % d
  if d < 2 * r ∨ (2 * r = d ∧ t % 2 = 1) then (t + 1) * 2 ^ s else t * 2 ^ s

/-- Round the magnitude `a / q` with the given sign to binary64: a rounded
magnitude of `2^1024` or more overflows to the infinity of that sign. -/
def F64.round (negative : Bool) (a q : Nat) : F64 :=
  let r := roundMag53 a q
  if 2 ^ 2098 ≤ r then F64.inf negative else F64.finite negative r

/-- The signed integer `±m` of a finite value. -/
def F64.signed (negative : Bool) (m : Nat) : Int :=
  if negative then -(m : Int) else (m : Int)

/-- The `double` sum `x + y`. -/
def F64.add : F64 → F64 → F64
  | F64.finite na a, F64.finite nb b =>
    let s := F64.signed na a + F64.signed nb b
    if s = 0 then F64.finite (na && nb) 0 else F64.round (decide (s < 0)) s.natAbs 1
  | F64.finite _ _, F64.inf nb => F64.inf nb
  | F64.inf na, F64.finite _ _ => F64.inf na
  | F64.inf na, F64.inf nb => if na = nb then F64.inf na else F64.nan
  | _, _ => F64.nan

/-- The `double` quotient `x / y`. -/
def F64.div : F64 → F64 → F64
  | F64.finite na a, F64.finite nb b =>
    if b = 0 then (if a = 0 then F64.nan else F64.inf (xor na nb))
    else F64.round (xor na nb) (a * 2 ^ 1074) b
  | F64.finite na _, F64.inf nb => F64.finite (xor na nb) 0
  | F64.inf na, F64.finite nb _ => F64.inf (xor na nb)
  | _, _ => F64.nan

/-- Conversion of a `std::uint64_t` or `size_t` value to `double`. -/
def F64.ofNat (n : Nat) : F64 := F64.round false (n * 2 ^ 1074) 1

/-- The class `MovingAverage` of `object_detector.cc`. -/
structure MovingAverage where
  buffer_ : List F64
  num_updates_ : Nat

/-- The constructor: `buffer_len` elements `0.0`, no updates; the source
asserts `buffer_len > 0`. -/
def MovingAverage.create (buffer_len : Nat) : MovingAverage :=
  ⟨List.replicate buffer_len F64.zero, 0⟩

/-- `MovingAverage::Update(val)`; `num_updates_` is a `std::uint64_t`. -/
def MovingAverage.Update (m : MovingAverage) (val : F64) : MovingAverage :=
  ⟨m.buffer_.set (m.num_updates_ % m.buffer_.length) val, (m.num_updates_ + 1) % 2 ^ 64⟩

/-- `MovingAverage::GetAverage()`. -/
def MovingAverage.GetAverage (m : MovingAverage) : F64 :=
  let sum := m.buffer_.foldl (fun sum v => F64.add sum v) F64.zero
  let divisor : F64 :=
    if m.num_updates_ > m.buffer_.length then F64.ofNat m.buffer_.length
    else F64.ofNat m.num_updates_
  if m.num_updates_ > 0 then F64.div sum divisor else F64.zero

/-! ## Specification-side notions for `MovingAverage` -/

/-- The `double` of an integer `n` whose magnitude has at most 53 significant
bits, such as `10^16 = 5^16 * 2^16` (exact). -/
def F64.ofExactInt (n : Int) : F64 := F64.finite (decide (n < 0)) (n.natAbs * 2 ^ 1074)

/-- The exact value of a finite `double` in units of `2^(-1074)`; 0 for an
infinity or a NaN. -/
def F64.units : F64 → Int
  | F64.finite negative m => F64.signed negative m
  | _ => 0

end xnor_sample

/-! # Theorems -/

namespace Effects

/-! ## Loop lemmas -/

theorem forUp_zero {σ : Type} (body : Nat → σ → σ) (s : σ) : forUp 0 body s = s := rfl

theorem forUp_succ {σ : Type} (n : Nat) (body : Nat → σ → σ) (s : σ) :
    forUp (n + 1) body s = body n (forUp n body s) := by
  simp [forUp, List.range_succ, List.foldl_append]

/-- Loop-invariant rule for `forUp`: an invariant indexed by the number of
completed iterations. -/
theorem forUp_invariant {σ : Type} (J : Nat → σ → Prop) (n : Nat) (body : Nat → σ → σ)
    (s : σ) (h0 : J 0 s) (hstep : ∀ i t, i < n → J i t → J (i + 1) (body i t)) :
    J n (forUp n body s) := by
  induction n with
  | zero => simpa [forUp_zero] using h0
  | succ n ih =>
    rw [forUp_succ]
    exact hstep n _ (Nat.lt_succ_self n) (ih (fun i t hi => hstep i t (Nat.lt_succ_of_lt hi)))

/-- Invariant rule for `forUp` with an invariant that does not mention the counter. -/
theorem forUp_preserves {σ : Type} (P : σ → Prop) (n : Nat) (body : Nat → σ → σ)
    (s : σ) (h0 : P s) (hstep : ∀ i t, i < n → P t → P (body i t)) :
    P (forUp n body s) :=
  forUp_invariant (fun _ t => P t) n body s h0 hstep

theorem forFrom_preserves {σ : Type} (P : σ → Prop) (lo : Int) (n : Nat)
    (body : Int → σ → σ) (s : σ) (h0 : P s)
    (hstep : ∀ (i : Nat) t, i < n → P t → P (body (lo + i) t)) :
    P (forFrom lo n body s) :=
  forUp_preserves P n _ s h0 hstep

theorem forUp_congr {σ : Type} (n : Nat) (f g : Nat → σ → σ) (s : σ)
    (h : ∀ i t, i < n → f i t = g i t) : forUp n f s = forUp n g s := by
  induction n with
  | zero => rfl
  | succ n ih =>
    rw [forUp_succ, forUp_succ, ih (fun i t hi => h i t (Nat.lt_succ_of_lt hi))]
    exact h n _ (Nat.lt_succ_self n)

theorem forUp_add {σ : Type} (a b : Nat) (f : Nat → σ → σ) (s : σ) :
    forUp (a + b) f s = forUp b (fun i t => f (a + i) t) (forUp a f s) := by
  induction b with
  | zero => rfl
  | succ b ih => rw [← Nat.add_assoc, forUp_succ, forUp_succ, ih]

/-- A row-major double loop is one loop over the flat pixel index. -/
theorem forUp_nested {σ : Type} (h w : Nat) (B : Nat → Nat → σ → σ) (s : σ) :
    forUp h (fun y t => forUp w (fun x u => B y x u) t) s =
      forUp (h * w) (fun p t => B (p / w) (p % w) t) s := by
  induction h with
  | zero => simp [forUp_zero]
  | succ h ih =>
    rw [forUp_succ, ih, Nat.succ_mul, forUp_add]
    apply forUp_congr
    intro i t hi
    have hw : 0 < w := by omega
    have h1 : (h * w + i) / w = h := by
      rw [Nat.add_comm, Nat.add_mul_div_right _ _ hw, Nat.div_eq_of_lt hi, Nat.zero_add]
    have h2 : (h * w + i) % w = i := by
      rw [Nat.add_comm, Nat.add_mul_mod_self_right, Nat.mod_eq_of_lt hi]
    rw [h1, h2]

/-- A loop that stores `g p` at position `p`, for `p < n`. -/
theorem forUp_set_getElem? {α : Type} (n : Nat) (g : Nat → α) (d : List α) (j : Nat) :
    (forUp n (fun p t => t.set p (g p)) d)[j]? =
      if j < n ∧ j < d.length then some (g j) else d[j]? := by
  induction n with
  | zero => simp [forUp_zero]
  | succ n ih =>
    have hlen : (forUp n (fun p t => t.set p (g p)) d).length = d.length :=
      forUp_preserves (fun t => t.length = d.length) n _ d rfl
        (fun i t _ ht => by simpa using ht)
    rw [forUp_succ, List.getElem?_set, ih, hlen]
    by_cases hj : n = j
    · subst hj
      by_cases hl : n < d.length
      · simp [hl]
      · have h3 : d[n]? = none := List.getElem?_eq_none (by omega)
        simp [hl, h3]
    · simp only [hj, if_false]
      by_cases h1 : j < n
      · simp [h1, Nat.lt_succ_of_lt h1]
      · have h2 : ¬ j < n + 1 := by omega
        simp [h1, h2]

end Effects

namespace Effects

/-! ## binary32 lemmas -/

theorem F32.ofInt_zero : F32.ofInt 0 = 0 := by decide!

theorem F32.ofInt_one : F32.ofInt 1 = F32.one := by decide!

/-! ## `BitmapToFloatMap` -/

/-- The sample `BitmapToFloatMap` stores for a source byte and a bit position. -/
theorem bit_sample (b k : Nat) :
    F32.ofInt (((b >>> k) &&& 1 : Nat) : Int) = if b.testBit k then F32.one else 0 := by
  have h : (b >>> k) &&& 1 = (b >>> k) % 2 := Nat.and_one_is_mod _
  rw [h, Nat.testBit, Nat.and_comm, h]
  rcases Nat.mod_two_eq_zero_or_one (b >>> k) with h0 | h1
  · rw [h0]; simpa using F32.ofInt_zero
  · rw [h1]; simpa using F32.ofInt_one

theorem BitmapToFloatMap_data (w h s : Nat) (d : List Nat) :
    (BitmapToFloatMap ⟨w, h, d, s⟩).data =
      forUp (h * w) (fun p t => t.set p
        (if (d.getD (p / w * s + p % w / 8) 0).testBit (p % w % 8) then F32.one else 0))
        (List.replicate (w * h) 0) := by
  simp only [BitmapToFloatMap, Int.toNat_ofNat]
  rw [forUp_nested]
  apply forUp_congr
  intro p t _
  rw [bit_sample, Nat.div_add_mod']

/-- C1: `BitmapToFloatMap` keeps width and height and decodes pixel `(x, y)` to
`1.0` when bit `x mod 8` (bit 0 least significant) of byte `stride*y + x div 8`
is set, and to `0.0` otherwise. -/
theorem BitmapToFloatMap_spec (w h s : Nat) (d : List Nat) (x y : Nat)
    (hx : x < w) (hy : y < h) (hd : s * y + x / 8 < d.length) :
    (BitmapToFloatMap ⟨w, h, d, s⟩).width = w ∧
    (BitmapToFloatMap ⟨w, h, d, s⟩).height = h ∧
    (BitmapToFloatMap ⟨w, h, d, s⟩).data[y * w + x]? =
      some (if (d.get ⟨s * y + x / 8, hd⟩).testBit (x % 8) then F32.one else 0) := by
  refine ⟨rfl, rfl, ?_⟩
  rw [BitmapToFloatMap_data, forUp_set_getElem?]
  have hp : y * w + x < h * w := by
    calc y * w + x < y * w + w := by omega
      _ = (y + 1) * w := by ring
      _ ≤ h * w := Nat.mul_le_mul_right w hy
  have h1 : (y * w + x) / w = y := by
    rw [Nat.add_comm, Nat.add_mul_div_right _ _ (by omega), Nat.div_eq_of_lt hx, Nat.zero_add]
  have h2 : (y * w + x) % w = x := by
    rw [Nat.add_comm, Nat.add_mul_mod_self_right, Nat.mod_eq_of_lt hx]
  have hlen : y * w + x < (List.replicate (w * h) (0 : F32)).length := by
    rw [List.length_replicate, Nat.mul_comm w h]; exact hp
  rw [if_pos ⟨hp, hlen⟩, h1, h2]
  have hd2 : y * s + x / 8 < d.length := by rw [Nat.mul_comm]; exact hd
  have hg : d.getD (y * s + x / 8) 0 = d.get ⟨s * y + x / 8, hd⟩ := by
    rw [List.getD_eq_getElem?_getD, List.getElem?_eq_getElem hd2]
    simp [Nat.mul_comm]
  rw [hg]

/-- C1, the 8x1 mask with stride 1 and byte `0b00000001`: it decodes to
`[1,0,0,0,0,0,0,0]`, and the general statement applies at pixel `(0, 0)`. -/
theorem BitmapToFloatMap_spec_witness :
    (BitmapToFloatMap ⟨8, 1, [1], 1⟩).data = [F32.one, 0, 0, 0, 0, 0, 0, 0] ∧
    (BitmapToFloatMap ⟨(8 : Nat), (1 : Nat), [1], (1 : Nat)⟩).data[0 * 8 + 0]? =
      some (if ([1].get ⟨1 * 0 + 0 / 8, by decide⟩).testBit (0 % 8) then F32.one else 0) :=
  ⟨by decide!, (BitmapToFloatMap_spec 8 1 1 [1] 0 0 (by decide) (by decide) (by decide)).2.2⟩

end Effects

namespace Effects

theorem dropBits_spec (fuel : Nat) : ∀ k : Nat, k ≤ fuel →
    k < 2 ^ (24 + dropBits fuel k) ∧
      (dropBits fuel k = 0 ∨ 2 ^ (23 + dropBits fuel k) ≤ k) := by
  induction fuel with
  | zero =>
    intro k hk
    have : k = 0 := by omega
    subst this
    simp [dropBits]
  | succ fuel ih =>
    intro k hk
    unfold dropBits
    by_cases h : k < 2 ^ 24
    · rw [if_pos h]; exact ⟨by simpa using h, Or.inl rfl⟩
    · rw [if_neg h]
      have h24 : (2 : Nat) ^ 24 ≤ k := by omega
      have hk2 : k / 2 ≤ fuel := by
        have : (2 : Nat) ^ 24 = 16777216 := by norm_num
        omega
      obtain ⟨h1, h2⟩ := ih (k / 2) hk2
      constructor
      · have e : (2 : Nat) ^ (24 + (dropBits fuel (k / 2) + 1)) =
            2 * 2 ^ (24 + dropBits fuel (k / 2)) := by
          rw [← Nat.add_assoc, Nat.pow_succ, Nat.mul_comm]
        rw [e]; omega
      · right
        have e : (2 : Nat) ^ (23 + (dropBits fuel (k / 2) + 1)) =
            2 * 2 ^ (23 + dropBits fuel (k / 2)) := by
          rw [← Nat.add_assoc, Nat.pow_succ, Nat.mul_comm]
        rw [e]
        rcases h2 with h0 | h3
        · rw [h0]; simpa using h24
        · omega

theorem dropBits_le (k s : Nat) (h : k < 2 ^ (24 + s)) : dropBits k k ≤ s := by
  rcases (dropBits_spec k k (Nat.le_refl k)).2 with h0 | h1
  · omega
  · have := lt_of_le_of_lt h1 h
    have := (Nat.pow_lt_pow_iff_right (by norm_num : 1 < 2)).1 this
    omega

/-- A value that already has a 24-bit significand is not changed by rounding. -/
theorem roundMag_exact (t s q : Nat) (ht : t < 2 ^ 24) (hq : 0 < q) :
    roundMag (t * 2 ^ s * q) q = t * 2 ^ s := by
  unfold roundMag
  have hk : t * 2 ^ s * q / q = t * 2 ^ s := Nat.mul_div_cancel _ hq
  simp only [hk]
  generalize hs0 : dropBits (t * 2 ^ s) (t * 2 ^ s) = s0
  have hle : s0 ≤ s := by
    rw [← hs0]
    apply dropBits_le
    rw [Nat.pow_add]
    exact Nat.mul_lt_mul_of_pos_right ht (Nat.two_pow_pos _)
  obtain ⟨e, rfl⟩ := Nat.exists_eq_add_of_le hle
  have hd : 0 < q * 2 ^ s0 := Nat.mul_pos hq (Nat.two_pow_pos _)
  have ha : t * 2 ^ (s0 + e) * q = t * 2 ^ e * (q * 2 ^ s0) := by
    rw [Nat.pow_add]; ring
  have hdiv : t * 2 ^ (s0 + e) * q / (q * 2 ^ s0) = t * 2 ^ e := by
    rw [ha]; exact Nat.mul_div_cancel _ hd
  have hmod : t * 2 ^ (s0 + e) * q % (q * 2 ^ s0) = 0 := by
    rw [ha]; exact Nat.mul_mod_left _ _
  rw [hdiv, hmod]
  have hc : ¬ (q * 2 ^ s0 < 2 * 0 ∨ 2 * 0 = q * 2 ^ s0 ∧ t * 2 ^ e % 2 = 1) := by
    rintro (h | ⟨h, _⟩) <;> omega
  rw [if_neg hc, Nat.pow_add]; ring

theorem F32.round_exact (x : Int) (q : Nat) (hx : F32.Rep x) (hq : 0 < q) :
    F32.round (x * q) q = x := by
  obtain ⟨t, s, ht, hts⟩ := hx
  unfold F32.round
  have hn : (x * (q : Int)).natAbs = t * 2 ^ s * q := by
    rw [Int.natAbs_mul, hts, Int.natAbs_ofNat]
  rw [hn, roundMag_exact t s q ht hq, ← hts]
  have hqi : (0 : Int) < q := by exact_mod_cast hq
  by_cases h : x < 0
  · have : x * q < 0 := Int.mul_neg_of_neg_of_pos h hqi
    rw [if_pos this]
    show (-(x.natAbs : Int) : Int) = x
    omega
  · have : ¬ x * q < 0 := by
      have := Int.mul_nonneg (not_lt.mp h) (le_of_lt hqi)
      omega
    rw [if_neg this]
    show ((x.natAbs : Int) : Int) = x
    omega

theorem F32.round_one_exact (x : Int) (hx : F32.Rep x) : F32.round x 1 = x := by
  have := F32.round_exact x 1 hx (by norm_num)
  simpa using this

theorem F32.Rep_int (n : Int) (h : n.natAbs < 2 ^ 24) : F32.Rep (n * 2 ^ 149) :=
  ⟨n.natAbs, 149, h, by rw [Int.natAbs_mul, Int.natAbs_pow]; rfl⟩

theorem F32.ofInt_exact (n : Int) (h : n.natAbs < 2 ^ 24) : F32.ofInt n = n * 2 ^ 149 :=
  F32.round_one_exact _ (F32.Rep_int n h)

theorem F32.mul_one_exact (x : Int) (hx : F32.Rep x) : F32.mul x F32.one = x := by
  have := F32.round_exact x (2 ^ 149) hx (Nat.two_pow_pos _)
  unfold F32.mul F32.one
  simpa using this

theorem F32.round_zero (q : Nat) : F32.round 0 q = 0 := by
  simp [F32.round, roundMag, dropBits]

/-- The conversion of a float whose truncation is an `int32_t`. -/
theorem F32.toInt_of_range (x : F32) (h : -2 ^ 31 ≤ Int.tdiv x (2 ^ 149) ∧
    Int.tdiv x (2 ^ 149) < 2 ^ 31) : F32.toInt x = Int.tdiv x (2 ^ 149) := by
  unfold F32.toInt
  exact if_pos h

theorem F32.toInt_int (n : Int) (h : -2 ^ 31 ≤ n ∧ n < 2 ^ 31) :
    F32.toInt (n * 2 ^ 149) = n := by
  have e : Int.tdiv (n * 2 ^ 149) (2 ^ 149) = n := Int.mul_tdiv_cancel _ (by positivity)
  rw [F32.toInt_of_range _ (by rw [e]; exact h), e]

theorem clampint_8_of_le (n : Int) (h0 : 0 ≤ n) (h1 : n ≤ 255) : clampint 8 n = n.toNat := by
  unfold clampint
  have : ((1 <<< 8 : Nat) : Int) - 1 = 255 := by decide
  rw [this]
  congr 1
  omega

theorem clampint_8_le (n : Int) : clampint 8 n ≤ 255 := by
  unfold clampint
  have : ((1 <<< 8 : Nat) : Int) - 1 = 255 := by decide
  rw [this]
  omega

/-- With a mask sample of exactly `1.0` the blend of two bytes is the frame byte. -/
theorem mix_one (b f : Int) (hb0 : 0 ≤ b) (hb : b ≤ 255) (hf0 : 0 ≤ f) (hf : f ≤ 255) :
    BackgroundMask.mix b f F32.one = f.toNat := by
  unfold BackgroundMask.mix
  have h1 : F32.ofInt (f - b) = (f - b) * 2 ^ 149 := F32.ofInt_exact _ (by norm_num; omega)
  have h2 : F32.ofInt b = b * 2 ^ 149 := F32.ofInt_exact _ (by norm_num; omega)
  rw [h1, h2, F32.mul_one_exact _ (F32.Rep_int _ (by norm_num; omega))]
  unfold F32.add
  have e : b * 2 ^ 149 + (f - b) * 2 ^ 149 = f * 2 ^ 149 := by ring
  rw [e, F32.round_one_exact _ (F32.Rep_int _ (by norm_num; omega)),
    F32.toInt_int _ (by omega)]
  exact clampint_8_of_le f hf0 hf

/-- With a mask sample of exactly `0.0` the blend of two bytes is the background byte. -/
theorem mix_zero (b f : Int) (hb0 : 0 ≤ b) (hb : b ≤ 255) :
    BackgroundMask.mix b f 0 = b.toNat := by
  unfold BackgroundMask.mix
  have h2 : F32.ofInt b = b * 2 ^ 149 := F32.ofInt_exact _ (by norm_num; omega)
  have h3 : F32.mul (F32.ofInt (f - b)) 0 = 0 := by
    unfold F32.mul; rw [Int.mul_zero]; exact F32.round_zero _
  rw [h3, h2]
  unfold F32.add
  rw [Int.add_zero, F32.round_one_exact _ (F32.Rep_int _ (by norm_num; omega)),
    F32.toInt_int _ (by omega)]
  exact clampint_8_of_le b hb0 hb

end Effects

namespace Effects

/-! ## `BackgroundMask` lemmas -/

theorem and_ff (w : Nat) : w &&& 0x0000FF = w % 256 :=
  Nat.and_pow_two_sub_one_eq_mod w 8

theorem and_ff00 (w : Nat) : (w &&& 0x00FF00) >>> 8 = w / 256 % 256 := by
  have e : w / 256 % 256 = (w >>> 8) &&& 255 := by
    rw [Nat.shiftRight_eq_div_pow]; exact (Nat.and_pow_two_sub_one_eq_mod _ 8).symm
  rw [e]
  apply Nat.eq_of_testBit_eq
  intro i
  have h : (0x00FF00 : Nat) = 255 <<< 8 := by decide
  have key : Nat.testBit (255 <<< 8) (8 + i) = Nat.testBit 255 i := by
    rw [Nat.testBit_shiftLeft]; simp
  rw [h, Nat.testBit_and, Nat.testBit_shiftRight, Nat.testBit_shiftRight, Nat.testBit_and, key]

theorem and_ff0000 (w : Nat) : (w &&& 0xFF0000) >>> 16 = w / 65536 % 256 := by
  have e : w / 65536 % 256 = (w >>> 16) &&& 255 := by
    rw [Nat.shiftRight_eq_div_pow]; exact (Nat.and_pow_two_sub_one_eq_mod _ 8).symm
  rw [e]
  apply Nat.eq_of_testBit_eq
  intro i
  have h : (0xFF0000 : Nat) = 255 <<< 16 := by decide
  have key : Nat.testBit (255 <<< 16) (16 + i) = Nat.testBit 255 i := by
    rw [Nat.testBit_shiftLeft]; simp
  rw [h, Nat.testBit_and, Nat.testBit_shiftRight, Nat.testBit_shiftRight, Nat.testBit_and, key]

/-- The packed word `r | g << 8 | b << 16` of three bytes. -/
theorem pack_eq (r g b : Nat) (hr : r < 256) (hg : g < 256) :
    r ||| (g <<< 8) ||| (b <<< 16) = r + 256 * g + 65536 * b := by
  have h1 : r ||| (g <<< 8) = 256 * g + r := by
    rw [Nat.or_comm, Nat.shiftLeft_eq, Nat.mul_comm g]
    exact (Nat.mul_add_lt_is_or (i := 8) (by simpa using hr) g).symm
  have h2 : (256 * g + r) ||| (b <<< 16) = 65536 * b + (256 * g + r) := by
    rw [Nat.or_comm, Nat.shiftLeft_eq, Nat.mul_comm b]
    exact (Nat.mul_add_lt_is_or (i := 16) (by norm_num; omega) b).symm
  rw [h1, h2]; omega

theorem loadWord_eq (d : List Nat) (i : Nat) :
    loadWord d i = d.getD (4 * i) 0 + 256 * d.getD (4 * i + 1) 0 +
      65536 * d.getD (4 * i + 2) 0 + 16777216 * d.getD (4 * i + 3) 0 := by
  simp only [loadWord, Nat.shiftLeft_eq]
  omega

theorem length_storeWord (d : List Nat) (i v : Nat) : (storeWord d i v).length = d.length := by
  simp [storeWord]

theorem getD_storeWord (d : List Nat) (i v j : Nat) :
    (storeWord d i v).getD j 0 =
      if j < d.length ∧ j / 4 = i then (v >>> (8 * (j % 4))) % 256 else d.getD j 0 := by
  simp only [storeWord, List.getD_eq_getElem?_getD, List.getElem?_set, List.length_set]
  by_cases hji : j / 4 = i
  · have h4 : j % 4 = 0 ∨ j % 4 = 1 ∨ j % 4 = 2 ∨ j % 4 = 3 := by omega
    by_cases hl : j < d.length
    · rcases h4 with h | h | h | h
      · have e : 4 * i = j := by omega
        have n1 : ¬ 4 * i + 1 = j := by omega
        have n2 : ¬ 4 * i + 2 = j := by omega
        have n3 : ¬ 4 * i + 3 = j := by omega
        simp [e, n1, n2, n3, h, hl, hji]
      · have e : 4 * i + 1 = j := by omega
        have n2 : ¬ 4 * i + 2 = j := by omega
        have n3 : ¬ 4 * i + 3 = j := by omega
        simp [e, n2, n3, h, hl, hji]
      · have e : 4 * i + 2 = j := by omega
        have n3 : ¬ 4 * i + 3 = j := by omega
        simp [e, n3, h, hl, hji]
      · have e : 4 * i + 3 = j := by omega
        simp [e, h, hl, hji]
    · have hn : d[j]? = none := List.getElem?_eq_none (by omega)
      simp only [hl, false_and, if_false, hn]
      split_ifs <;> omega
  · have n0 : ¬ 4 * i = j := by omega
    have n1 : ¬ 4 * i + 1 = j := by omega
    have n2 : ¬ 4 * i + 2 = j := by omega
    have n3 : ¬ 4 * i + 3 = j := by omega
    simp [n0, n1, n2, n3, hji]

/-- An in-place loop that rewrites word `p` from its own old value, `p < n`. -/
theorem forUp_storeWord (n : Nat) (G : Nat → Nat → Nat) (d : List Nat) :
    (forUp n (fun p t => storeWord t p (G p (loadWord t p))) d).length = d.length ∧
    ∀ j, (forUp n (fun p t => storeWord t p (G p (loadWord t p))) d).getD j 0 =
      if j < d.length ∧ j / 4 < n then (G (j / 4) (loadWord d (j / 4)) >>> (8 * (j % 4))) % 256
      else d.getD j 0 := by
  refine forUp_invariant (fun k t => t.length = d.length ∧ ∀ j, t.getD j 0 =
      if j < d.length ∧ j / 4 < k then (G (j / 4) (loadWord d (j / 4)) >>> (8 * (j % 4))) % 256
      else d.getD j 0) n _ d ?_ ?_
  · exact ⟨rfl, fun j => by simp⟩
  · rintro k t _ ⟨hl, hg⟩
    refine ⟨by rw [length_storeWord, hl], fun j => ?_⟩
    have hw : loadWord t k = loadWord d k := by
      have a0 := hg (4 * k)
      have a1 := hg (4 * k + 1)
      have a2 := hg (4 * k + 2)
      have a3 := hg (4 * k + 3)
      have b0 : ¬ (4 * k) / 4 < k := by omega
      have b1 : ¬ (4 * k + 1) / 4 < k := by omega
      have b2 : ¬ (4 * k + 2) / 4 < k := by omega
      have b3 : ¬ (4 * k + 3) / 4 < k := by omega
      simp only [b0, b1, b2, b3, and_false, if_false] at a0 a1 a2 a3
      simp only [loadWord, a0, a1, a2, a3]
    rw [getD_storeWord, hl, hw, hg j]
    by_cases hjl : j < d.length
    · by_cases hjk : j / 4 = k
      · have : j / 4 < k + 1 := by omega
        simp [hjl, hjk]
      · by_cases hlt : j / 4 < k
        · have : j / 4 < k + 1 := by omega
          simp [hjl, hjk, hlt, this]
        · have : ¬ j / 4 < k + 1 := by omega
          simp [hjl, hjk, hlt, this]
    · simp [hjl]

end Effects

namespace Effects

theorem getD_lt_256 (d : List Nat) (h : ∀ b ∈ d, b < 256) (i : Nat) : d.getD i 0 < 256 := by
  rw [List.getD_eq_getElem?_getD]
  by_cases hi : i < d.length
  · rw [List.getElem?_eq_getElem hi]
    exact h _ (List.getElem_mem hi)
  · rw [List.getElem?_eq_none (by omega)]
    simp

/-- `BackgroundMask` as one loop over the flat pixel index. -/
theorem BackgroundMask_data (W H : Nat) (d : List Nat) (s : Int) (mask : Frame F32)
    (bg : Frame Nat) :
    (BackgroundMask ⟨W, H, d, s⟩ mask bg).data =
      forUp (H * W) (fun p t => storeWord t p
        (BackgroundMask.pixelWord W H mask bg p (loadWord t p))) d := by
  simp only [BackgroundMask, Int.toNat_ofNat]
  rw [forUp_nested]
  apply forUp_congr
  intro p t _
  simp only [BackgroundMask.pixel, BackgroundMask.pixelWord, Int.toNat_ofNat, Nat.div_add_mod']

theorem BackgroundMask_length (W H : Nat) (d : List Nat) (s : Int) (mask : Frame F32)
    (bg : Frame Nat) : (BackgroundMask ⟨W, H, d, s⟩ mask bg).data.length = d.length := by
  rw [BackgroundMask_data]
  exact (forUp_storeWord (H * W) (BackgroundMask.pixelWord W H mask bg) d).1

theorem flat_index (W H x y : Nat) (hx : x < W) (hy : y < H) :
    y * W + x < H * W ∧ (y * W + x) / W = y ∧ (y * W + x) % W = x := by
  refine ⟨?_, ?_, ?_⟩
  · calc y * W + x < y * W + W := by omega
      _ = (y + 1) * W := by ring
      _ ≤ H * W := Nat.mul_le_mul_right W hy
  · rw [Nat.add_comm, Nat.add_mul_div_right _ _ (by omega), Nat.div_eq_of_lt hx, Nat.zero_add]
  · rw [Nat.add_comm, Nat.add_mul_mod_self_right, Nat.mod_eq_of_lt hx]

theorem mix_le_255 (b f : Int) (m : F32) : BackgroundMask.mix b f m ≤ 255 :=
  clampint_8_le _

theorem blend_eq (fc bc : Nat) (m : F32) :
    BackgroundMask.blend fc bc m =
      BackgroundMask.mix ((bc % 256 : Nat) : Int) ((fc % 256 : Nat) : Int) m +
      256 * BackgroundMask.mix ((bc / 256 % 256 : Nat) : Int) ((fc / 256 % 256 : Nat) : Int) m +
      65536 * BackgroundMask.mix ((bc / 65536 % 256 : Nat) : Int)
        ((fc / 65536 % 256 : Nat) : Int) m := by
  unfold BackgroundMask.blend
  simp only [and_ff, and_ff00, and_ff0000]
  exact pack_eq _ _ _ (Nat.lt_succ_of_le (mix_le_255 _ _ _)) (Nat.lt_succ_of_le (mix_le_255 _ _ _))

/-- Byte `c` of a word made of three bytes and a zero top byte. -/
theorem word_bytes (a0 a1 a2 : Nat) (h0 : a0 ≤ 255) (h1 : a1 ≤ 255) (h2 : a2 ≤ 255) :
    ((a0 + 256 * a1 + 65536 * a2) >>> (8 * 0)) % 256 = a0 ∧
    ((a0 + 256 * a1 + 65536 * a2) >>> (8 * 1)) % 256 = a1 ∧
    ((a0 + 256 * a1 + 65536 * a2) >>> (8 * 2)) % 256 = a2 ∧
    ((a0 + 256 * a1 + 65536 * a2) >>> (8 * 3)) % 256 = 0 := by
  simp only [Nat.shiftRight_eq_div_pow]
  norm_num
  omega

/-- The four bytes `BackgroundMask` leaves at pixel `(x, y)`: three blended
channels and a zero. -/
theorem BackgroundMask_bytes (W H : Nat) (d : List Nat) (s : Int) (mask : Frame F32)
    (bg : Frame Nat) (x y : Nat) (hx : x < W) (hy : y < H)
    (hlen : 4 * (y * W + x) + 3 < d.length)
    (hd : ∀ b ∈ d, b < 256) (hbg : ∀ b ∈ bg.data, b < 256) :
    (BackgroundMask ⟨W, H, d, s⟩ mask bg).data.getD (4 * (y * W + x)) 0 =
      BackgroundMask.mix (bg.data.getD (4 * sampleIndex W H bg.width bg.height x y) 0)
        (d.getD (4 * (y * W + x)) 0)
        (mask.data.getD (sampleIndex W H mask.width mask.height x y) 0) ∧
    (BackgroundMask ⟨W, H, d, s⟩ mask bg).data.getD (4 * (y * W + x) + 1) 0 =
      BackgroundMask.mix (bg.data.getD (4 * sampleIndex W H bg.width bg.height x y + 1) 0)
        (d.getD (4 * (y * W + x) + 1) 0)
        (mask.data.getD (sampleIndex W H mask.width mask.height x y) 0) ∧
    (BackgroundMask ⟨W, H, d, s⟩ mask bg).data.getD (4 * (y * W + x) + 2) 0 =
      BackgroundMask.mix (bg.data.getD (4 * sampleIndex W H bg.width bg.height x y + 2) 0)
        (d.getD (4 * (y * W + x) + 2) 0)
        (mask.data.getD (sampleIndex W H mask.width mask.height x y) 0) ∧
    (BackgroundMask ⟨W, H, d, s⟩ mask bg).data.getD (4 * (y * W + x) + 3) 0 = 0 := by
  obtain ⟨hp, hy', hx'⟩ := flat_index W H x y hx hy
  rw [BackgroundMask_data]
  have key := (forUp_storeWord (H * W) (BackgroundMask.pixelWord W H mask bg) d).2
  generalize hpdef : y * W + x = p at hp hy' hx' hlen ⊢
  have k0 := key (4 * p)
  have k1 := key (4 * p + 1)
  have k2 := key (4 * p + 2)
  have k3 := key (4 * p + 3)
  clear key
  have d0 : (4 * p) / 4 = p := by omega
  have d1 : (4 * p + 1) / 4 = p := by omega
  have d2 : (4 * p + 2) / 4 = p := by omega
  have d3 : (4 * p + 3) / 4 = p := by omega
  have m0 : (4 * p) % 4 = 0 := by omega
  have m1 : (4 * p + 1) % 4 = 1 := by omega
  have m2 : (4 * p + 2) % 4 = 2 := by omega
  have m3 : (4 * p + 3) % 4 = 3 := by omega
  have c0 : 4 * p < d.length ∧ p < H * W := ⟨by omega, hp⟩
  have c1 : 4 * p + 1 < d.length ∧ p < H * W := ⟨by omega, hp⟩
  have c2 : 4 * p + 2 < d.length ∧ p < H * W := ⟨by omega, hp⟩
  have c3 : 4 * p + 3 < d.length ∧ p < H * W := ⟨by omega, hp⟩
  rw [d0, if_pos c0, m0] at k0
  rw [d1, if_pos c1, m1] at k1
  rw [d2, if_pos c2, m2] at k2
  rw [d3, if_pos c3, m3] at k3
  simp only [BackgroundMask.pixelWord, hx', hy'] at k0 k1 k2 k3
  generalize sampleIndex W H bg.width bg.height x y = bi at k0 k1 k2 k3 ⊢
  generalize mask.data.getD (sampleIndex W H mask.width mask.height x y) 0 = m at k0 k1 k2 k3 ⊢
  -- the frame and background words, byte by byte
  have f0 := getD_lt_256 d hd (4 * p)
  have f1 := getD_lt_256 d hd (4 * p + 1)
  have f2 := getD_lt_256 d hd (4 * p + 2)
  have f3 := getD_lt_256 d hd (4 * p + 3)
  have g0 := getD_lt_256 bg.data hbg (4 * bi)
  have g1 := getD_lt_256 bg.data hbg (4 * bi + 1)
  have g2 := getD_lt_256 bg.data hbg (4 * bi + 2)
  have g3 := getD_lt_256 bg.data hbg (4 * bi + 3)
  have hF := loadWord_eq d p
  have hB := loadWord_eq bg.data bi
  have eF0 : loadWord d p % 256 = d.getD (4 * p) 0 := by omega
  have eF1 : loadWord d p / 256 % 256 = d.getD (4 * p + 1) 0 := by omega
  have eF2 : loadWord d p / 65536 % 256 = d.getD (4 * p + 2) 0 := by omega
  have eB0 : loadWord bg.data bi % 256 = bg.data.getD (4 * bi) 0 := by omega
  have eB1 : loadWord bg.data bi / 256 % 256 = bg.data.getD (4 * bi + 1) 0 := by omega
  have eB2 : loadWord bg.data bi / 65536 % 256 = bg.data.getD (4 * bi + 2) 0 := by omega
  rw [blend_eq, eF0, eF1, eF2, eB0, eB1, eB2] at k0 k1 k2 k3
  obtain ⟨w0, w1, w2, w3⟩ := word_bytes _ _ _ (mix_le_255 (bg.data.getD (4 * bi) 0)
    (d.getD (4 * p) 0) m) (mix_le_255 (bg.data.getD (4 * bi + 1) 0) (d.getD (4 * p + 1) 0) m)
    (mix_le_255 (bg.data.getD (4 * bi + 2) 0) (d.getD (4 * p + 2) 0) m)
  exact ⟨k0.trans w0, k1.trans w1, k2.trans w2, k3.trans w3⟩

end Effects

namespace Effects

theorem list_eq_of_getD (a b : List Nat) (hl : a.length = b.length)
    (h : ∀ j, j < a.length → a.getD j 0 = b.getD j 0) : a = b := by
  apply List.ext_getElem hl
  intro n h1 h2
  have := h n h1
  rwa [List.getD_eq_getElem _ _ h1, List.getD_eq_getElem _ _ h2] at this

/-! ## C2: identity mask -/

/-- C2 fails as stated: with an all-ones mask the fourth byte of a pixel is
overwritten with 0, so a frame whose fourth byte is 255 is not returned
bit-identical. -/
theorem identity_mask_not_bit_identical :
    (BackgroundMask redFrame (constMask F32.one) blueFrame).data =
      [255, 0, 0, 0, 255, 0, 0, 0, 255, 0, 0, 0, 255, 0, 0, 0] ∧
    (BackgroundMask redFrame (constMask F32.one) blueFrame).data ≠ redFrame.data := by
  decide!

/-- C2 (amended): with an opacity map whose samples are all exactly `1.0`,
`BackgroundMask` leaves the three colour bytes of every pixel equal to those of
the sharp frame and sets the fourth byte to 0. -/
theorem identity_mask_keeps_rgb (W H : Nat) (d : List Nat) (s : Int) (mask : Frame F32)
    (bg : Frame Nat) (x y : Nat) (hx : x < W) (hy : y < H)
    (hlen : 4 * (y * W + x) + 3 < d.length)
    (hd : ∀ b ∈ d, b < 256) (hbg : ∀ b ∈ bg.data, b < 256)
    (hmi : sampleIndex W H mask.width mask.height x y < mask.data.length)
    (hone : ∀ v ∈ mask.data, v = F32.one) :
    (∀ c, c < 3 → (BackgroundMask ⟨W, H, d, s⟩ mask bg).data.getD (4 * (y * W + x) + c) 0 =
      d.getD (4 * (y * W + x) + c) 0) ∧
    (BackgroundMask ⟨W, H, d, s⟩ mask bg).data.getD (4 * (y * W + x) + 3) 0 = 0 := by
  obtain ⟨h0, h1, h2, h3⟩ := BackgroundMask_bytes W H d s mask bg x y hx hy hlen hd hbg
  have hm : mask.data.getD (sampleIndex W H mask.width mask.height x y) 0 = F32.one := by
    rw [List.getD_eq_getElem _ _ hmi]
    exact hone _ (List.getElem_mem hmi)
  rw [hm] at h0 h1 h2
  have key : ∀ i j, BackgroundMask.mix (bg.data.getD i 0) (d.getD j 0) F32.one = d.getD j 0 := by
    intro i j
    have a := getD_lt_256 bg.data hbg i
    have b := getD_lt_256 d hd j
    rw [mix_one _ _ (by omega) (by omega) (by omega) (by omega)]
    simp
  rw [key] at h0 h1 h2
  refine ⟨fun c hc => ?_, h3⟩
  interval_cases c
  · exact h0
  · exact h1
  · exact h2

/-- C2 (amended) on the red 2x2 frame over the blue background: pixel `(1, 1)`
keeps `(255, 0, 0)` and gets fourth byte 0. -/
theorem identity_mask_keeps_rgb_witness :
    (∀ c, c < 3 → (BackgroundMask ⟨(2 : Nat), (2 : Nat), redFrame.data, 0⟩ (constMask F32.one)
        blueFrame).data.getD (4 * (1 * 2 + 1) + c) 0 = redFrame.data.getD (4 * (1 * 2 + 1) + c) 0) ∧
    (BackgroundMask ⟨(2 : Nat), (2 : Nat), redFrame.data, 0⟩ (constMask F32.one)
        blueFrame).data.getD (4 * (1 * 2 + 1) + 3) 0 = 0 :=
  identity_mask_keeps_rgb 2 2 redFrame.data 0 (constMask F32.one) blueFrame 1 1
    (by decide) (by decide) (by decide) (by decide) (by decide) (by decide!)
    (by simp [constMask])

end Effects

namespace Effects

/-! ## C3: zero mask -/

/-- C3 fails as stated.  (1) The background coordinate is computed in `float`:
for a 23-pixel row over a 23-pixel background, pixel 7 samples background
pixel 6, not `floor(7*23/23) = 7`.  (2) The fourth byte of the output is 0, not
the background's fourth byte. -/
theorem zero_mask_not_exact_background :
    ((BackgroundMask greyFrame ⟨1, 1, [0], 0⟩ rampFrame).data.getD (4 * 7) 0 = 6 ∧
      rampFrame.data.getD (4 * (7 * 23 / 23)) 0 = 7) ∧
    ((BackgroundMask redFrame (constMask 0) blueFrame).data.getD 3 0 = 0 ∧
      blueFrame.data.getD 3 0 = 255) := by
  decide!

/-- C3 (amended): with an opacity map whose samples are all exactly `0.0`, the
three colour bytes of output pixel `(x, y)` are those of the background pixel
at the index the code computes in `float` (`sampleIndex`, truncation of
`(x / W) * Wb` and `(y / H) * Hb`), whenever that pixel lies in the background
buffer, and the fourth byte is 0; two foregrounds of the same size give the
same output buffer. -/
theorem zero_mask_gives_background (W H : Nat) (d1 d2 : List Nat) (s1 s2 : Int)
    (mask : Frame F32) (bg : Frame Nat)
    (hl1 : d1.length = 4 * (H * W)) (hl2 : d2.length = 4 * (H * W))
    (hd1 : ∀ b ∈ d1, b < 256) (hd2 : ∀ b ∈ d2, b < 256) (hbg : ∀ b ∈ bg.data, b < 256)
    (hzero : ∀ v ∈ mask.data, v = 0) :
    (∀ x y, x < W → y < H →
      4 * sampleIndex W H bg.width bg.height x y + 3 < bg.data.length →
      (∀ c, c < 3 → (BackgroundMask ⟨W, H, d1, s1⟩ mask bg).data.getD (4 * (y * W + x) + c) 0 =
        bg.data.getD (4 * sampleIndex W H bg.width bg.height x y + c) 0) ∧
      (BackgroundMask ⟨W, H, d1, s1⟩ mask bg).data.getD (4 * (y * W + x) + 3) 0 = 0) ∧
    (BackgroundMask ⟨W, H, d1, s1⟩ mask bg).data =
      (BackgroundMask ⟨W, H, d2, s2⟩ mask bg).data := by
  have hm : ∀ i, mask.data.getD i 0 = 0 := by
    intro i
    rw [List.getD_eq_getElem?_getD]
    by_cases hi : i < mask.data.length
    · rw [List.getElem?_eq_getElem hi]
      exact hzero _ (List.getElem_mem hi)
    · rw [List.getElem?_eq_none (by omega)]
      rfl
  have key : ∀ i (f : Int), BackgroundMask.mix (bg.data.getD i 0) f 0 = bg.data.getD i 0 := by
    intro i f
    have a := getD_lt_256 bg.data hbg i
    rw [mix_zero _ _ (by omega) (by omega)]
    simp
  have bytes : ∀ (d : List Nat) (s : Int), d.length = 4 * (H * W) → (∀ b ∈ d, b < 256) →
      ∀ x y, x < W → y < H →
      (BackgroundMask ⟨W, H, d, s⟩ mask bg).data.getD (4 * (y * W + x)) 0 =
        bg.data.getD (4 * sampleIndex W H bg.width bg.height x y) 0 ∧
      (BackgroundMask ⟨W, H, d, s⟩ mask bg).data.getD (4 * (y * W + x) + 1) 0 =
        bg.data.getD (4 * sampleIndex W H bg.width bg.height x y + 1) 0 ∧
      (BackgroundMask ⟨W, H, d, s⟩ mask bg).data.getD (4 * (y * W + x) + 2) 0 =
        bg.data.getD (4 * sampleIndex W H bg.width bg.height x y + 2) 0 ∧
      (BackgroundMask ⟨W, H, d, s⟩ mask bg).data.getD (4 * (y * W + x) + 3) 0 = 0 := by
    intro d s hl hd x y hx hy
    have hp := (flat_index W H x y hx hy).1
    obtain ⟨h0, h1, h2, h3⟩ :=
      BackgroundMask_bytes W H d s mask bg x y hx hy (by omega) hd hbg
    rw [hm, key] at h0 h1 h2
    exact ⟨h0, h1, h2, h3⟩
  refine ⟨fun x y hx hy _ => ?_, ?_⟩
  · obtain ⟨h0, h1, h2, h3⟩ := bytes d1 s1 hl1 hd1 x y hx hy
    refine ⟨fun c hc => ?_, h3⟩
    interval_cases c
    · rw [Nat.add_zero, Nat.add_zero]; exact h0
    · exact h1
    · exact h2
  · apply list_eq_of_getD
    · rw [BackgroundMask_length, BackgroundMask_length, hl1, hl2]
    · intro j hj
      rw [BackgroundMask_length, hl1] at hj
      have hWpos : 0 < W := by
        rcases Nat.eq_zero_or_pos W with h | h
        · subst h; simp at hj
        · exact h
      have hp : j / 4 < H * W := by omega
      have hx : j / 4 % W < W := Nat.mod_lt _ hWpos
      have hy : j / 4 / W < H := by
        rw [Nat.div_lt_iff_lt_mul hWpos]; exact hp
      have hpe : j / 4 / W * W + j / 4 % W = j / 4 := Nat.div_add_mod' _ _
      have b1 := bytes d1 s1 hl1 hd1 _ _ hx hy
      have b2 := bytes d2 s2 hl2 hd2 _ _ hx hy
      rw [hpe] at b1 b2
      obtain ⟨a0, a1, a2, a3⟩ := b1
      obtain ⟨c0, c1, c2, c3⟩ := b2
      have hc : j % 4 = 0 ∨ j % 4 = 1 ∨ j % 4 = 2 ∨ j % 4 = 3 := by omega
      rcases hc with h | h | h | h
      · have e : j = 4 * (j / 4) := by omega
        rw [e, a0, c0]
      · have e : j = 4 * (j / 4) + 1 := by omega
        rw [e, a1, c1]
      · have e : j = 4 * (j / 4) + 2 := by omega
        rw [e, a2, c2]
      · have e : j = 4 * (j / 4) + 3 := by omega
        rw [e, a3, c3]

/-- C3 (amended) on the 23-pixel row: the grey and the ramp foreground give the
same output over the ramp background, and pixel `(7, 0)` shows background
pixel 6. -/
theorem zero_mask_gives_background_witness :
    (∀ x y, x < 23 → y < 1 →
      4 * sampleIndex (23 : Nat) (1 : Nat) rampFrame.width rampFrame.height x y + 3
        < rampFrame.data.length →
      (∀ c, c < 3 → (BackgroundMask ⟨(23 : Nat), (1 : Nat), greyFrame.data, 0⟩ ⟨1, 1, [0], 0⟩
          rampFrame).data.getD (4 * (y * 23 + x) + c) 0 =
        rampFrame.data.getD
          (4 * sampleIndex (23 : Nat) (1 : Nat) rampFrame.width rampFrame.height x y + c) 0) ∧
      (BackgroundMask ⟨(23 : Nat), (1 : Nat), greyFrame.data, 0⟩ ⟨1, 1, [0], 0⟩
          rampFrame).data.getD (4 * (y * 23 + x) + 3) 0 = 0) ∧
    (BackgroundMask ⟨(23 : Nat), (1 : Nat), greyFrame.data, 0⟩ ⟨1, 1, [0], 0⟩ rampFrame).data =
      (BackgroundMask ⟨(23 : Nat), (1 : Nat), rampFrame.data, 0⟩ ⟨1, 1, [0], 0⟩ rampFrame).data :=
  zero_mask_gives_background 23 1 greyFrame.data rampFrame.data 0 0 ⟨1, 1, [0], 0⟩ rampFrame
    (by decide!) (by decide!) (by decide!) (by decide!) (by decide!) (by simp)

end Effects

namespace Effects

/-! ## C4: compositor rounding -/

/-- C4 fails as stated: red `(255,0,0)` over blue `(0,0,255)` with mask `0.5`
gives `(127,0,127)`; the blend `127.5` is truncated, while the claimed rule
`clamp(trunc(b + (f - b)*m + 0.5))` gives 128. -/
theorem half_mask_truncates :
    (BackgroundMask redFrame (constMask F32.half) blueFrame).data =
      [127, 0, 127, 0, 127, 0, 127, 0, 127, 0, 127, 0, 127, 0, 127, 0] ∧
    clampint 8 (F32.toInt (F32.add
      (F32.add (F32.ofInt 0) (F32.mul (F32.ofInt (255 - 0)) F32.half)) F32.half)) = 128 := by
  decide!

/-! ## C5: fourth channel -/

/-- C5 fails as stated: the fourth byte of the red frame's pixels is 255 before
`BackgroundMask` and 0 after it. -/
theorem fourth_byte_not_kept :
    redFrame.data.getD 7 0 = 255 ∧
    (BackgroundMask redFrame (constMask F32.half) blueFrame).data.getD 7 0 = 0 := by
  decide!

/-- C5 (amended): the fourth byte (bits [24:32) of the packed word) of every
output pixel of `BackgroundMask` is 0, whatever the frame, mask and background
hold. -/
theorem fourth_byte_zero (W H : Nat) (d : List Nat) (s : Int) (mask : Frame F32)
    (bg : Frame Nat) (x y : Nat) (hx : x < W) (hy : y < H)
    (hlen : 4 * (y * W + x) + 3 < d.length)
    (hd : ∀ b ∈ d, b < 256) (hbg : ∀ b ∈ bg.data, b < 256) :
    (BackgroundMask ⟨W, H, d, s⟩ mask bg).data.getD (4 * (y * W + x) + 3) 0 = 0 :=
  (BackgroundMask_bytes W H d s mask bg x y hx hy hlen hd hbg).2.2.2

/-- C5 (amended) on the red frame over the blue background: the fourth byte
of pixel `(1, 0)` is 0 after the call. -/
theorem fourth_byte_zero_witness :
    (BackgroundMask ⟨(2 : Nat), (2 : Nat), redFrame.data, 0⟩ (constMask F32.one)
        blueFrame).data.getD (4 * (0 * 2 + 1) + 3) 0 = 0 :=
  fourth_byte_zero 2 2 redFrame.data 0 (constMask F32.one) blueFrame 1 0
    (by decide) (by decide) (by decide) (by decide) (by decide)

end Effects

namespace Effects

/-! ## `Blur`: invariants preserved by every store -/

/-- Hypotheses of the invariant rule for `Blur`: `P` survives a store of 0, a
full-kernel tap on active channels, and a sliding update on active channels
at a pixel other than pixel 0. -/
theorem Blur.hRow_preserves (P : List Nat → Prop)
    (HT : ∀ l acc src, acc % 4 ≠ 3 → src % 4 ≠ 3 → P l → P (Blur.tap acc src l))
    (HS : ∀ l i a b c, 4 ≤ i → i % 4 ≠ 3 → a % 4 ≠ 3 → b % 4 ≠ 3 → c % 4 ≠ 3 →
      P l → P (Blur.slide i a b c l))
    (w y : Nat) (l : List Nat)
    (h : P (((l.set (y * (w * 4) + 2) 0).set (y * (w * 4) + 1) 0).set (y * (w * 4) + 0) 0)) :
    P (Blur.hRow w y l) := by
  unfold Blur.hRow
  simp only [kRgbChannels]
  have hyo : y * (w * 4) = 4 * (y * w) := by ring
  rw [hyo] at h ⊢
  generalize y * w = k at h ⊢
  apply forFrom_preserves
  · apply forFrom_preserves
    · exact h
    · intro i t _ ht
      generalize (modulo (-↑kHalfBox + ↑i) ↑w).toNat = m
      apply HT _ _ _ (by omega) (by omega)
      apply HT _ _ _ (by omega) (by omega)
      apply HT _ _ _ (by omega) (by omega)
      exact ht
  · intro i t _ ht
    generalize (modulo (1 + ↑i - ↑kHalfBox - 1) ↑w).toNat = m1
    generalize (modulo (1 + ↑i + ↑kHalfBox + 1) ↑w).toNat = m2
    have hx : ((1 : Int) + ↑i).toNat = i + 1 := by omega
    rw [hx]
    apply HS _ _ _ _ _ (by omega) (by omega) (by omega) (by omega) (by omega)
    apply HS _ _ _ _ _ (by omega) (by omega) (by omega) (by omega) (by omega)
    apply HS _ _ _ _ _ (by omega) (by omega) (by omega) (by omega) (by omega)
    exact ht

theorem Blur.vPass_preserves (P : List Nat → Prop)
    (HZ : ∀ l i, P l → P (l.set i 0))
    (HT : ∀ l acc src, acc % 4 ≠ 3 → src % 4 ≠ 3 → P l → P (Blur.tap acc src l))
    (HS : ∀ l i a b c, 4 ≤ i → i % 4 ≠ 3 → a % 4 ≠ 3 → b % 4 ≠ 3 → c % 4 ≠ 3 →
      P l → P (Blur.slide i a b c l))
    (w h : Nat) (l : List Nat) (hl : P l) : P (Blur.vPass w h l) := by
  unfold Blur.vPass
  simp only [kRgbChannels]
  apply forFrom_preserves
  · apply forFrom_preserves
    · apply forUp_preserves
      · exact hl
      · intro x t _ ht
        exact HZ _ _ (HZ _ _ (HZ _ _ ht))
    · intro i t _ ht
      generalize (modulo (-↑kHalfBox + ↑i) ↑h).toNat = m
      apply forUp_preserves
      · exact ht
      · intro x u _ hu
        have e : m * (w * 4) = 4 * (m * w) := by ring
        rw [e]
        generalize m * w = k
        apply HT _ _ _ (by omega) (by omega)
        apply HT _ _ _ (by omega) (by omega)
        apply HT _ _ _ (by omega) (by omega)
        exact hu
  · intro i t hi ht
    generalize (modulo (1 + ↑i - ↑kHalfBox - 1) ↑h).toNat = m1
    generalize (modulo (1 + ↑i + ↑kHalfBox + 1) ↑h).toNat = m2
    have hy : ((1 : Int) + ↑i).toNat = i + 1 := by omega
    rw [hy]
    apply forUp_preserves
    · exact ht
    · intro x u hx hu
      have e0 : (i + 1) * (w * 4) = 4 * (i * w) + 4 * w := by ring
      have e1 : m1 * (w * 4) = 4 * (m1 * w) := by ring
      have e2 : m2 * (w * 4) = 4 * (m2 * w) := by ring
      rw [e0, e1, e2]
      generalize i * w = k0
      generalize m1 * w = k1
      generalize m2 * w = k2
      apply HS _ _ _ _ _ (by omega) (by omega) (by omega) (by omega) (by omega)
      apply HS _ _ _ _ _ (by omega) (by omega) (by omega) (by omega) (by omega)
      apply HS _ _ _ _ _ (by omega) (by omega) (by omega) (by omega) (by omega)
      exact hu

/-- Invariant rule for `Blur`. -/
theorem Blur_preserves (P : List Nat → Prop)
    (HZ : ∀ l i, P l → P (l.set i 0))
    (HT : ∀ l acc src, acc % 4 ≠ 3 → src % 4 ≠ 3 → P l → P (Blur.tap acc src l))
    (HS : ∀ l i a b c, 4 ≤ i → i % 4 ≠ 3 → a % 4 ≠ 3 → b % 4 ≠ 3 → c % 4 ≠ 3 →
      P l → P (Blur.slide i a b c l))
    (base : Frame Nat) (h : P base.data) : P (Blur base).data := by
  unfold Blur
  simp only
  apply forUp_preserves
  · exact h
  · intro _ t _ ht
    apply Blur.vPass_preserves P HZ HT HS
    apply forUp_preserves
    · exact ht
    · intro y u _ hu
      exact Blur.hRow_preserves P HT HS _ _ _ (HZ _ _ (HZ _ _ (HZ _ _ hu)))

end Effects

namespace Effects

theorem getD_set_nat (l : List Nat) (i j v : Nat) :
    (l.set i v).getD j 0 = if i = j ∧ i < l.length then v else l.getD j 0 := by
  simp only [List.getD_eq_getElem?_getD, List.getElem?_set]
  by_cases h : i = j
  · subst h
    by_cases hl : i < l.length
    · simp [hl]
    · have : l[i]? = none := List.getElem?_eq_none (by omega)
      simp [hl, this]
  · simp [h]

theorem Blur.tap_zero :
    (((0 : Nat) : Int) + round_half (F32.mul kBoxFactor (F32.ofInt ((0 : Nat) : Int)))) % 65536
      = 0 := by decide!

theorem Blur.slide_zero :
    clampint 16 (round_half (F32.add
      (F32.sub (F32.ofInt ((0 : Nat) : Int)) (F32.mul kBoxFactor (F32.ofInt ((0 : Nat) : Int))))
      (F32.mul kBoxFactor (F32.ofInt ((0 : Nat) : Int))))) = 0 := by decide!

theorem Blur.tap_small : ∀ a < 2, ∀ b < 2,
    ((((a : Nat) : Int) + round_half (F32.mul kBoxFactor (F32.ofInt ((b : Nat) : Int)))) %
      65536).toNat = a := by decide!

theorem Blur.slide_small : ∀ a < 2, ∀ b < 2, ∀ c < 2,
    clampint 16 (round_half (F32.add
      (F32.sub (F32.ofInt ((a : Nat) : Int)) (F32.mul kBoxFactor (F32.ofInt ((b : Nat) : Int))))
      (F32.mul kBoxFactor (F32.ofInt ((c : Nat) : Int))))) ≤ 1 := by decide!

/-- `Blur` never changes the length of the buffer. -/
theorem Blur_length (base : Frame Nat) : (Blur base).data.length = base.data.length := by
  apply Blur_preserves (fun l => l.length = base.data.length)
  · intro l i h; simpa using h
  · intro l acc src _ _ h; simpa [Blur.tap] using h
  · intro l i a b c _ _ _ _ _ h; simpa [Blur.slide] using h
  · rfl

/-- The active channels of a buffer are all 0. -/
theorem Blur_zero_inv (base : Frame Nat)
    (h : ∀ j, j % 4 ≠ 3 → base.data.getD j 0 = 0) :
    ∀ j, j % 4 ≠ 3 → (Blur base).data.getD j 0 = 0 := by
  apply Blur_preserves (fun l => ∀ j, j % 4 ≠ 3 → l.getD j 0 = 0)
  · intro l i hl j hj
    rw [getD_set_nat]
    split_ifs
    · rfl
    · exact hl j hj
  · intro l acc src ha hs hl j hj
    unfold Blur.tap
    rw [getD_set_nat, hl acc ha, hl src hs, Blur.tap_zero]
    split_ifs
    · rfl
    · exact hl j hj
  · intro l i a b c _ _ ha hb hc hl j hj
    unfold Blur.slide
    rw [getD_set_nat, hl a ha, hl b hb, hl c hc, Blur.slide_zero]
    split_ifs
    · rfl
    · exact hl j hj
  · exact h

/-- Once pixel 0 has been zeroed in a buffer whose samples are all at most 1,
every later store of `Blur` keeps it so. -/
theorem Blur_small_inv :
    (∀ (l : List Nat) (i : Nat), ((∀ j, l.getD j 0 ≤ 1) ∧ l.getD 0 0 = 0) →
      ((∀ j, (l.set i 0).getD j 0 ≤ 1) ∧ (l.set i 0).getD 0 0 = 0)) ∧
    (∀ (l : List Nat) (acc src : Nat), acc % 4 ≠ 3 → src % 4 ≠ 3 →
      ((∀ j, l.getD j 0 ≤ 1) ∧ l.getD 0 0 = 0) →
      ((∀ j, (Blur.tap acc src l).getD j 0 ≤ 1) ∧ (Blur.tap acc src l).getD 0 0 = 0)) ∧
    (∀ (l : List Nat) (i a b c : Nat), 4 ≤ i → i % 4 ≠ 3 → a % 4 ≠ 3 → b % 4 ≠ 3 →
      c % 4 ≠ 3 → ((∀ j, l.getD j 0 ≤ 1) ∧ l.getD 0 0 = 0) →
      ((∀ j, (Blur.slide i a b c l).getD j 0 ≤ 1) ∧ (Blur.slide i a b c l).getD 0 0 = 0)) := by
  refine ⟨?_, ?_, ?_⟩
  · rintro l i ⟨h1, h0⟩
    refine ⟨fun j => ?_, ?_⟩
    · rw [getD_set_nat]; split_ifs
      · omega
      · exact h1 j
    · rw [getD_set_nat]; split_ifs
      · rfl
      · exact h0
  · rintro l acc src _ _ ⟨h1, h0⟩
    have hv := Blur.tap_small (l.getD acc 0) (by have := h1 acc; omega)
      (l.getD src 0) (by have := h1 src; omega)
    have hg : ∀ j, (Blur.tap acc src l).getD j 0 = l.getD j 0 := by
      intro j
      unfold Blur.tap
      rw [getD_set_nat, hv]
      split_ifs with hc
      · rw [hc.1]
      · rfl
    exact ⟨fun j => by rw [hg]; exact h1 j, by rw [hg]; exact h0⟩
  · rintro l i a b c hi _ _ _ _ ⟨h1, h0⟩
    have hv := Blur.slide_small (l.getD a 0) (by have := h1 a; omega)
      (l.getD b 0) (by have := h1 b; omega) (l.getD c 0) (by have := h1 c; omega)
    refine ⟨fun j => ?_, ?_⟩
    · unfold Blur.slide
      rw [getD_set_nat]; split_ifs
      · exact hv
      · exact h1 j
    · unfold Blur.slide
      rw [getD_set_nat]; split_ifs with hc
      · omega
      · exact h0

/-- On a frame with at least one row whose samples are all at most 1, `Blur`
leaves 0 in channel 0 of pixel 0. -/
theorem Blur_small_top_left (W H : Nat) (hH : 0 < H) (d : List Nat) (s : Int)
    (h : ∀ j, d.getD j 0 ≤ 1) : (Blur ⟨W, H, d, s⟩).data.getD 0 0 = 0 := by
  obtain ⟨HZ, HT, HS⟩ := Blur_small_inv
  have rows : ∀ r : List Nat, (∀ j, r.getD j 0 ≤ 1) →
      ((∀ j, (forUp H (fun y u => Blur.hRow W y u) r).getD j 0 ≤ 1) ∧
        (forUp H (fun y u => Blur.hRow W y u) r).getD 0 0 = 0) := by
    intro r hr
    have key := forUp_invariant
      (fun k t => (k = 0 → ∀ j, t.getD j 0 ≤ 1) ∧
        (0 < k → ((∀ j, t.getD j 0 ≤ 1) ∧ t.getD 0 0 = 0)))
      H (fun y u => Blur.hRow W y u) r ⟨fun _ => hr, fun hk => absurd hk (by omega)⟩
      (by
        rintro k t _ ⟨ha, hb⟩
        refine ⟨fun hk => absurd hk (by omega), fun _ => ?_⟩
        apply Blur.hRow_preserves _ HT HS
        rcases Nat.eq_zero_or_pos k with hk | hk
        · subst hk
          have ht := ha rfl
          refine ⟨fun j => ?_, ?_⟩
          · rw [getD_set_nat]; split_ifs
            · omega
            · rw [getD_set_nat]; split_ifs
              · omega
              · rw [getD_set_nat]; split_ifs
                · omega
                · exact ht j
          · rw [getD_set_nat]
            split_ifs with hc
            · rfl
            · have hlen : ¬ 0 < ((t.set (0 * (W * 4) + 2) 0).set (0 * (W * 4) + 1) 0).length := by
                intro hl; exact hc ⟨by omega, by simpa using hl⟩
              simp only [List.length_set] at hlen
              have : t = [] := List.eq_nil_of_length_eq_zero (by omega)
              subst this
              rfl
        · exact HZ _ _ (HZ _ _ (HZ _ _ (hb hk))))
    exact key.2 hH
  have body : ∀ r : List Nat, (∀ j, r.getD j 0 ≤ 1) →
      ((∀ j, (Blur.vPass W H (forUp H (fun y u => Blur.hRow W y u) r)).getD j 0 ≤ 1) ∧
        (Blur.vPass W H (forUp H (fun y u => Blur.hRow W y u) r)).getD 0 0 = 0) := by
    intro r hr
    exact Blur.vPass_preserves _ HZ HT HS W H _ (rows r hr)
  unfold Blur
  simp only [kBlurIterations, Int.toNat_ofNat]
  rw [forUp_succ, forUp_succ, forUp_zero]
  exact (body _ (body d h).1).2

end Effects

namespace Effects

/-! ## C7: uniform fields under `Blur` -/

/-- C7 fails as stated: on the 13x13 frame whose samples are all `v = 1`, the
first sample after `Blur` is 0 (each tap contributes `round_half(1/13) = 0`). -/
theorem uniform_field_not_preserved :
    (List.replicate 676 1).getD 0 0 = 1 ∧
    (Blur ⟨13, 13, List.replicate 676 1, 0⟩).data.getD 0 0 = 0 := by
  refine ⟨by decide, ?_⟩
  apply Blur_small_top_left 13 13 (by decide)
  intro j
  rw [List.getD_eq_getElem?_getD, List.getElem?_replicate]
  split_ifs <;> simp

/-- C7 (amended): `Blur` preserves the all-zero field.  For every 16-bit frame
in which the three active channels of every pixel are 0, the buffer keeps its
length and the three active channels of every pixel are 0 after `Blur`. -/
theorem Blur_preserves_zero_field (W H : Nat) (d : List Nat) (s : Int)
    (hz : ∀ p c, c < 3 → d.getD (4 * p + c) 0 = 0) :
    (Blur ⟨W, H, d, s⟩).data.length = d.length ∧
    ∀ p c, c < 3 → (Blur ⟨W, H, d, s⟩).data.getD (4 * p + c) 0 = 0 := by
  refine ⟨Blur_length _, fun p c hc => ?_⟩
  apply Blur_zero_inv
  · intro j hj
    have e : j = 4 * (j / 4) + j % 4 := by omega
    rw [e]
    exact hz _ _ (by omega)
  · omega

/-- C7 (amended) on the 13x13 frame of zeros. -/
theorem Blur_preserves_zero_field_witness :
    (Blur ⟨(13 : Nat), (13 : Nat), List.replicate 676 0, 0⟩).data.length =
      (List.replicate 676 0).length ∧
    ∀ p c, c < 3 →
      (Blur ⟨(13 : Nat), (13 : Nat), List.replicate 676 0, 0⟩).data.getD (4 * p + c) 0 = 0 :=
  Blur_preserves_zero_field 13 13 (List.replicate 676 0) 0 (by
    intro p c _
    rw [List.getD_eq_getElem?_getD, List.getElem?_replicate]
    split_ifs <;> simp)

/-! ## C6 and C8: `BlurMask` on the all-ones mask -/

/-- C6, the code at the failing input: on the 5x8 mask of all `1.0` the first
sample after `BlurMask` is greater than `1.0`. -/
theorem BlurMask_exceeds_one :
    (∀ v ∈ List.replicate 40 F32.one, (0 : Int) ≤ v ∧ v ≤ F32.one) ∧
    F32.one < (BlurMask ⟨5, 8, List.replicate 40 F32.one, 0⟩).data.getD 0 0 := by
  decide!

/-- C8, the code at the failing input: on the 4x4 mask of all `1.0` no sample
is `1.0` after `BlurMask`; the first one is below `0.8`. -/
theorem BlurMask_ones_not_preserved :
    (∀ v ∈ (BlurMask ⟨4, 4, List.replicate 16 F32.one, 0⟩).data, v ≠ F32.one) ∧
    5 * (BlurMask ⟨4, 4, List.replicate 16 F32.one, 0⟩).data.getD 0 0 < 4 * F32.one := by
  decide!

/-! ## C10: `ConvertBytes` and the byte count -/

theorem ConvertBytes.rgba_length (bytes : List Nat) :
    (ConvertBytes.rgba bytes).length = bytes.length * 4 / 3 := by
  unfold ConvertBytes.rgba
  refine forUp_preserves (fun t : List Nat => t.length = bytes.length * 4 / 3) _ _ _ ?_ ?_
  · simp
  · intro i t _ ht
    simpa using ht

theorem wrap32_of_range (v : Int) (h : -2 ^ 31 ≤ v ∧ v < 2 ^ 31) : wrap32 v = v := by
  unfold wrap32
  omega

/-- `ConvertBytes` on an `"RGB"` argument whose width is an `int32_t`, whose
height is a non-negative `int32_t` and whose byte count is below `2^29`. -/
theorem ConvertBytes.run_rgb (w h : Int) (bytes : List Nat)
    (hw : -2 ^ 31 ≤ w ∧ w < 2 ^ 31) (hh : 0 ≤ h ∧ h < 2 ^ 31)
    (hsize : bytes.length * 4 < 2 ^ 31) :
    ConvertBytes.run (some ⟨"RGB", w, h, some bytes⟩) =
      (Outcome.ok ⟨w, h, ConvertBytes.rgba bytes, 0⟩, some (bytes.length * 4 / 3)) := by
  have hfw : fitsLong w = true := by
    unfold fitsLong; rw [decide_eq_true_iff]; omega
  have hfh : fitsLong h = true := by
    unfold fitsLong; rw [decide_eq_true_iff]; omega
  have hc : ConvertBytes.clobber h = 0 := by
    unfold ConvertBytes.clobber; omega
  have hs : ¬ (2 ^ 31 ≤ bytes.length * 4) := by omega
  simp only [ConvertBytes.run, hfw, hfh, hc, hs, wrap32_of_range w hw,
    wrap32_of_range h ⟨by omega, hh.2⟩, and_self, not_true_eq_false, ne_eq, if_false]

/-- C10 fails as stated: three bytes for a stated 2x2 frame (12 expected) are
accepted and converted. -/
theorem ConvertBytes_accepts_short_input :
    (ConvertBytes (some ⟨"RGB", 2, 2, some [1, 2, 3]⟩)).map
        (fun f => (f.width, f.height, f.data)) = Outcome.ok (2, 2, [1, 2, 3, 255]) ∧
    ([1, 2, 3] : List Nat).length ≠ 2 * 2 * 3 := by
  decide!

/-- C10 (amended): `ConvertBytes` never compares the byte count with
`width*height*3`.  For every input of format `"RGB"` whose width is an
`int32_t`, whose height is a non-negative `int32_t` and whose byte count is
below `2^29`, whatever that byte count is, it returns a frame with the stated
width and height and a buffer of `bytes_size * 4 / 3` bytes. -/
theorem ConvertBytes_no_length_check (w h : Int) (bytes : List Nat)
    (hw : -2 ^ 31 ≤ w ∧ w < 2 ^ 31) (hh : 0 ≤ h ∧ h < 2 ^ 31)
    (hsize : bytes.length * 4 < 2 ^ 31) :
    ConvertBytes (some ⟨"RGB", w, h, some bytes⟩) =
      Outcome.ok ⟨w, h, ConvertBytes.rgba bytes, 0⟩ ∧
    (ConvertBytes.rgba bytes).length = bytes.length * 4 / 3 := by
  refine ⟨?_, ConvertBytes.rgba_length bytes⟩
  unfold ConvertBytes
  rw [ConvertBytes.run_rgb w h bytes hw hh hsize]

/-- C10 (amended) at three bytes for a stated 2x2 frame. -/
theorem ConvertBytes_no_length_check_witness :
    ConvertBytes (some ⟨"RGB", 2, 2, some [1, 2, 3]⟩) =
      Outcome.ok ⟨2, 2, ConvertBytes.rgba [1, 2, 3], 0⟩ ∧
    (ConvertBytes.rgba [1, 2, 3]).length = ([1, 2, 3] : List Nat).length * 4 / 3 :=
  ConvertBytes_no_length_check 2 2 [1, 2, 3] (by decide) (by decide) (by decide)

end Effects

namespace Effects

/-! ## C9: expand and downsample -/

/-- In a loop whose iterations `x` with `x / 3 = X` overwrite an observed
value and whose other iterations leave it alone, the last such iteration wins. -/
theorem forUp_last_of_three {σ α : Type} (I : σ → Prop) (obs : σ → α) (f : Nat → σ → σ)
    (val : Nat → α) (X n : Nat) (t0 : σ) (h0 : I t0)
    (hI : ∀ x t, x < n → I t → I (f x t))
    (hit : ∀ x t, x < n → I t → x / 3 = X → obs (f x t) = val x)
    (miss : ∀ x t, x < n → I t → x / 3 ≠ X → obs (f x t) = obs t) :
    I (forUp n f t0) ∧
      obs (forUp n f t0) = if 3 * X < n then val (min (3 * X + 2) (n - 1)) else obs t0 := by
  refine forUp_invariant (fun k t => I t ∧
    obs t = if 3 * X < k then val (min (3 * X + 2) (k - 1)) else obs t0) n f t0 ?_ ?_
  · exact ⟨h0, by simp⟩
  · rintro k t hk ⟨hIt, ho⟩
    refine ⟨hI k t hk hIt, ?_⟩
    by_cases hX : k / 3 = X
    · rw [hit k t hk hIt hX]
      have h1 : 3 * X < k + 1 := by omega
      have h2 : min (3 * X + 2) (k + 1 - 1) = k := by
        rw [Nat.add_sub_cancel]; omega
      rw [if_pos h1, h2]
    · rw [miss k t hk hIt hX, ho]
      by_cases h1 : 3 * X < k
      · have h2 : 3 * X < k + 1 := by omega
        have h3 : min (3 * X + 2) (k + 1 - 1) = min (3 * X + 2) (k - 1) := by
          rw [Nat.add_sub_cancel]; omega
        rw [if_pos h1, if_pos h2, h3]
      · have h2 : ¬ 3 * X < k + 1 := by omega
        rw [if_neg h1, if_neg h2]

theorem row_ne (a b w u v : Nat) (hu : u < w) (hv : v < w) (hab : a ≠ b) :
    a * w + u ≠ b * w + v := by
  intro h
  have h1 : (a * w + u) / w = a := by
    rw [Nat.add_comm, Nat.add_mul_div_right _ _ (by omega), Nat.div_eq_of_lt hu, Nat.zero_add]
  have h2 : (b * w + v) / w = b := by
    rw [Nat.add_comm, Nat.add_mul_div_right _ _ (by omega), Nat.div_eq_of_lt hv, Nat.zero_add]
  rw [h] at h1
  exact hab (h1.symm.trans h2)

theorem expandDownsample.length_pixel (d : List Nat) (w w16 y x : Nat) (t : List Nat) :
    (expandDownsample.pixel d w w16 y x t).length = t.length := by
  simp [expandDownsample.pixel]

/-- What one iteration of the expand/downsample loop leaves at position `j`. -/
theorem expandDownsample.getD_pixel (d : List Nat) (w w16 y x : Nat) (t : List Nat)
    (j : Nat) :
    (expandDownsample.pixel d w w16 y x t).getD j 0 =
      if j = y / 3 * w16 * 4 + x / 3 * 4 + 2 ∧ y / 3 * w16 * 4 + x / 3 * 4 + 2 < t.length then
        (d.getD (y * w * 4 + x * 4 + 2) 0 <<< 8) % 65536
      else if j = y / 3 * w16 * 4 + x / 3 * 4 + 1 ∧ y / 3 * w16 * 4 + x / 3 * 4 + 1 < t.length then
        (d.getD (y * w * 4 + x * 4 + 1) 0 <<< 8) % 65536
      else if j = y / 3 * w16 * 4 + x / 3 * 4 + 0 ∧ y / 3 * w16 * 4 + x / 3 * 4 + 0 < t.length then
        (d.getD (y * w * 4 + x * 4 + 0) 0 <<< 8) % 65536
      else t.getD j 0 := by
  simp only [expandDownsample.pixel, kRgbChannels, kDownsampleFactor, getD_set_nat,
    List.length_set]
  simp only [eq_comm (b := j)]

end Effects

namespace Effects

/-- One row of the expand/downsample loop (`W = 3 * w16` source pixels in row
`y`): destination pixel `X` of destination row `y / 3` ends with source pixel
`3 * X + 2`; positions in other destination rows keep their value. -/
theorem expandDownsample.row (d : List Nat) (w16 y : Nat) (t : List Nat) (L : Nat)
    (hL : t.length = L) :
    (forUp (3 * w16) (fun x u => expandDownsample.pixel d (3 * w16) w16 y x u) t).length = L ∧
    (∀ X c, X < w16 → c < 3 → y / 3 * w16 * 4 + X * 4 + c < L →
      (forUp (3 * w16) (fun x u => expandDownsample.pixel d (3 * w16) w16 y x u) t).getD
        (y / 3 * w16 * 4 + X * 4 + c) 0 =
        (d.getD (y * (3 * w16) * 4 + (3 * X + 2) * 4 + c) 0 <<< 8) % 65536) ∧
    (∀ Y X c, Y ≠ y / 3 → X < w16 → c < 4 →
      (forUp (3 * w16) (fun x u => expandDownsample.pixel d (3 * w16) w16 y x u) t).getD
        (Y * w16 * 4 + X * 4 + c) 0 = t.getD (Y * w16 * 4 + X * 4 + c) 0) ∧
    (∀ q, (forUp (3 * w16) (fun x u => expandDownsample.pixel d (3 * w16) w16 y x u) t).getD
        (4 * q + 3) 0 = t.getD (4 * q + 3) 0) := by
  have hlen : (forUp (3 * w16) (fun x u => expandDownsample.pixel d (3 * w16) w16 y x u)
      t).length = L :=
    forUp_preserves (fun u => u.length = L) _ _ t hL
      (fun x u _ hu => by simpa [expandDownsample.length_pixel] using hu)
  refine ⟨hlen, ?_, ?_, ?_⟩
  · intro X c hX hc hj
    have key := forUp_last_of_three (fun u : List Nat => u.length = L)
      (fun u => u.getD (y / 3 * w16 * 4 + X * 4 + c) 0)
      (fun x u => expandDownsample.pixel d (3 * w16) w16 y x u)
      (fun x => (d.getD (y * (3 * w16) * 4 + x * 4 + c) 0 <<< 8) % 65536) X (3 * w16) t hL
      (fun x u _ hu => by simpa [expandDownsample.length_pixel] using hu)
      (by
        intro x u _ hu hx
        simp only [expandDownsample.getD_pixel, hx, hu]
        interval_cases c
        · rw [if_neg (by omega), if_neg (by omega), if_pos ⟨rfl, hj⟩]
        · rw [if_neg (by omega), if_pos ⟨rfl, hj⟩]
        · rw [if_pos ⟨rfl, hj⟩])
      (by
        intro x u _ hu hx
        simp only [expandDownsample.getD_pixel]
        rw [if_neg (by omega), if_neg (by omega), if_neg (by omega)])
    have h1 : 3 * X < 3 * w16 := by omega
    have h2 : min (3 * X + 2) (3 * w16 - 1) = 3 * X + 2 := by omega
    have key2 := key.2
    beta_reduce at key2
    rw [key2, if_pos h1, h2]
  · intro Y X c hY hX hc
    refine forUp_preserves (fun u : List Nat =>
      u.getD (Y * w16 * 4 + X * 4 + c) 0 = t.getD (Y * w16 * 4 + X * 4 + c) 0) _ _ t rfl ?_
    intro x u hx hu
    have hne : ∀ c', c' < 3 → Y * w16 * 4 + X * 4 + c ≠ y / 3 * w16 * 4 + x / 3 * 4 + c' := by
      intro c' hc'
      have := row_ne Y (y / 3) (w16 * 4) (X * 4 + c) (x / 3 * 4 + c') (by omega) (by omega) hY
      intro h
      apply this
      rw [← Nat.mul_assoc, ← Nat.mul_assoc, ← Nat.add_assoc, ← Nat.add_assoc]
      exact h
    simp only [expandDownsample.getD_pixel]
    rw [if_neg (fun h => hne 2 (by omega) h.1), if_neg (fun h => hne 1 (by omega) h.1),
      if_neg (fun h => hne 0 (by omega) h.1)]
    exact hu
  · intro q
    refine forUp_preserves (fun u : List Nat =>
      u.getD (4 * q + 3) 0 = t.getD (4 * q + 3) 0) _ _ t rfl ?_
    intro x u _ hu
    simp only [expandDownsample.getD_pixel]
    rw [if_neg (by omega), if_neg (by omega), if_neg (by omega)]
    exact hu

end Effects

namespace Effects

/-- The expand/downsample loops as run on a `3*w16 × 3*h16` frame. -/
theorem expandDownsample_data (w16 h16 : Nat) (d : List Nat) (s : Int) :
    (expandDownsample ⟨((3 * w16 : Nat) : Int), ((3 * h16 : Nat) : Int), d, s⟩).width = w16 ∧
    (expandDownsample ⟨((3 * w16 : Nat) : Int), ((3 * h16 : Nat) : Int), d, s⟩).height = h16 ∧
    (expandDownsample ⟨((3 * w16 : Nat) : Int), ((3 * h16 : Nat) : Int), d, s⟩).data =
      forUp (3 * h16) (fun y t =>
        forUp (3 * w16) (fun x u => expandDownsample.pixel d (3 * w16) w16 y x u) t)
        (List.replicate (w16 * h16 * 4) 0) := by
  have hw : Int.tdiv ((3 * w16 : Nat) : Int) ((kDownsampleFactor : Nat) : Int) = (w16 : Int) := by
    rw [Int.tdiv_eq_ediv (Int.ofNat_nonneg _) (Int.ofNat_nonneg _)]
    simp only [kDownsampleFactor]; omega
  have hh : Int.tdiv ((3 * h16 : Nat) : Int) ((kDownsampleFactor : Nat) : Int) = (h16 : Int) := by
    rw [Int.tdiv_eq_ediv (Int.ofNat_nonneg _) (Int.ofNat_nonneg _)]
    simp only [kDownsampleFactor]; omega
  have hn : ((w16 : Int) * (h16 : Int) * ((kRgbChannels : Nat) : Int)).toNat = w16 * h16 * 4 := by
    simp only [kRgbChannels]
    have : ((w16 : Int) * (h16 : Int) * ((4 : Nat) : Int)) = ((w16 * h16 * 4 : Nat) : Int) := by
      push_cast; ring
    rw [this, Int.toNat_ofNat]
  simp only [expandDownsample, hw, hh, hn, Int.toNat_ofNat]
  exact ⟨trivial, trivial, trivial⟩

/-- C9 fails as stated: on a 3x3 frame whose pixel `i` holds the bytes
`4i, 4i+1, 4i+2`, the single destination pixel is built from source pixel
`(2, 2)` (bytes 32, 33, 34), not from source pixel `(0, 0)` (bytes 0, 1, 2). -/
theorem downsample_not_first_pixel :
    (expandDownsample ⟨3, 3, List.range 36, 0⟩).data = [32 <<< 8, 33 <<< 8, 34 <<< 8, 0] ∧
    (expandDownsample ⟨3, 3, List.range 36, 0⟩).data.getD 1 0 ≠
      (List.range 36).getD ((3 * 0 * 3 + 3 * 0) * 4 + 1) 0 <<< 8 := by
  decide!

/-- C9 (amended): for an 8-bit frame of width `3*w16` and height `3*h16` the
16-bit frame built in `PyEffectsBlur` has width `w16`, height `h16` and
`4*w16*h16` samples; its sample at pixel `(X, Y)`, channel `c < 3`, is the source
sample at pixel `(3*X + 2, 3*Y + 2)` (the last source pixel of the 3x3 block, not
the first) shifted left by 8 bits, and its fourth channel is 0; no other source
pixel influences the result. -/
theorem expandDownsample_takes_last (w16 h16 : Nat) (d : List Nat) (s : Int)
    (X Y c : Nat) (hX : X < w16) (hY : Y < h16) (hc : c < 3) (hd : ∀ b ∈ d, b < 256) :
    (expandDownsample ⟨((3 * w16 : Nat) : Int), ((3 * h16 : Nat) : Int), d, s⟩).width = w16 ∧
    (expandDownsample ⟨((3 * w16 : Nat) : Int), ((3 * h16 : Nat) : Int), d, s⟩).height = h16 ∧
    (expandDownsample ⟨((3 * w16 : Nat) : Int), ((3 * h16 : Nat) : Int), d, s⟩).data.length =
      w16 * h16 * 4 ∧
    (expandDownsample ⟨((3 * w16 : Nat) : Int), ((3 * h16 : Nat) : Int), d, s⟩).data.getD
      ((Y * w16 + X) * 4 + c) 0 =
      d.getD (((3 * Y + 2) * (3 * w16) + (3 * X + 2)) * 4 + c) 0 <<< 8 ∧
    (expandDownsample ⟨((3 * w16 : Nat) : Int), ((3 * h16 : Nat) : Int), d, s⟩).data.getD
      ((Y * w16 + X) * 4 + 3) 0 = 0 := by
  obtain ⟨hw, hh, hdata⟩ := expandDownsample_data w16 h16 d s
  refine ⟨hw, hh, ?_, ?_, ?_⟩
  · rw [hdata]
    refine forUp_preserves (fun t : List Nat => t.length = w16 * h16 * 4) _ _ _ (by simp) ?_
    intro y t _ ht
    exact (expandDownsample.row d w16 y t _ ht).1
  · rw [hdata]
    have hj : Y * w16 * 4 + X * 4 + c < w16 * h16 * 4 := by
      have := (flat_index w16 h16 X Y hX hY).1
      have e : w16 * h16 = h16 * w16 := Nat.mul_comm _ _
      omega
    have key := forUp_last_of_three (fun u : List Nat => u.length = w16 * h16 * 4)
      (fun u => u.getD (Y * w16 * 4 + X * 4 + c) 0)
      (fun y t => forUp (3 * w16) (fun x u => expandDownsample.pixel d (3 * w16) w16 y x u) t)
      (fun y => (d.getD (y * (3 * w16) * 4 + (3 * X + 2) * 4 + c) 0 <<< 8) % 65536)
      Y (3 * h16) (List.replicate (w16 * h16 * 4) 0) (by simp)
      (fun y t _ ht => (expandDownsample.row d w16 y t _ ht).1)
      (by
        intro y t _ ht hy
        have := (expandDownsample.row d w16 y t _ ht).2.1 X c hX hc (by rw [hy]; exact hj)
        rw [hy] at this
        exact this)
      (by
        intro y t _ ht hy
        exact (expandDownsample.row d w16 y t _ ht).2.2.1 Y X c (fun h => hy h.symm) hX
          (by omega))
    have key2 := key.2
    beta_reduce at key2
    have h1 : 3 * Y < 3 * h16 := by omega
    have h2 : min (3 * Y + 2) (3 * h16 - 1) = 3 * Y + 2 := by omega
    have e1 : (Y * w16 + X) * 4 + c = Y * w16 * 4 + X * 4 + c := by ring
    have e2 : ((3 * Y + 2) * (3 * w16) + (3 * X + 2)) * 4 + c =
        (3 * Y + 2) * (3 * w16) * 4 + (3 * X + 2) * 4 + c := by ring
    rw [e1, e2, key2, if_pos h1, h2]
    have hb := getD_lt_256 d hd ((3 * Y + 2) * (3 * w16) * 4 + (3 * X + 2) * 4 + c)
    rw [Nat.shiftLeft_eq]
    omega
  · rw [hdata]
    have e1 : (Y * w16 + X) * 4 + 3 = 4 * (Y * w16 + X) + 3 := by ring
    rw [e1]
    refine forUp_preserves (fun t : List Nat => t.getD (4 * (Y * w16 + X) + 3) 0 = 0) _ _ _ ?_ ?_
    · beta_reduce
      rw [List.getD_eq_getElem?_getD, List.getElem?_replicate]
      split_ifs <;> simp
    · intro y t _ ht
      have := (expandDownsample.row d w16 y t _ rfl).2.2.2 (Y * w16 + X)
      rw [this]
      exact ht

/-- C9 (amended) on the 3x3 frame whose pixel `i` holds the bytes
`4i, 4i+1, 4i+2`: channel 1 of the one destination pixel is byte 33 shifted. -/
theorem expandDownsample_takes_last_witness :
    (expandDownsample ⟨((3 * 1 : Nat) : Int), ((3 * 1 : Nat) : Int), List.range 36, 0⟩).width
      = (1 : Nat) ∧
    (expandDownsample ⟨((3 * 1 : Nat) : Int), ((3 * 1 : Nat) : Int), List.range 36, 0⟩).height
      = (1 : Nat) ∧
    (expandDownsample ⟨((3 * 1 : Nat) : Int), ((3 * 1 : Nat) : Int), List.range 36,
      0⟩).data.length = 1 * 1 * 4 ∧
    (expandDownsample ⟨((3 * 1 : Nat) : Int), ((3 * 1 : Nat) : Int), List.range 36,
      0⟩).data.getD ((0 * 1 + 0) * 4 + 1) 0 =
      (List.range 36).getD (((3 * 0 + 2) * (3 * 1) + (3 * 0 + 2)) * 4 + 1) 0 <<< 8 ∧
    (expandDownsample ⟨((3 * 1 : Nat) : Int), ((3 * 1 : Nat) : Int), List.range 36,
      0⟩).data.getD ((0 * 1 + 0) * 4 + 3) 0 = 0 :=
  expandDownsample_takes_last 1 1 (List.range 36) 0 0 0 1 (by decide) (by decide) (by decide)
    (by decide)

end Effects

namespace Effects

/-! ## C11: dimensions are not validated -/

/-- C17: the 8-bit background has the width and height of the 16-bit frame and,
at every index `i` of the buffer (all four channels), holds `floor(v / 256)` for
the 16-bit sample `v`. -/
theorem narrowTo8_spec (w h : Nat) (d : List Nat) (s : Int) (i : Nat)
    (hi : i < w * h * 4) (hd : ∀ v ∈ d, v < 65536) :
    (narrowTo8 ⟨w, h, d, s⟩).width = w ∧ (narrowTo8 ⟨w, h, d, s⟩).height = h ∧
    (narrowTo8 ⟨w, h, d, s⟩).data[i]? = some (d.getD i 0 / 256) := by
  refine ⟨rfl, rfl, ?_⟩
  have hn : ((w : Int) * (h : Int) * ((kRgbChannels : Nat) : Int)).toNat = w * h * 4 := by
    simp only [kRgbChannels]
    have : ((w : Int) * (h : Int) * ((4 : Nat) : Int)) = ((w * h * 4 : Nat) : Int) := by
      push_cast; ring
    rw [this, Int.toNat_ofNat]
  simp only [narrowTo8, hn]
  rw [forUp_set_getElem?, List.length_replicate, if_pos ⟨hi, hi⟩, Nat.shiftRight_eq_div_pow]
  have hv : d.getD i 0 < 65536 := by
    rw [List.getD_eq_getElem?_getD]
    by_cases hl : i < d.length
    · rw [List.getElem?_eq_getElem hl]; exact hd _ (List.getElem_mem hl)
    · rw [List.getElem?_eq_none (by omega)]; simp
  congr 1
  omega

/-- C17 on a 1x1 frame holding `(0x1234, 0xFFFF, 0x00FF, 0x0100)`: channel 1
becomes `0xFF`. -/
theorem narrowTo8_spec_witness :
    (narrowTo8 ⟨(1 : Nat), (1 : Nat), [0x1234, 0xFFFF, 0x00FF, 0x0100], 0⟩).width = (1 : Nat) ∧
    (narrowTo8 ⟨(1 : Nat), (1 : Nat), [0x1234, 0xFFFF, 0x00FF, 0x0100], 0⟩).height = (1 : Nat) ∧
    (narrowTo8 ⟨(1 : Nat), (1 : Nat), [0x1234, 0xFFFF, 0x00FF, 0x0100], 0⟩).data[1]? =
      some (([0x1234, 0xFFFF, 0x00FF, 0x0100] : List Nat).getD 1 0 / 256) :=
  narrowTo8_spec 1 1 [0x1234, 0xFFFF, 0x00FF, 0x0100] 0 1 (by decide) (by decide)

end Effects

namespace Effects

/-! ## More binary32 lemmas: bounds on a rounded value -/

/-- Rounding never passes a representable value: if `a / q ≤ T * 2^e` with
`T < 2^24`, the rounded magnitude is at most `T * 2^e`. -/
theorem roundMag_le_rep (a q T e : Nat) (hq : 0 < q) (hT : T < 2 ^ 24)
    (h : a ≤ T * 2 ^ e * q) : roundMag a q ≤ T * 2 ^ e := by
  unfold roundMag
  have hk : a / q ≤ T * 2 ^ e :=
    Nat.div_le_of_le_mul (by rw [Nat.mul_comm]; exact h)
  obtain ⟨hs1, hs2⟩ := dropBits_spec (a / q) (a / q) (Nat.le_refl _)
  generalize dropBits (a / q) (a / q) = s at hs1 hs2 ⊢
  simp only []
  have hd : 0 < q * 2 ^ s := Nat.mul_pos hq (Nat.two_pow_pos _)
  -- `2^s` divides the bound
  have hse : s ≤ e ∨ s = 0 := by
    rcases hs2 with h0 | h1
    · exact Or.inr h0
    · left
      have h2 : 2 ^ (23 + s) < 2 ^ (24 + e) := by
        calc 2 ^ (23 + s) ≤ a / q := h1
          _ ≤ T * 2 ^ e := hk
          _ < 2 ^ 24 * 2 ^ e := Nat.mul_lt_mul_of_pos_right hT (Nat.two_pow_pos _)
          _ = 2 ^ (24 + e) := (Nat.pow_add 2 24 e).symm
      have := (Nat.pow_lt_pow_iff_right (by norm_num : 1 < 2)).1 h2
      omega
  obtain ⟨m, hm⟩ : ∃ m, T * 2 ^ e = m * 2 ^ s := by
    rcases hse with h1 | h0
    · obtain ⟨c, rfl⟩ := Nat.exists_eq_add_of_le h1
      exact ⟨T * 2 ^ c, by rw [Nat.pow_add]; ring⟩
    · exact ⟨T * 2 ^ e, by rw [h0]; simp⟩
  rw [hm] at h ⊢
  have ha : a ≤ (q * 2 ^ s) * m := by
    calc a ≤ m * 2 ^ s * q := h
      _ = (q * 2 ^ s) * m := by ring
  have ht : a / (q * 2 ^ s) ≤ m := Nat.div_le_of_le_mul ha
  have hdm := Nat.div_add_mod a (q * 2 ^ s)
  clear hm h hk hs1 hs2 hse
  generalize q * 2 ^ s = d at *
  split_ifs with hc
  · -- rounding up needs a positive remainder, so the quotient is below `m`
    have hr : 0 < a % d := by
      rcases hc with h1 | ⟨h1, _⟩ <;> omega
    have hlt : a / d < m := by
      rcases Nat.lt_or_ge (a / d) m with h1 | h1
      · exact h1
      · have h2 : a / d = m := Nat.le_antisymm ht h1
        rw [h2] at hdm
        omega
    exact Nat.mul_le_mul_right _ hlt
  · exact Nat.mul_le_mul_right _ ht

/-- Rounding stays below a value that lies more than half a unit in the last
place above the argument. -/
theorem roundMag_lt (a q m : Nat) (hq : 0 < q)
    (h : 2 * a + q * 2 ^ dropBits (a / q) (a / q) <
      2 * (m * 2 ^ dropBits (a / q) (a / q)) * q) :
    roundMag a q < m * 2 ^ dropBits (a / q) (a / q) := by
  unfold roundMag
  generalize dropBits (a / q) (a / q) = s at h ⊢
  simp only []
  have hd : 0 < q * 2 ^ s := Nat.mul_pos hq (Nat.two_pow_pos _)
  have hdm := Nat.div_add_mod a (q * 2 ^ s)
  have hmod := Nat.mod_lt a hd
  have e1 : 2 * (m * 2 ^ s) * q = (q * 2 ^ s) * (2 * m) := by ring
  rw [e1] at h
  generalize q * 2 ^ s = d at *
  generalize a / d = t at *
  generalize a % d = r at *
  have e2 : 2 * a = d * (2 * t) + 2 * r := by rw [← hdm]; ring
  rw [e2] at h
  split_ifs with hc
  · have h3 : d * (2 * t + 2) ≤ d * (2 * t) + 2 * r + d := by
      have : d ≤ 2 * r := by rcases hc with h1 | ⟨h1, _⟩ <;> omega
      rw [Nat.mul_add]; omega
    have h4 : d * (2 * t + 2) < d * (2 * m) := lt_of_le_of_lt h3 h
    have h5 := Nat.lt_of_mul_lt_mul_left h4
    exact Nat.mul_lt_mul_of_pos_right (by omega) (Nat.two_pow_pos _)
  · have h3 : d * (2 * t + 1) ≤ d * (2 * t) + 2 * r + d := by
      rw [Nat.mul_add]; omega
    have h4 : d * (2 * t + 1) < d * (2 * m) := lt_of_le_of_lt h3 h
    have h5 := Nat.lt_of_mul_lt_mul_left h4
    exact Nat.mul_lt_mul_of_pos_right (by omega) (Nat.two_pow_pos _)

theorem F32.round_nonneg (p : Int) (q : Nat) (hp : 0 ≤ p) :
    F32.round p q = (roundMag p.toNat q : Int) := by
  unfold F32.round
  rw [if_neg (by omega)]
  congr 2
  omega

theorem F32.ofInt_exact_le (n : Nat) (h : n ≤ 2 ^ 24) :
    F32.ofInt (n : Int) = (n : Int) * 2 ^ 149 := by
  rcases Nat.lt_or_ge n (2 ^ 24) with h1 | h1
  · exact F32.ofInt_exact _ (by simpa using h1)
  · have e : n = 2 ^ 24 := Nat.le_antisymm h h1
    subst e
    decide!

end Effects

namespace Effects

/-! ## C14: nearest-neighbour sampling -/

/-- The normalised coordinate `(float)x / W` of a pixel `x < W ≤ 2^24` is at
most `1 - 2^(-24)`, the largest `float` below 1. -/
theorem normCoord_le (x W : Nat) (hx : x < W) (hW : W ≤ 2 ^ 24) :
    roundMag (x * 2 ^ 149 * 2 ^ 149) (W * 2 ^ 149) ≤ (2 ^ 24 - 1) * 2 ^ 125 := by
  apply roundMag_le_rep _ _ _ _ (Nat.mul_pos (by omega) (Nat.two_pow_pos _)) (by norm_num)
  have h1 : x * 16777216 ≤ 16777215 * W := by
    have : (2 : Nat) ^ 24 = 16777216 := by norm_num
    omega
  have h2 := Nat.mul_le_mul_right (2 ^ 274) h1
  calc x * 2 ^ 149 * 2 ^ 149 = x * 16777216 * 2 ^ 274 := by ring
    _ ≤ 16777215 * W * 2 ^ 274 := h2
    _ = (2 ^ 24 - 1) * 2 ^ 125 * (W * 2 ^ 149) := by norm_num; ring

/-- The product `nx * (float)Wm` rounds to a value below `Wm` when
`nx ≤ 1 - 2^(-24)` and `1 ≤ Wm ≤ 2^24`. -/
theorem scaled_lt (nx Wm : Nat) (hnx : nx ≤ (2 ^ 24 - 1) * 2 ^ 125) (hm1 : 1 ≤ Wm)
    (hm : Wm ≤ 2 ^ 24) :
    roundMag (nx * (Wm * 2 ^ 149)) (2 ^ 149) < Wm * 2 ^ 149 := by
  have hq : 0 < 2 ^ 149 := Nat.two_pow_pos _
  have hdiv : nx * (Wm * 2 ^ 149) / 2 ^ 149 = nx * Wm := by
    rw [← Nat.mul_assoc]; exact Nat.mul_div_cancel _ hq
  have hu : nx * Wm ≤ (2 ^ 24 - 1) * 2 ^ 125 * Wm := Nat.mul_le_mul_right _ hnx
  have hu2 : nx * Wm < 2 ^ (24 + 149) := by
    have h1 : (2 ^ 24 - 1) * 2 ^ 125 * Wm ≤ (2 ^ 24 - 1) * 2 ^ 125 * 2 ^ 24 :=
      Nat.mul_le_mul_left _ hm
    have h2 : (2 ^ 24 - 1) * 2 ^ 125 * 2 ^ 24 < 2 ^ (24 + 149) := by norm_num
    omega
  have key := roundMag_lt (nx * (Wm * 2 ^ 149)) (2 ^ 149)
  rw [hdiv] at key
  obtain ⟨_, hs2⟩ := dropBits_spec (nx * Wm) (nx * Wm) (Nat.le_refl _)
  have hs : dropBits (nx * Wm) (nx * Wm) ≤ 149 := dropBits_le _ _ hu2
  generalize dropBits (nx * Wm) (nx * Wm) = s at key hs hs2
  obtain ⟨c, hc⟩ := Nat.exists_eq_add_of_le hs
  have hM : Wm * 2 ^ 149 = Wm * 2 ^ c * 2 ^ s := by
    rw [hc, Nat.pow_add]; ring
  have hP : 2 ^ s < Wm * 2 ^ 126 := by
    rcases hs2 with h0 | h1
    · rw [h0]
      calc 2 ^ 0 < 1 * 2 ^ 126 := by norm_num
        _ ≤ Wm * 2 ^ 126 := Nat.mul_le_mul_right _ hm1
    · have h3 : 2 ^ 23 * 2 ^ s ≤ (2 ^ 24 - 1) * 2 ^ 125 * Wm := by
        rw [← Nat.pow_add]; exact le_trans h1 hu
      have h4 : (2 ^ 24 - 1) * 2 ^ 125 * Wm < 2 ^ 23 * (Wm * 2 ^ 126) := by
        have : (2 ^ 24 - 1) * 2 ^ 125 * Wm = (2 ^ 149 - 2 ^ 125) * Wm := by norm_num
        have e : 2 ^ 23 * (Wm * 2 ^ 126) = 2 ^ 149 * Wm := by ring
        rw [this, e]
        exact Nat.mul_lt_mul_of_pos_right (by norm_num) (by omega)
      exact Nat.lt_of_mul_lt_mul_left (lt_of_le_of_lt h3 h4)
  have hcond : 2 * (nx * (Wm * 2 ^ 149)) + 2 ^ 149 * 2 ^ s <
      2 * (Wm * 2 ^ c * 2 ^ s) * 2 ^ 149 := by
    rw [← hM]
    have h5 : 2 * (nx * Wm) + 2 ^ s < 2 * (Wm * 2 ^ 149) := by
      have h6 : 2 * (nx * Wm) ≤ 2 * ((2 ^ 24 - 1) * 2 ^ 125 * Wm) := Nat.mul_le_mul_left _ hu
      have h7 : 2 * ((2 ^ 24 - 1) * 2 ^ 125 * Wm) + Wm * 2 ^ 126 = 2 * (Wm * 2 ^ 149) := by
        norm_num; ring
      omega
    calc 2 * (nx * (Wm * 2 ^ 149)) + 2 ^ 149 * 2 ^ s
        = (2 * (nx * Wm) + 2 ^ s) * 2 ^ 149 := by ring
      _ < 2 * (Wm * 2 ^ 149) * 2 ^ 149 := Nat.mul_lt_mul_of_pos_right h5 hq
  exact lt_of_lt_of_eq (key (Wm * 2 ^ c) hq hcond) hM.symm

set_option maxRecDepth 100000 in
/-- For frame extents up to `2^24` and grid extents from 1 to `2^24`, the
coordinate the compositor computes in `float` lies inside the grid. -/
theorem sampleCoord_bounds (x W Wm : Nat) (hx : x < W) (hW : W ≤ 2 ^ 24) (hm1 : 1 ≤ Wm)
    (hm : Wm ≤ 2 ^ 24) :
    0 ≤ sampleCoord x (W : Int) (Wm : Int) ∧ sampleCoord x (W : Int) (Wm : Int) < (Wm : Int) := by
  unfold sampleCoord
  rw [F32.ofInt_exact_le x (by omega), F32.ofInt_exact_le W hW, F32.ofInt_exact_le Wm hm]
  have hq : (0 : Int) < 2 ^ 149 := by positivity
  have hdiv : F32.div ((x : Int) * 2 ^ 149) ((W : Int) * 2 ^ 149) =
      ((roundMag (x * 2 ^ 149 * 2 ^ 149) (W * 2 ^ 149) : Nat) : Int) := by
    unfold F32.div
    have hy : ¬ ((W : Int) * 2 ^ 149 < 0) := not_lt.mpr (by positivity)
    rw [if_neg hy, F32.round_nonneg _ _ (by positivity)]
    have e1 : ((x : Int) * 2 ^ 149 * 2 ^ 149).toNat = x * 2 ^ 149 * 2 ^ 149 := by
      have : ((x : Int) * 2 ^ 149 * 2 ^ 149) = ((x * 2 ^ 149 * 2 ^ 149 : Nat) : Int) := by
        push_cast; ring
      rw [this, Int.toNat_ofNat]
    have e2 : ((W : Int) * 2 ^ 149).natAbs = W * 2 ^ 149 := by
      have : ((W : Int) * 2 ^ 149) = ((W * 2 ^ 149 : Nat) : Int) := by push_cast; ring
      rw [this, Int.natAbs_ofNat]
    rw [e1, e2]
  rw [hdiv]
  have hnx := normCoord_le x W hx hW
  generalize roundMag (x * 2 ^ 149 * 2 ^ 149) (W * 2 ^ 149) = nx at hnx
  have hmul : F32.mul (nx : Int) ((Wm : Int) * 2 ^ 149) =
      ((roundMag (nx * (Wm * 2 ^ 149)) (2 ^ 149) : Nat) : Int) := by
    unfold F32.mul
    rw [F32.round_nonneg _ _ (by positivity)]
    have e1 : ((nx : Int) * ((Wm : Int) * 2 ^ 149)).toNat = nx * (Wm * 2 ^ 149) := by
      have : ((nx : Int) * ((Wm : Int) * 2 ^ 149)) = ((nx * (Wm * 2 ^ 149) : Nat) : Int) := by
        push_cast; ring
      rw [this, Int.toNat_ofNat]
    rw [e1]
  rw [hmul]
  have hr := scaled_lt nx Wm hnx hm1 hm
  generalize roundMag (nx * (Wm * 2 ^ 149)) (2 ^ 149) = r at hr
  have e : Int.tdiv (r : Int) (2 ^ 149) = ((r / 2 ^ 149 : Nat) : Int) := by
    rw [Int.tdiv_eq_ediv (by positivity) (by positivity)]
    push_cast
    rfl
  have hlt : r / 2 ^ 149 < Wm := by
    rw [Nat.div_lt_iff_lt_mul (Nat.two_pow_pos _)]; exact hr
  have hrange : r / 2 ^ 149 < 2 ^ 31 := lt_of_lt_of_le hlt (le_trans hm (by norm_num))
  rw [F32.toInt_of_range _ (by rw [e]; constructor <;> omega), e]
  constructor
  · positivity
  · exact_mod_cast hlt

end Effects

namespace Effects

theorem sampleIndex_lt (W H Wm Hm x y : Nat) (hx : x < W) (hy : y < H)
    (hW : W ≤ 2 ^ 24) (hH : H ≤ 2 ^ 24) (hm1 : 1 ≤ Wm) (hm : Wm ≤ 2 ^ 24)
    (hn1 : 1 ≤ Hm) (hn : Hm ≤ 2 ^ 24) :
    sampleIndex (W : Int) (H : Int) (Wm : Int) (Hm : Int) x y < Wm * Hm := by
  obtain ⟨hx0, hx1⟩ := sampleCoord_bounds x W Wm hx hW hm1 hm
  obtain ⟨hy0, hy1⟩ := sampleCoord_bounds y H Hm hy hH hn1 hn
  unfold sampleIndex
  obtain ⟨a, ha⟩ := Int.eq_ofNat_of_zero_le hx0
  obtain ⟨b, hb⟩ := Int.eq_ofNat_of_zero_le hy0
  rw [ha] at hx1 ⊢
  rw [hb] at hy1 ⊢
  have e : ((b : Int) * (Wm : Int) + (a : Int)).toNat = b * Wm + a := by
    have : ((b : Int) * (Wm : Int) + (a : Int)) = ((b * Wm + a : Nat) : Int) := by push_cast; ring
    rw [this, Int.toNat_ofNat]
  rw [e]
  have := (flat_index Wm Hm a b (by exact_mod_cast hx1) (by exact_mod_cast hy1)).1
  rw [Nat.mul_comm Wm Hm]
  exact this

/-- C14 fails as stated: for a frame of width `2^24 + 1` and a mask of width 1,
`floor(x * Wm / W)` is 0 at `x = 2^24`, but the coordinate the code computes in
`float` is 1, and the sample index 1 lies outside the 1x1 mask. -/
theorem sampling_leaves_grid :
    16777216 * 1 / 16777217 = 0 ∧
    sampleCoord 16777216 16777217 1 = 1 ∧
    ¬ (sampleIndex 16777217 1 1 1 16777216 0 < 1 * 1) := by
  decide!

/-- C14 (amended): for every frame size `1 ≤ W, H ≤ 2^24`, mask size
`1 ≤ Wm, Hm ≤ 2^24` and background size `1 ≤ Wb, Hb ≤ 2^24` (not necessarily
equal) and every output pixel `x < W`, `y < H`, the coordinates that
`BackgroundMask` computes in `float`, `trunc(((float)x / W) * Wm)` and so on,
lie in `[0,Wm) x [0,Hm)` and `[0,Wb) x [0,Hb)`, so the sample indices lie
inside a `Wm*Hm` mask and a `Wb*Hb` background. -/
theorem sampling_in_bounds (W H Wm Hm Wb Hb x y : Nat) (hx : x < W) (hy : y < H)
    (hW : W ≤ 2 ^ 24) (hH : H ≤ 2 ^ 24)
    (hWm : 1 ≤ Wm ∧ Wm ≤ 2 ^ 24) (hHm : 1 ≤ Hm ∧ Hm ≤ 2 ^ 24)
    (hWb : 1 ≤ Wb ∧ Wb ≤ 2 ^ 24) (hHb : 1 ≤ Hb ∧ Hb ≤ 2 ^ 24) :
    (0 ≤ sampleCoord x (W : Int) (Wm : Int) ∧ sampleCoord x (W : Int) (Wm : Int) < (Wm : Int)) ∧
    (0 ≤ sampleCoord y (H : Int) (Hm : Int) ∧ sampleCoord y (H : Int) (Hm : Int) < (Hm : Int)) ∧
    (0 ≤ sampleCoord x (W : Int) (Wb : Int) ∧ sampleCoord x (W : Int) (Wb : Int) < (Wb : Int)) ∧
    (0 ≤ sampleCoord y (H : Int) (Hb : Int) ∧ sampleCoord y (H : Int) (Hb : Int) < (Hb : Int)) ∧
    sampleIndex (W : Int) (H : Int) (Wm : Int) (Hm : Int) x y < Wm * Hm ∧
    sampleIndex (W : Int) (H : Int) (Wb : Int) (Hb : Int) x y < Wb * Hb :=
  ⟨sampleCoord_bounds x W Wm hx hW hWm.1 hWm.2, sampleCoord_bounds y H Hm hy hH hHm.1 hHm.2,
    sampleCoord_bounds x W Wb hx hW hWb.1 hWb.2, sampleCoord_bounds y H Hb hy hH hHb.1 hHb.2,
    sampleIndex_lt W H Wm Hm x y hx hy hW hH hWm.1 hWm.2 hHm.1 hHm.2,
    sampleIndex_lt W H Wb Hb x y hx hy hW hH hWb.1 hWb.2 hHb.1 hHb.2⟩

/-- C14 (amended) for a 23x7 frame, a 5x3 mask and a 23x7 background at pixel
`(22, 6)`. -/
theorem sampling_in_bounds_witness :
    (0 ≤ sampleCoord 22 ((23 : Nat) : Int) ((5 : Nat) : Int) ∧
      sampleCoord 22 ((23 : Nat) : Int) ((5 : Nat) : Int) < ((5 : Nat) : Int)) ∧
    (0 ≤ sampleCoord 6 ((7 : Nat) : Int) ((3 : Nat) : Int) ∧
      sampleCoord 6 ((7 : Nat) : Int) ((3 : Nat) : Int) < ((3 : Nat) : Int)) ∧
    (0 ≤ sampleCoord 22 ((23 : Nat) : Int) ((23 : Nat) : Int) ∧
      sampleCoord 22 ((23 : Nat) : Int) ((23 : Nat) : Int) < ((23 : Nat) : Int)) ∧
    (0 ≤ sampleCoord 6 ((7 : Nat) : Int) ((7 : Nat) : Int) ∧
      sampleCoord 6 ((7 : Nat) : Int) ((7 : Nat) : Int) < ((7 : Nat) : Int)) ∧
    sampleIndex ((23 : Nat) : Int) ((7 : Nat) : Int) ((5 : Nat) : Int) ((3 : Nat) : Int) 22 6
      < 5 * 3 ∧
    sampleIndex ((23 : Nat) : Int) ((7 : Nat) : Int) ((23 : Nat) : Int) ((7 : Nat) : Int) 22 6
      < 23 * 7 :=
  sampling_in_bounds 23 7 5 3 23 7 22 6 (by decide) (by decide) (by decide) (by decide)
    (by decide) (by decide) (by decide) (by decide)

end Effects

namespace Effects

/-! ## C12: no kernel-extent validation -/

/-- C12 fails as stated: a 3x3 grey frame (downsampled to 1x1, narrower than
the 13-wide kernel) with a 1x1 mask is not rejected; the blur runs and the call
returns 36 bytes, all 0. -/
theorem blur_accepts_small_buffers :
    PyEffectsBlur.inBounds ⟨3, 3, ConvertBytes.rgba (List.replicate 27 200), 0⟩
      ⟨1, 1, [0], 1⟩ = true ∧
    PyEffectsBlur (some ⟨"RGB", 3, 3, some (List.replicate 27 200)⟩)
      ⟨some 1, some 1, some 1, some [0]⟩ = Outcome.ok (List.replicate 36 0) := by
  decide!

/-- C12 (amended): the blur operation has no kernel-extent check.  For every
input that the two converters accept and on which the body of `PyEffectsBlur`
stays within its buffers (`PyEffectsBlur.inBounds`: frame sides multiples of 3
and at least 3, buffers as long as the stated sizes, mask at least 1x1),
whatever the sizes of the kernels relative to the buffers, the call reports no
error and returns `width*height*4` bytes. -/
theorem blur_has_no_extent_check (a : PyFrame) (m : PyMask) (frame mask : Frame Nat)
    (hf : ConvertBytes (some a) = Outcome.ok frame) (hm : ConvertMask m = some mask)
    (hin : PyEffectsBlur.inBounds frame mask = true) :
    ∃ bytes, PyEffectsBlur (some a) m = Outcome.ok bytes ∧
      bytes.length = (frame.width * frame.height * 4).toNat := by
  have hsize : ¬ (frame.width * frame.height * 4 < 0) := by
    unfold PyEffectsBlur.inBounds at hin
    rw [decide_eq_true_iff] at hin
    obtain ⟨h1, h2, _⟩ := hin
    have := Int.mul_nonneg (show (0 : Int) ≤ frame.width by omega)
      (show (0 : Int) ≤ frame.height by omega)
    omega
  refine ⟨(List.range (frame.width * frame.height * 4).toNat).map
    (fun i => (BackgroundMask frame (BlurMask (BitmapToFloatMap mask))
      (narrowTo8 (Blur (expandDownsample frame)))).data.getD i 0), ?_, by simp⟩
  simp only [PyEffectsBlur, hf, hm, hin, PyBytes_FromStringAndSize, BackgroundMask,
    not_true_eq_false, if_false, hsize]

/-- C12 (amended) on the 3x3 frame with a 1x1 mask. -/
theorem blur_has_no_extent_check_witness :
    ∃ bytes, PyEffectsBlur (some ⟨"RGB", 3, 3, some (List.replicate 27 200)⟩)
        ⟨some 1, some 1, some 1, some [0]⟩ = Outcome.ok bytes ∧
      bytes.length = ((3 : Int) * 3 * 4).toNat :=
  blur_has_no_extent_check ⟨"RGB", 3, 3, some (List.replicate 27 200)⟩
    ⟨some 1, some 1, some 1, some [0]⟩ ⟨3, 3, ConvertBytes.rgba (List.replicate 27 200), 0⟩
    ⟨1, 1, [0], 1⟩ rfl rfl (by decide!)

/-! ## C15: padded stride -/

/-- C15: for a bitmap with `width ≥ 1`, `height ≥ 1`, `stride ≥ ceil(width/8)` and
at least `height*stride` bytes, every byte index `y*stride + x div 8` that
`BitmapToFloatMap` reads is below `height*stride`, and two bitmaps that agree on
the bits `x < width` of every row (and differ in padding bits, padding bytes or
bytes past `height*stride`) decode to the same map. -/
theorem BitmapToFloatMap_padding (w h s : Nat) (d1 d2 : List Nat)
    (_hw : 1 ≤ w) (_hh : 1 ≤ h) (hs : w ≤ 8 * s)
    (_hl1 : h * s ≤ d1.length) (_hl2 : h * s ≤ d2.length)
    (hagree : ∀ y, y < h → ∀ x, x < w →
      (d1.getD (y * s + x / 8) 0).testBit (x % 8) = (d2.getD (y * s + x / 8) 0).testBit (x % 8)) :
    (∀ y, y < h → ∀ x, x < w → y * s + x / 8 < h * s) ∧
    (BitmapToFloatMap ⟨w, h, d1, s⟩).data = (BitmapToFloatMap ⟨w, h, d2, s⟩).data := by
  refine ⟨fun y hy x hx => ?_, ?_⟩
  · have h1 : x / 8 < s := by omega
    calc y * s + x / 8 < y * s + s := by omega
      _ = (y + 1) * s := by ring
      _ ≤ h * s := Nat.mul_le_mul_right s hy
  · rw [BitmapToFloatMap_data, BitmapToFloatMap_data]
    apply forUp_congr
    intro p t hp
    have hwpos : 0 < w := by
      rcases Nat.eq_zero_or_pos w with h0 | h0
      · subst h0; simp at hp
      · exact h0
    have hy : p / w < h := by
      rw [Nat.div_lt_iff_lt_mul hwpos]; exact hp
    rw [hagree (p / w) hy (p % w) (Nat.mod_lt _ hwpos)]

/-- C15 on a 9x2 bitmap with stride 3: changing the padding bits of byte 1 and
the padding byte 2 of each row leaves the decoded map unchanged. -/
theorem BitmapToFloatMap_padding_witness :
    (∀ y, y < 2 → ∀ x, x < 9 → y * 3 + x / 8 < 2 * 3) ∧
    (BitmapToFloatMap ⟨(9 : Nat), (2 : Nat), [0xA5, 0x01, 0x00, 0x3C, 0x00, 0x00], (3 : Nat)⟩).data =
      (BitmapToFloatMap ⟨(9 : Nat), (2 : Nat), [0xA5, 0xFF, 0x77, 0x3C, 0xFE, 0x11],
        (3 : Nat)⟩).data :=
  BitmapToFloatMap_padding 9 2 3 [0xA5, 0x01, 0x00, 0x3C, 0x00, 0x00]
    [0xA5, 0xFF, 0x77, 0x3C, 0xFE, 0x11] (by decide) (by decide) (by decide) (by decide)
    (by decide) (by decide)

end Effects

namespace Effects

/-! ## `Blur` and its parametrised form -/

theorem Blur.hRow_eq_with (w y : Nat) (l : List Nat) :
    Blur.hRow w y l = Blur.hRowWith (fun i t => t.set i 0) Blur.tap Blur.slide w y l := rfl

theorem Blur.vPass_eq_with (w h : Nat) (l : List Nat) :
    Blur.vPass w h l = Blur.vPassWith (fun i t => t.set i 0) Blur.tap Blur.slide w h l := rfl

theorem Blur_eq_runWith (base : Frame Nat) :
    (Blur base).data = Blur.runWith (fun i t => t.set i 0) Blur.tap Blur.slide
      base.width.toNat base.height.toNat base.data := rfl

end Effects

namespace Effects

/-! ## binary32 operations on non-negative values -/

theorem F32.round_natCast (a q : Nat) : F32.round (a : Int) q = ((roundMag a q : Nat) : Int) := by
  rw [F32.round_nonneg _ _ (Int.ofNat_nonneg a), Int.toNat_ofNat]

theorem F32.mul_natCast (a b : Nat) :
    F32.mul (a : Int) (b : Int) = ((roundMag (a * b) (2 ^ 149) : Nat) : Int) := by
  unfold F32.mul
  rw [← Int.ofNat_mul, F32.round_natCast]

theorem F32.add_natCast (a b : Nat) :
    F32.add (a : Int) (b : Int) = ((roundMag (a + b) 1 : Nat) : Int) := by
  unfold F32.add
  rw [← Int.ofNat_add, F32.round_natCast]

set_option maxRecDepth 100000 in
theorem F32.toInt_natCast (r : Nat) (h : r / 2 ^ 149 < 2 ^ 31) :
    F32.toInt (r : Int) = ((r / 2 ^ 149 : Nat) : Int) := by
  have e : Int.tdiv (r : Int) (2 ^ 149) = ((r / 2 ^ 149 : Nat) : Int) := by
    rw [Int.tdiv_eq_ediv (Int.ofNat_nonneg r) (by positivity)]
    push_cast
    rfl
  rw [F32.toInt_of_range _ (by rw [e]; constructor <;> omega), e]

set_option maxRecDepth 100000 in
theorem F32.ofInt_natCast (n : Nat) (h : n ≤ 2 ^ 24) :
    F32.ofInt (n : Int) = ((n * 2 ^ 149 : Nat) : Int) := by
  rw [F32.ofInt_exact_le n h]
  push_cast
  rfl

set_option maxRecDepth 100000 in
theorem F32.half_natCast : F32.half = ((2 ^ 148 : Nat) : Int) := by
  unfold F32.half
  push_cast

/-! ## C16: every store of `Blur` fits in 16 bits -/

theorem kBoxFactor_facts :
    (0 : Int) ≤ kBoxFactor ∧ kBoxFactor.toNat * 65535 ≤ 20165 * 2 ^ 147 := by decide!

/-- The contribution of one tap, `round_half(kBoxFactor * v)` for a 16-bit
sample `v`, lies between 0 and 5041. -/
theorem Blur.tap_term_bounds (b : Nat) (hb : b ≤ 65535) :
    0 ≤ round_half (F32.mul kBoxFactor (F32.ofInt (b : Int))) ∧
    round_half (F32.mul kBoxFactor (F32.ofInt (b : Int))) ≤ 5041 := by
  obtain ⟨hk0, hk1⟩ := kBoxFactor_facts
  have hk : kBoxFactor = ((kBoxFactor.toNat : Nat) : Int) := (Int.toNat_of_nonneg hk0).symm
  generalize kBoxFactor.toNat = k at hk hk1
  have hb24 : b ≤ 2 ^ 24 := le_trans hb (by norm_num)
  rw [hk, F32.ofInt_natCast b hb24, F32.mul_natCast]
  have hv : roundMag (k * (b * 2 ^ 149)) (2 ^ 149) ≤ 20165 * 2 ^ 147 := by
    apply roundMag_le_rep _ _ _ _ (Nat.two_pow_pos _) (by norm_num)
    calc k * (b * 2 ^ 149) = k * b * 2 ^ 149 := by ring
      _ ≤ k * 65535 * 2 ^ 149 :=
        Nat.mul_le_mul_right _ (Nat.mul_le_mul_left _ hb)
      _ ≤ 20165 * 2 ^ 147 * 2 ^ 149 := Nat.mul_le_mul_right _ hk1
  generalize roundMag (k * (b * 2 ^ 149)) (2 ^ 149) = v at hv
  unfold round_half
  rw [F32.half_natCast, F32.add_natCast]
  have hr : roundMag (v + 2 ^ 148) 1 ≤ 20167 * 2 ^ 147 := by
    apply roundMag_le_rep _ _ _ _ (by norm_num) (by norm_num)
    have : (2 : Nat) ^ 148 = 2 * 2 ^ 147 := by norm_num
    omega
  generalize roundMag (v + 2 ^ 148) 1 = r at hr
  have hle : r / 2 ^ 149 ≤ 5041 := by
    have h1 : r / 2 ^ 149 ≤ 20167 * 2 ^ 147 / 2 ^ 149 := Nat.div_le_div_right hr
    have h2 : 20167 * 2 ^ 147 / 2 ^ 149 = 5041 := by norm_num
    omega
  rw [F32.toInt_natCast r (by omega)]
  exact ⟨Int.ofNat_nonneg _, by exact_mod_cast hle⟩

end Effects

namespace Effects

theorem getD_set_self_zero (l : List Nat) (i : Nat) : (l.set i 0).getD i 0 = 0 := by
  rw [getD_set_nat]
  split_ifs with h
  · rfl
  · rw [List.getD_eq_getElem?_getD, List.getElem?_eq_none (by
      have : ¬ i < l.length := fun hl => h ⟨rfl, hl⟩
      omega)]
    rfl

theorem Blur.zeroChk_good (i : Nat) (s : List Nat × Bool) (h : Blur.Good s) :
    Blur.Good (Blur.zeroChk i s) ∧ (Blur.zeroChk i s).1.getD i 0 = 0 ∧
    ∀ j B, s.1.getD j 0 ≤ B → (Blur.zeroChk i s).1.getD j 0 ≤ B := by
  have hle : ∀ j B, s.1.getD j 0 ≤ B → (s.1.set i 0).getD j 0 ≤ B := by
    intro j B hj
    rw [getD_set_nat]
    split_ifs
    · omega
    · exact hj
  exact ⟨⟨h.1, fun j => hle j _ (h.2 j)⟩, getD_set_self_zero _ _, hle⟩

theorem Blur.slideChk_good (i a b c : Nat) (s : List Nat × Bool) (h : Blur.Good s) :
    Blur.Good (Blur.slideChk i a b c s) := by
  have hcl : ∀ v : Int, clampint 16 v ≤ 65535 := by
    intro v
    unfold clampint
    have : ((1 <<< 16 : Nat) : Int) - 1 = 65535 := by decide
    rw [this]
    omega
  refine ⟨?_, fun j => ?_⟩
  · simp only [Blur.slideChk, h.1, Bool.true_and, Blur.inRange, decide_eq_true_eq]
    have := hcl (round_half (F32.add
      (F32.sub (F32.ofInt (s.1.getD a 0)) (F32.mul kBoxFactor (F32.ofInt (s.1.getD b 0))))
      (F32.mul kBoxFactor (F32.ofInt (s.1.getD c 0)))))
    omega
  · simp only [Blur.slideChk, Blur.slide]
    rw [getD_set_nat]
    split_ifs
    · exact hcl _
    · exact h.2 j

/-- One checked tap: if the accumulator holds at most `B ≤ 60494`, the value to
store is in range, the accumulator grows by at most 5041 and nothing else
changes. -/
theorem Blur.tapChk_good (acc src B : Nat) (s : List Nat × Bool) (h : Blur.Good s)
    (hB : B + 5041 ≤ 65535) (hacc : s.1.getD acc 0 ≤ B) :
    Blur.Good (Blur.tapChk acc src s) ∧ (Blur.tapChk acc src s).1.getD acc 0 ≤ B + 5041 ∧
    ∀ j, j ≠ acc → (Blur.tapChk acc src s).1.getD j 0 = s.1.getD j 0 := by
  obtain ⟨r0, r1⟩ := Blur.tap_term_bounds (s.1.getD src 0) (h.2 src)
  generalize hr : round_half (F32.mul kBoxFactor (F32.ofInt ((s.1.getD src 0 : Nat) : Int))) = r
    at r0 r1
  have hval : ((((s.1.getD acc 0 : Nat) : Int) + r) % 65536).toNat ≤ B + 5041 := by omega
  have hget : ∀ j, (Blur.tapChk acc src s).1.getD j 0 =
      if acc = j ∧ acc < s.1.length then
        ((((s.1.getD acc 0 : Nat) : Int) + r) % 65536).toNat else s.1.getD j 0 := by
    intro j
    simp only [Blur.tapChk, Blur.tap, hr]
    rw [getD_set_nat]
  refine ⟨⟨?_, fun j => ?_⟩, ?_, fun j hj => ?_⟩
  · simp only [Blur.tapChk, hr, h.1, Bool.true_and, Blur.inRange, decide_eq_true_eq]
    omega
  · rw [hget]
    split_ifs
    · omega
    · exact h.2 j
  · rw [hget]
    split_ifs
    · exact hval
    · omega
  · rw [hget, if_neg (fun hc => hj hc.1.symm)]

/-- Three checked taps on three different accumulators. -/
theorem Blur.tapChk3_good (a0 a1 a2 s0 s1 s2 B : Nat) (t : List Nat × Bool)
    (h : Blur.Good t) (hB : B + 5041 ≤ 65535) (h01 : a0 ≠ a1) (h02 : a0 ≠ a2) (h12 : a1 ≠ a2)
    (b0 : t.1.getD a0 0 ≤ B) (b1 : t.1.getD a1 0 ≤ B) (b2 : t.1.getD a2 0 ≤ B) :
    Blur.Good (Blur.tapChk a2 s2 (Blur.tapChk a1 s1 (Blur.tapChk a0 s0 t))) ∧
    (∀ j, j = a0 ∨ j = a1 ∨ j = a2 →
      (Blur.tapChk a2 s2 (Blur.tapChk a1 s1 (Blur.tapChk a0 s0 t))).1.getD j 0 ≤ B + 5041) ∧
    (∀ j, j ≠ a0 → j ≠ a1 → j ≠ a2 →
      (Blur.tapChk a2 s2 (Blur.tapChk a1 s1 (Blur.tapChk a0 s0 t))).1.getD j 0 =
        t.1.getD j 0) := by
  obtain ⟨g0, u0, k0⟩ := Blur.tapChk_good a0 s0 B t h hB b0
  have b1' : (Blur.tapChk a0 s0 t).1.getD a1 0 ≤ B := by rw [k0 a1 (Ne.symm h01)]; exact b1
  obtain ⟨g1, u1, k1⟩ := Blur.tapChk_good a1 s1 B _ g0 hB b1'
  have b2' : (Blur.tapChk a1 s1 (Blur.tapChk a0 s0 t)).1.getD a2 0 ≤ B := by
    rw [k1 a2 (Ne.symm h12), k0 a2 (Ne.symm h02)]; exact b2
  obtain ⟨g2, u2, k2⟩ := Blur.tapChk_good a2 s2 B _ g1 hB b2'
  refine ⟨g2, ?_, ?_⟩
  · rintro j (rfl | rfl | rfl)
    · rw [k2 _ h02, k1 _ h01]; exact u0
    · rw [k2 _ h12]; exact u1
    · exact u2
  · intro j j0 j1 j2
    rw [k2 j j2, k1 j j1, k0 j j0]

end Effects

namespace Effects

theorem kernel_taps : 2 * kHalfBox + 1 = 13 := by decide

/-- The horizontal pass with checked stores keeps the state good. -/
theorem Blur.hRowChk_good (w y : Nat) (s : List Nat × Bool) (h : Blur.Good s) :
    Blur.Good (Blur.hRowWith Blur.zeroChk Blur.tapChk Blur.slideChk w y s) := by
  unfold Blur.hRowWith
  simp only []
  apply forFrom_preserves
  · unfold forFrom
    refine (forUp_invariant (fun i t => Blur.Good t ∧
      ∀ c, c < 3 → t.1.getD (y * (w * kRgbChannels) + c) 0 ≤ 5041 * i) _ _ _ ?_ ?_).1
    · obtain ⟨g2, z2, k2⟩ := Blur.zeroChk_good (y * (w * kRgbChannels) + 2) s h
      obtain ⟨g1, z1, k1⟩ := Blur.zeroChk_good (y * (w * kRgbChannels) + 1) _ g2
      obtain ⟨g0, z0, k0⟩ := Blur.zeroChk_good (y * (w * kRgbChannels) + 0) _ g1
      refine ⟨g0, fun c hc => ?_⟩
      have hc3 : c = 0 ∨ c = 1 ∨ c = 2 := by omega
      rcases hc3 with rfl | rfl | rfl
      · exact le_of_eq z0
      · exact k0 _ _ (le_of_eq z1)
      · exact k0 _ _ (k1 _ _ (le_of_eq z2))
    · intro i t hi ht
      rw [kernel_taps] at hi
      obtain ⟨g, b⟩ := ht
      obtain ⟨g3, u3, _⟩ := Blur.tapChk3_good
        (y * (w * kRgbChannels) + 0) (y * (w * kRgbChannels) + 1) (y * (w * kRgbChannels) + 2)
        (y * (w * kRgbChannels) + (modulo (-(kHalfBox : Int) + (i : Int)) w).toNat * kRgbChannels + 0)
        (y * (w * kRgbChannels) + (modulo (-(kHalfBox : Int) + (i : Int)) w).toNat * kRgbChannels + 1)
        (y * (w * kRgbChannels) + (modulo (-(kHalfBox : Int) + (i : Int)) w).toNat * kRgbChannels + 2)
        (5041 * i) t g (by omega) (by omega) (by omega) (by omega)
        (b 0 (by omega)) (b 1 (by omega)) (b 2 (by omega))
      refine ⟨g3, fun c hc => ?_⟩
      have := u3 (y * (w * kRgbChannels) + c) (by omega)
      beta_reduce
      omega
  · intro i t _ ht
    exact Blur.slideChk_good _ _ _ _ _ (Blur.slideChk_good _ _ _ _ _
      (Blur.slideChk_good _ _ _ _ _ ht))

/-- The vertical pass with checked stores keeps the state good. -/
theorem Blur.vPassChk_good (w h : Nat) (s : List Nat × Bool) (hs : Blur.Good s) :
    Blur.Good (Blur.vPassWith Blur.zeroChk Blur.tapChk Blur.slideChk w h s) := by
  unfold Blur.vPassWith
  simp only [show kRgbChannels = 4 from rfl]
  apply forFrom_preserves
  · unfold forFrom
    refine (forUp_invariant (fun i t => Blur.Good t ∧
      ∀ x c, x < w → c < 3 → t.1.getD (x * 4 + c) 0 ≤ 5041 * i) _ _ _ ?_ ?_).1
    · have hz := forUp_invariant (fun n (t : List Nat × Bool) => Blur.Good t ∧
        ∀ x c, x < n → c < 3 → t.1.getD (x * 4 + c) 0 ≤ 0) w
        (fun x result => Blur.zeroChk (x * 4 + 0)
          (Blur.zeroChk (x * 4 + 1) (Blur.zeroChk (x * 4 + 2) result))) s
        ⟨hs, fun x c hx _ => absurd hx (Nat.not_lt_zero x)⟩ (by
          intro n t _ ht
          obtain ⟨g, b⟩ := ht
          obtain ⟨g2, z2, k2⟩ := Blur.zeroChk_good (n * 4 + 2) t g
          obtain ⟨g1, z1, k1⟩ := Blur.zeroChk_good (n * 4 + 1) _ g2
          obtain ⟨g0, z0, k0⟩ := Blur.zeroChk_good (n * 4 + 0) _ g1
          beta_reduce
          refine ⟨g0, fun x c hx hc => ?_⟩
          by_cases hxn : x = n
          · subst hxn
            have hc3 : c = 0 ∨ c = 1 ∨ c = 2 := by omega
            rcases hc3 with rfl | rfl | rfl
            · exact le_of_eq z0
            · exact k0 _ _ (le_of_eq z1)
            · exact k0 _ _ (k1 _ _ (le_of_eq z2))
          · exact k0 _ _ (k1 _ _ (k2 _ _ (b x c (by omega) hc))))
      exact hz
    · intro i t hi ht
      rw [kernel_taps] at hi
      obtain ⟨g, b⟩ := ht
      have hin := forUp_invariant (fun n (u : List Nat × Bool) => Blur.Good u ∧
        (∀ x c, x < n → c < 3 → u.1.getD (x * 4 + c) 0 ≤ 5041 * (i + 1)) ∧
        (∀ x c, n ≤ x → x < w → c < 3 → u.1.getD (x * 4 + c) 0 ≤ 5041 * i)) w
        (fun x result =>
          Blur.tapChk (x * 4 + 2)
            ((modulo (-(kHalfBox : Int) + (i : Int)) h).toNat * (w * 4) +
              x * 4 + 2)
            (Blur.tapChk (x * 4 + 1)
              ((modulo (-(kHalfBox : Int) + (i : Int)) h).toNat * (w * 4) +
                x * 4 + 1)
              (Blur.tapChk (x * 4 + 0)
                ((modulo (-(kHalfBox : Int) + (i : Int)) h).toNat * (w * 4) +
                  x * 4 + 0) result))) t
        ⟨g, fun x c hx _ => absurd hx (Nat.not_lt_zero x), fun x c _ hx hc => b x c hx hc⟩ (by
          intro n u hn hu
          obtain ⟨gu, lo, hi2⟩ := hu
          obtain ⟨g3, u3, k3⟩ := Blur.tapChk3_good
            (n * 4 + 0) (n * 4 + 1) (n * 4 + 2)
            ((modulo (-(kHalfBox : Int) + (i : Int)) h).toNat * (w * 4) +
              n * 4 + 0)
            ((modulo (-(kHalfBox : Int) + (i : Int)) h).toNat * (w * 4) +
              n * 4 + 1)
            ((modulo (-(kHalfBox : Int) + (i : Int)) h).toNat * (w * 4) +
              n * 4 + 2)
            (5041 * i) u gu (by omega) (by omega) (by omega) (by omega)
            (hi2 n 0 (le_refl n) hn (by omega)) (hi2 n 1 (le_refl n) hn (by omega))
            (hi2 n 2 (le_refl n) hn (by omega))
          beta_reduce
          refine ⟨g3, fun x c hx hc => ?_, fun x c hx hxw hc => ?_⟩
          · by_cases hxn : x = n
            · subst hxn
              have := u3 (x * 4 + c) (by omega)
              omega
            · rw [k3 _ (by omega) (by omega) (by omega)]
              exact lo x c (by omega) hc
          · rw [k3 _ (by omega) (by omega) (by omega)]
            exact hi2 x c (by omega) hxw hc)
      exact ⟨hin.1, fun x c hx hc => hin.2.1 x c hx hc⟩
  · intro i t _ ht
    apply forUp_preserves
    · exact ht
    · intro x u _ hu
      exact Blur.slideChk_good _ _ _ _ _ (Blur.slideChk_good _ _ _ _ _
        (Blur.slideChk_good _ _ _ _ _ hu))

/-- Every iteration of `Blur` with checked stores keeps the state good. -/
theorem Blur.runChk_good (w h : Nat) (s : List Nat × Bool) (hs : Blur.Good s) :
    Blur.Good (Blur.runWith Blur.zeroChk Blur.tapChk Blur.slideChk w h s) := by
  unfold Blur.runWith
  apply forUp_preserves
  · exact hs
  · intro _ t _ ht
    apply Blur.vPassChk_good
    apply forUp_preserves
    · exact ht
    · intro y u _ hu
      exact Blur.hRowChk_good w y u hu

/-- A map that commutes with the loop body commutes with the loop. -/
theorem forUp_map {σ τ : Type} (p : σ → τ) (n : Nat) (f : Nat → σ → σ) (g : Nat → τ → τ)
    (s : σ) (hfg : ∀ i t, p (f i t) = g i (p t)) : p (forUp n f s) = forUp n g (p s) := by
  induction n with
  | zero => rfl
  | succ n ih => rw [forUp_succ, forUp_succ, hfg, ih]

/-- The buffer of a checked run is the buffer of the plain run. -/
theorem Blur.runChk_fst (w h : Nat) (s : List Nat × Bool) :
    (Blur.runWith Blur.zeroChk Blur.tapChk Blur.slideChk w h s).1 =
      Blur.runWith (fun i t => t.set i 0) Blur.tap Blur.slide w h s.1 := by
  unfold Blur.runWith
  apply forUp_map
  intro _ t
  unfold Blur.vPassWith
  simp only [forFrom]
  rw [forUp_map Prod.fst]
  · rw [forUp_map Prod.fst]
    · rw [forUp_map Prod.fst]
      · rw [forUp_map Prod.fst]
        intro y u
        unfold Blur.hRowWith
        simp only [forFrom]
        rw [forUp_map Prod.fst]
        · rw [forUp_map Prod.fst]
          · rfl
          · intro _ _; rfl
        · intro _ _; rfl
      · intro _ _; rfl
    · intro _ u
      rw [forUp_map Prod.fst]
      intro _ _; rfl
  · intro _ u
    rw [forUp_map Prod.fst]
    intro _ _; rfl

/-- C16. 16-bit blur range: on every frame whose samples lie in `[0, 65535]`
(any width and height, also those smaller than the kernel), the run of `Blur` in
which each value is checked against `[0, 65535]` before it is stored as
`uint16_t` (the zeroing, every unclamped accumulation into the first element of a
row and into the top row, and every clamped sliding update) ends with the check
flag still set and with the buffer that `Blur` returns: no store wraps modulo
`2^16`. -/
theorem Blur_stores_in_range (base : Frame Nat) (hd : ∀ v ∈ base.data, v ≤ 65535) :
    Blur.runWith Blur.zeroChk Blur.tapChk Blur.slideChk
      base.width.toNat base.height.toNat (base.data, true) = ((Blur base).data, true) := by
  have hg : Blur.Good (base.data, true) := by
    refine ⟨rfl, fun j => ?_⟩
    show base.data.getD j 0 ≤ 65535
    rw [List.getD_eq_getElem?_getD]
    rcases hj : base.data[j]? with _ | v
    · exact Nat.zero_le _
    · exact hd v (List.getElem?_mem hj)
  have hgood := Blur.runChk_good base.width.toNat base.height.toNat _ hg
  have hfst := Blur.runChk_fst base.width.toNat base.height.toNat (base.data, true)
  rw [Blur_eq_runWith]
  exact Prod.ext hfst hgood.1

theorem Blur_stores_in_range_witness :
    (∀ v ∈ (greyFrame).data, v ≤ 65535) ∧
    Blur.runWith Blur.zeroChk Blur.tapChk Blur.slideChk
      (greyFrame).width.toNat (greyFrame).height.toNat
      ((greyFrame).data, true) = ((Blur (greyFrame)).data, true) :=
  ⟨by decide, Blur_stores_in_range (greyFrame) (by decide)⟩

end Effects

namespace Effects

/-- C19. Sliding-delta window edges: on the line `pulseLine` of 16 samples (all
zero except sample 7, which holds 13000) the sample that enters the 13-wide
window centred on position 1 is the one at index `modulo(1 + 6, 16) = 7`, and
the update in the words of the specification gives `1000` there; `Blur` reads
the incoming sample at index `modulo(1 + 6 + 1, 16) = 8` and stores `0`. The
pulse never enters the sliding sum: after the horizontal pass (a 16x1 row) and
after the vertical pass (a 1x16 column) the whole line is zero. -/
theorem sliding_incoming_is_past_window :
    modulo (1 - (kHalfBox : Int) - 1) 16 = 10 ∧
    modulo (1 + (kHalfBox : Int)) 16 = 7 ∧
    modulo (1 + (kHalfBox : Int) + 1) 16 = 8 ∧
    Blur.slidingDelta ((Blur.hRow 16 0 pulseLine).getD 0 0) (pulseLine.getD (4 * 10) 0)
      (pulseLine.getD (4 * 7) 0) = 1000 ∧
    Blur.slidingDelta ((Blur.hRow 16 0 pulseLine).getD 0 0) (pulseLine.getD (4 * 10) 0)
      (pulseLine.getD (4 * 8) 0) = 0 ∧
    (Blur.hRow 16 0 pulseLine).getD (4 * 1) 0 = 0 ∧
    Blur.hRow 16 0 pulseLine = List.replicate 64 0 ∧
    Blur.vPass 1 16 pulseLine = List.replicate 64 0 := by
  decide!

end Effects

namespace Effects

/-! ## The first element of a line -/

theorem tmod_of_nonpos (a m : Int) (ha : a ≤ 0) (hm : 0 < m) :
    Int.tmod a m = -((-a) % m) := by
  have e : a = -(-a) := by omega
  rw [Int.tmod_def]
  conv_lhs => rw [e, Int.neg_tdiv, Int.tdiv_eq_ediv (by omega) (by omega)]
  have := Int.emod_add_ediv (-a) m
  linarith

/-- The wrapped index lies in `[0, m)`. -/
theorem modulo_range (a m : Int) (hm : 0 < m) : 0 ≤ modulo a m ∧ modulo a m < m := by
  unfold modulo
  refine ⟨?_, Int.tmod_lt_of_pos _ hm⟩
  apply Int.tmod_nonneg
  rcases le_or_lt 0 a with ha | ha
  · have := Int.tmod_nonneg m ha
    omega
  · rw [tmod_of_nonpos a m (by omega) hm]
    have := Int.emod_lt_of_pos (-a) hm
    omega

/-- The twelve taps beside the centre of a line of length at least 7 do not
read element 0; the centre tap does. -/
theorem modulo_side (i w : Int) (hw : 7 ≤ w) (h1 : -6 ≤ i) (h2 : i ≤ 6) :
    (i = 0 → modulo i w = 0) ∧ (i ≠ 0 → 1 ≤ modulo i w ∧ modulo i w < w) := by
  unfold modulo
  rcases le_or_lt 0 i with hi | hi
  · rw [Int.tmod_eq_of_lt hi (by omega), Int.tmod_eq_emod (by omega) (by omega),
      Int.add_emod_self, Int.emod_eq_of_lt hi (by omega)]
    exact ⟨fun h => h, fun h => by omega⟩
  · rw [tmod_of_nonpos i w (by omega) (by omega), Int.emod_eq_of_lt (by omega) (by omega),
      Int.tmod_eq_of_lt (by omega) (by omega)]
    exact ⟨fun h => by omega, fun _ => by omega⟩

theorem getD_le_of_mem (d : List Nat) (B : Nat) (hd : ∀ v ∈ d, v ≤ B) (j : Nat) :
    d.getD j 0 ≤ B := by
  rw [List.getD_eq_getElem?_getD]
  rcases hj : d[j]? with _ | v
  · exact Nat.zero_le _
  · exact hd v (List.getElem?_mem hj)

theorem getD_of_length_le (d : List Nat) (j : Nat) (h : d.length ≤ j) : d.getD j 0 = 0 := by
  rw [List.getD_eq_getElem?_getD, List.getElem?_eq_none h]
  rfl

/-- One tap whose accumulator is in bounds and holds at most `B ≤ 60494`: the
sum does not wrap, so the accumulator grows by the rounded contribution of the
source sample; nothing else changes. -/
theorem Blur.tap_getD (acc src B : Nat) (t : List Nat) (hB : B + 5041 ≤ 65535)
    (hacc : t.getD acc 0 ≤ B) (hsrc : t.getD src 0 ≤ 65535) (hlen : acc < t.length) :
    (Blur.tap acc src t).length = t.length ∧
    (Blur.tap acc src t).getD acc 0 = t.getD acc 0 + Blur.term (t.getD src 0) ∧
    Blur.term (t.getD src 0) ≤ 5041 ∧
    ∀ j, j ≠ acc → (Blur.tap acc src t).getD j 0 = t.getD j 0 := by
  obtain ⟨r0, r1⟩ := Blur.tap_term_bounds (t.getD src 0) hsrc
  have hget : ∀ j, (Blur.tap acc src t).getD j 0 =
      if acc = j ∧ acc < t.length then
        ((((t.getD acc 0 : Nat) : Int) +
          round_half (F32.mul kBoxFactor (F32.ofInt ((t.getD src 0 : Nat) : Int)))) % 65536).toNat
      else t.getD j 0 := by
    intro j
    simp only [Blur.tap]
    rw [getD_set_nat]
  unfold Blur.term
  generalize hr : round_half (F32.mul kBoxFactor (F32.ofInt ((t.getD src 0 : Nat) : Int))) = r
    at r0 r1 hget
  refine ⟨by simp [Blur.tap], ?_, by omega, fun j hj => ?_⟩
  · rw [hget, if_pos ⟨rfl, hlen⟩]
    omega
  · rw [hget, if_neg (fun hc => hj hc.1.symm)]

/-- One tap of the full-kernel loop advances its accumulator from `k` to
`k + 1` taps, whatever the centre tap (`k = 6`) reads. -/
theorem Blur.tap_advance (g : Int → Nat) (acc src k : Nat) (t : List Nat)
    (hk : k < 13) (hlen : acc < t.length) (hsv : t.getD src 0 ≤ 65535)
    (hsrc : k ≠ 6 → Blur.term (t.getD src 0) = g (-6 + (k : Int)))
    (hch : Blur.Chan g k (t.getD acc 0)) :
    (Blur.tap acc src t).length = t.length ∧
    (∀ j, j ≠ acc → (Blur.tap acc src t).getD j 0 = t.getD j 0) ∧
    Blur.Chan g (k + 1) ((Blur.tap acc src t).getD acc 0) := by
  obtain ⟨centre, hc, hv, hb⟩ := hch
  obtain ⟨l1, v1, b1, k1⟩ := Blur.tap_getD acc src (5041 * k) t (by omega) hb hsv hlen
  refine ⟨l1, k1, ?_⟩
  rw [v1]
  generalize Blur.term (t.getD src 0) = r at hsrc b1
  by_cases h6 : k = 6
  · refine ⟨centre + r, ?_, ?_, by omega⟩
    · rw [if_neg (by omega)]
      rw [if_pos (by omega)] at hc
      omega
    · simp only [Blur.partialSide, if_pos h6]
      omega
  · refine ⟨centre, ?_, ?_, by omega⟩
    · split_ifs at hc ⊢ <;> omega
    · simp only [Blur.partialSide, if_neg h6, ← hsrc h6]
      omega

theorem Blur.partialSide_all (g : Int → Nat) : Blur.partialSide g 13 = Blur.sideSum g := by
  simp [Blur.partialSide, Blur.sideSum]
  omega

theorem Blur.Chan_final (g : Int → Nat) (v : Nat) (h : Blur.Chan g 13 v) :
    ∃ centre, centre ≤ 5041 ∧ v = Blur.sideSum g + centre := by
  obtain ⟨centre, hc, hv, _⟩ := h
  rw [if_neg (by omega)] at hc
  exact ⟨centre, hc, by rw [hv, Blur.partialSide_all]⟩

end Effects

namespace Effects

/-- The three taps of one step of a full-kernel loop, on the accumulators
`b`, `b + 1`, `b + 2`: each accumulator advances from `k` to `k + 1` taps and
nothing else changes. Beside the centre the sources are not accumulators. -/
theorem Blur.tap3_advance (g : Nat → Int → Nat) (b k : Nat) (s : Nat → Nat) (t : List Nat)
    (hk : k < 13) (hlen : b + 3 ≤ t.length) (hsv : ∀ c, c < 3 → t.getD (s c) 0 ≤ 65535)
    (hsrc : k ≠ 6 → ∀ c, c < 3 → (s c ≠ b ∧ s c ≠ b + 1 ∧ s c ≠ b + 2) ∧
      Blur.term (t.getD (s c) 0) = g c (-6 + (k : Int)))
    (hch : ∀ c, c < 3 → Blur.Chan (g c) k (t.getD (b + c) 0)) :
    (Blur.tap (b + 2) (s 2) (Blur.tap (b + 1) (s 1) (Blur.tap (b + 0) (s 0) t))).length
      = t.length ∧
    (∀ j, j ≠ b → j ≠ b + 1 → j ≠ b + 2 →
      (Blur.tap (b + 2) (s 2) (Blur.tap (b + 1) (s 1) (Blur.tap (b + 0) (s 0) t))).getD j 0
        = t.getD j 0) ∧
    (∀ c, c < 3 → Blur.Chan (g c) (k + 1)
      ((Blur.tap (b + 2) (s 2) (Blur.tap (b + 1) (s 1) (Blur.tap (b + 0) (s 0) t))).getD
        (b + c) 0)) := by
  have bound : ∀ (u : List Nat) (a : Nat) (gg : Int → Nat), Blur.Chan gg (k + 1) (u.getD a 0) →
      u.getD a 0 ≤ 65535 := by
    intro u a gg h
    obtain ⟨_, _, _, hb⟩ := h
    omega
  -- tap 0
  obtain ⟨l0, k0, c0⟩ := Blur.tap_advance (g 0) (b + 0) (s 0) k t hk (by omega)
    (hsv 0 (by omega)) (fun h6 => (hsrc h6 0 (by omega)).2) (hch 0 (by omega))
  have hsv0 : ∀ c, c < 3 → (Blur.tap (b + 0) (s 0) t).getD (s c) 0 ≤ 65535 := by
    intro c hc
    by_cases hj : s c = b + 0
    · rw [hj]; exact bound _ _ _ c0
    · rw [k0 _ hj]; exact hsv c hc
  -- tap 1
  obtain ⟨l1, k1, c1⟩ := Blur.tap_advance (g 1) (b + 1) (s 1) k (Blur.tap (b + 0) (s 0) t) hk
    (by omega) (hsv0 1 (by omega))
    (fun h6 => by
      rw [k0 _ (by have := (hsrc h6 1 (by omega)).1; omega)]
      exact (hsrc h6 1 (by omega)).2)
    (by rw [k0 _ (by omega)]; exact hch 1 (by omega))
  have hsv1 : ∀ c, c < 3 →
      (Blur.tap (b + 1) (s 1) (Blur.tap (b + 0) (s 0) t)).getD (s c) 0 ≤ 65535 := by
    intro c hc
    by_cases hj : s c = b + 1
    · rw [hj]; exact bound _ _ _ c1
    · rw [k1 _ hj]; exact hsv0 c hc
  -- tap 2
  obtain ⟨l2, k2, c2⟩ := Blur.tap_advance (g 2) (b + 2) (s 2) k
    (Blur.tap (b + 1) (s 1) (Blur.tap (b + 0) (s 0) t)) hk (by omega) (hsv1 2 (by omega))
    (fun h6 => by
      rw [k1 _ (by have := (hsrc h6 2 (by omega)).1; omega),
        k0 _ (by have := (hsrc h6 2 (by omega)).1; omega)]
      exact (hsrc h6 2 (by omega)).2)
    (by rw [k1 _ (by omega), k0 _ (by omega)]; exact hch 2 (by omega))
  refine ⟨by rw [l2, l1, l0], fun j j0 j1 j2 => ?_, fun c hc => ?_⟩
  · rw [k2 j j2, k1 j j1, k0 j (by omega)]
  · have hc3 : c = 0 ∨ c = 1 ∨ c = 2 := by omega
    rcases hc3 with rfl | rfl | rfl
    · rw [k2 _ (by omega), k1 _ (by omega)]; exact c0
    · rw [k2 _ (by omega)]; exact c1
    · exact c2

theorem Blur.slide_getD (i a b c : Nat) (t : List Nat) (j : Nat) (hj : j ≠ i) :
    (Blur.slide i a b c t).getD j 0 = t.getD j 0 := by
  unfold Blur.slide
  rw [getD_set_nat, if_neg (fun h => hj h.1.symm)]

/-- The first element of a row after the horizontal pass of `Blur`, for a width
of at least 7: the sum of the rounded contributions of the twelve samples beside
it (at the wrapped indices `modulo(i, width)`, `i` in `-6..-1` and `1..6`) plus
the contribution of the centre tap, which is at most 5041. -/
theorem Blur.hRow_first (w y c : Nat) (d : List Nat) (hw : 7 ≤ w) (hc : c < 3)
    (hlen : (y + 1) * (w * 4) ≤ d.length)
    (hd : ∀ j, y * (w * 4) ≤ j → j < y * (w * 4) + w * 4 → d.getD j 0 ≤ 65535) :
    ∃ centre, centre ≤ 5041 ∧ (Blur.hRow w y d).getD (y * (w * 4) + c) 0 =
      Blur.sideSum (fun i =>
        Blur.term (d.getD (y * (w * 4) + (modulo i w).toNat * 4 + c) 0)) + centre := by
  have hyo : y * (w * 4) + w * 4 ≤ d.length := by
    have : (y + 1) * (w * 4) = y * (w * 4) + w * 4 := by ring
    omega
  unfold Blur.hRow
  simp only [show kRgbChannels = 4 from rfl]
  generalize hyo' : y * (w * 4) = yo at hyo hd ⊢
  refine forFrom_preserves (fun (t : List Nat) => ∃ centre, centre ≤ 5041 ∧ t.getD (yo + c) 0 =
    Blur.sideSum (fun i => Blur.term (d.getD (yo + (modulo i w).toNat * 4 + c) 0)) + centre)
    _ _ _ _ ?_ ?_
  · unfold forFrom
    have taps := forUp_invariant (fun k (t : List Nat) => t.length = d.length ∧
      (∀ j, (j < yo ∨ yo + 3 ≤ j) → t.getD j 0 = d.getD j 0) ∧
      ∀ c, c < 3 → Blur.Chan (fun i =>
        Blur.term (d.getD (yo + (modulo i w).toNat * 4 + c) 0)) k (t.getD (yo + c) 0))
      (2 * kHalfBox + 1)
      (fun i acc =>
        Blur.tap (yo + 2) (yo + (modulo (-(kHalfBox : Int) + (i : Int)) w).toNat * 4 + 2)
          (Blur.tap (yo + 1) (yo + (modulo (-(kHalfBox : Int) + (i : Int)) w).toNat * 4 + 1)
            (Blur.tap (yo + 0) (yo + (modulo (-(kHalfBox : Int) + (i : Int)) w).toNat * 4 + 0)
              acc)))
      (((d.set (yo + 2) 0).set (yo + 1) 0).set (yo + 0) 0) ?_ ?_
    · exact Blur.Chan_final _ _ (taps.2.2 c hc)
    · refine ⟨by simp, fun j hj => ?_, fun c' hc' => ?_⟩
      · simp only [getD_set_nat]
        rw [if_neg (by omega), if_neg (by omega), if_neg (by omega)]
      · have hv0 : (((d.set (yo + 2) 0).set (yo + 1) 0).set (yo + 0) 0).getD (yo + c') 0 = 0 := by
          simp only [getD_set_nat, List.length_set]
          have hc3 : c' = 0 ∨ c' = 1 ∨ c' = 2 := by omega
          rcases hc3 with rfl | rfl | rfl
          · rw [if_pos ⟨rfl, by omega⟩]
          · rw [if_neg (by omega), if_pos ⟨rfl, by omega⟩]
          · rw [if_neg (by omega), if_neg (by omega), if_pos ⟨rfl, by omega⟩]
        rw [hv0]
        exact ⟨0, by simp, by simp [Blur.partialSide], by omega⟩
    · intro k t hk ht
      rw [kernel_taps] at hk
      obtain ⟨tl, tout, tch⟩ := ht
      have hhb : kHalfBox = 6 := rfl
      have hside := modulo_side (-(kHalfBox : Int) + (k : Int)) w (by omega)
        (by omega) (by omega)
      have hrange := modulo_range (-(kHalfBox : Int) + (k : Int)) w (by omega)
      obtain ⟨l3, k3, c3⟩ := Blur.tap3_advance
        (fun c i => Blur.term (d.getD (yo + (modulo i w).toNat * 4 + c) 0)) yo k
        (fun c => yo + (modulo (-(kHalfBox : Int) + (k : Int)) w).toNat * 4 + c) t hk
        (by omega)
        (fun c' hc' => by
          beta_reduce
          by_cases h6 : k = 6
          · have hz := hside.1 (by omega)
            rw [hz]
            obtain ⟨_, _, _, hb⟩ := tch c' hc'
            simp only [Int.toNat_zero, Nat.zero_mul, Nat.add_zero]
            omega
          · have hm := hside.2 (by omega)
            rw [tout _ (by omega)]
            exact hd _ (by omega) (by omega))
        (fun h6 c' hc' => by
          have hm := hside.2 (by omega)
          beta_reduce
          refine ⟨by omega, ?_⟩
          rw [tout _ (by omega)]
          rfl)
        tch
      exact ⟨by rw [l3, tl], fun j hj => by rw [k3 j (by omega) (by omega) (by omega)]; exact tout j hj,
        c3⟩
  · intro i t _ ht
    obtain ⟨centre, h1, h2⟩ := ht
    refine ⟨centre, h1, ?_⟩
    rw [Blur.slide_getD _ _ _ _ _ _ (by omega), Blur.slide_getD _ _ _ _ _ _ (by omega),
      Blur.slide_getD _ _ _ _ _ _ (by omega)]
    exact h2

end Effects

namespace Effects

/-- The top element of a column after the vertical pass of `Blur`, for a height
of at least 7: the sum of the rounded contributions of the twelve samples beside
it (at the wrapped rows `modulo(i, height)`, `i` in `-6..-1` and `1..6`) plus
the contribution of the centre tap, which is at most 5041. -/
theorem Blur.vPass_top (w h x c : Nat) (d : List Nat) (hh : 7 ≤ h) (hx : x < w) (hc : c < 3)
    (hlen : h * (w * 4) ≤ d.length) (hd : ∀ v ∈ d, v ≤ 65535) :
    ∃ centre, centre ≤ 5041 ∧ (Blur.vPass w h d).getD (x * 4 + c) 0 =
      Blur.sideSum (fun i =>
        Blur.term (d.getD ((modulo i h).toNat * (w * 4) + x * 4 + c) 0)) + centre := by
  have hdj := getD_le_of_mem d 65535 hd
  have hhb : kHalfBox = 6 := rfl
  have hw4 : w * 4 ≤ d.length := le_trans (Nat.le_mul_of_pos_left _ (by omega)) hlen
  unfold Blur.vPass
  simp only [show kRgbChannels = 4 from rfl]
  refine forFrom_preserves (fun (t : List Nat) => ∃ centre, centre ≤ 5041 ∧
    t.getD (x * 4 + c) 0 = Blur.sideSum (fun i =>
      Blur.term (d.getD ((modulo i h).toNat * (w * 4) + x * 4 + c) 0)) + centre)
    _ _ _ _ ?_ ?_
  · unfold forFrom
    have zeros := forUp_invariant (fun n (t : List Nat) => t.length = d.length ∧
      ∀ j, t.getD j 0 = if j < n * 4 ∧ j % 4 ≠ 3 then 0 else d.getD j 0) w
      (fun x result => ((result.set (x * 4 + 2) 0).set (x * 4 + 1) 0).set (x * 4 + 0) 0) d
      ⟨rfl, fun j => by rw [if_neg (by omega)]⟩ (by
        intro n t hn ht
        obtain ⟨tl, tv⟩ := ht
        refine ⟨by simp [tl], fun j => ?_⟩
        simp only [getD_set_nat, List.length_set, tv j]
        split_ifs <;> first | rfl | omega)
    have taps := forUp_invariant (fun k (t : List Nat) => t.length = d.length ∧
      (∀ j, (w * 4 ≤ j ∨ j % 4 = 3) → t.getD j 0 = d.getD j 0) ∧
      ∀ x c, x < w → c < 3 → Blur.Chan (fun i =>
        Blur.term (d.getD ((modulo i h).toNat * (w * 4) + x * 4 + c) 0)) k
        (t.getD (x * 4 + c) 0))
      (2 * kHalfBox + 1)
      (fun i acc => forUp w (fun x result =>
        Blur.tap (x * 4 + 2)
          ((modulo (-(kHalfBox : Int) + (i : Int)) h).toNat * (w * 4) + x * 4 + 2)
          (Blur.tap (x * 4 + 1)
            ((modulo (-(kHalfBox : Int) + (i : Int)) h).toNat * (w * 4) + x * 4 + 1)
            (Blur.tap (x * 4 + 0)
              ((modulo (-(kHalfBox : Int) + (i : Int)) h).toNat * (w * 4) + x * 4 + 0)
              result))) acc)
      (forUp w
        (fun x result => ((result.set (x * 4 + 2) 0).set (x * 4 + 1) 0).set (x * 4 + 0) 0) d)
      ?_ ?_
    · exact Blur.Chan_final _ _ (taps.2.2 x c hx hc)
    · obtain ⟨zl, zv⟩ := zeros
      refine ⟨zl, fun j hj => ?_, fun x' c' hx' hc' => ?_⟩
      · rw [zv j, if_neg (by omega)]
      · rw [zv _, if_pos (by omega)]
        exact ⟨0, by simp, by simp [Blur.partialSide], by omega⟩
    · intro k t hk ht
      rw [kernel_taps] at hk
      obtain ⟨tl, tout, tch⟩ := ht
      have hside := modulo_side (-(kHalfBox : Int) + (k : Int)) h (by omega)
        (by omega) (by omega)
      have inner := forUp_invariant (fun n (u : List Nat) => u.length = d.length ∧
        (∀ j, (w * 4 ≤ j ∨ j % 4 = 3) → u.getD j 0 = d.getD j 0) ∧
        ∀ x c, x < w → c < 3 → Blur.Chan (fun i =>
          Blur.term (d.getD ((modulo i h).toNat * (w * 4) + x * 4 + c) 0))
          (if x < n then k + 1 else k) (u.getD (x * 4 + c) 0)) w
        (fun x result =>
          Blur.tap (x * 4 + 2)
            ((modulo (-(kHalfBox : Int) + (k : Int)) h).toNat * (w * 4) + x * 4 + 2)
            (Blur.tap (x * 4 + 1)
              ((modulo (-(kHalfBox : Int) + (k : Int)) h).toNat * (w * 4) + x * 4 + 1)
              (Blur.tap (x * 4 + 0)
                ((modulo (-(kHalfBox : Int) + (k : Int)) h).toNat * (w * 4) + x * 4 + 0)
                result))) t
        ⟨tl, tout, fun x' c' hx' hc' => by rw [if_neg (by omega)]; exact tch x' c' hx' hc'⟩ (by
          intro n u hn hu
          obtain ⟨ul, uout, uch⟩ := hu
          have hle : ∀ j, u.getD j 0 ≤ 65535 := by
            intro j
            by_cases hj : w * 4 ≤ j ∨ j % 4 = 3
            · rw [uout j hj]; exact hdj j
            · obtain ⟨_, _, _, hb⟩ := uch (j / 4) (j % 4) (by omega) (by omega)
              rw [show j / 4 * 4 + j % 4 = j by omega] at hb
              split_ifs at hb <;> omega
          generalize hm : (modulo (-(kHalfBox : Int) + (k : Int)) h).toNat * (w * 4) = off
            at *
          obtain ⟨l3, k3, c3⟩ := Blur.tap3_advance
            (fun c i => Blur.term (d.getD ((modulo i h).toNat * (w * 4) + n * 4 + c) 0))
            (n * 4) k (fun c => off + n * 4 + c) u hk (by omega) (fun _ _ => hle _)
            (fun h6 c' hc' => by
              have hm1 := hside.2 (by omega)
              have hoff : w * 4 ≤ off := by
                rw [← hm]
                exact Nat.le_mul_of_pos_left _ (by omega)
              beta_reduce
              refine ⟨by omega, ?_⟩
              rw [uout _ (by omega), ← hm]
              rfl)
            (fun c' hc' => by
              have := uch n c' hn hc'
              rw [if_neg (by omega)] at this
              exact this)
          refine ⟨by rw [l3, ul], fun j hj => ?_, fun x' c' hx' hc' => ?_⟩
          · rw [k3 j (by omega) (by omega) (by omega)]; exact uout j hj
          · by_cases hxn : x' = n
            · subst hxn
              rw [if_pos (by omega)]
              exact c3 c' hc'
            · rw [k3 _ (by omega) (by omega) (by omega)]
              have := uch x' c' hx' hc'
              by_cases hlt : x' < n
              · rw [if_pos hlt] at this
                rw [if_pos (by omega)]
                exact this
              · rw [if_neg hlt] at this
                rw [if_neg (by omega)]
                exact this)
      obtain ⟨il, iout, ich⟩ := inner
      refine ⟨il, iout, fun x' c' hx' hc' => ?_⟩
      have := ich x' c' hx' hc'
      rw [if_pos hx'] at this
      exact this
  · intro i t _ ht
    obtain ⟨centre, h1, h2⟩ := ht
    refine ⟨centre, h1, ?_⟩
    have hrow : w * 4 ≤ (1 + (i : Int)).toNat * (w * 4) :=
      Nat.le_mul_of_pos_left _ (by omega)
    generalize (1 + (i : Int)).toNat * (w * 4) = yo at hrow
    refine forUp_preserves (fun (u : List Nat) => u.getD (x * 4 + c) 0 =
      Blur.sideSum (fun i =>
        Blur.term (d.getD ((modulo i h).toNat * (w * 4) + x * 4 + c) 0)) + centre)
      _ _ _ h2 ?_
    intro x' u hx' hu
    rw [Blur.slide_getD _ _ _ _ _ _ (by omega), Blur.slide_getD _ _ _ _ _ _ (by omega),
      Blur.slide_getD _ _ _ _ _ _ (by omega)]
    exact hu

end Effects

namespace Effects

theorem Blur.tap_getD_ne (acc src : Nat) (t : List Nat) (j : Nat) (hj : j ≠ acc) :
    (Blur.tap acc src t).getD j 0 = t.getD j 0 := by
  unfold Blur.tap
  rw [getD_set_nat, if_neg (fun h => hj h.1.symm)]

theorem Blur.tap_length (acc src : Nat) (t : List Nat) :
    (Blur.tap acc src t).length = t.length := by
  simp [Blur.tap]

theorem Blur.slide_length (i a b c : Nat) (t : List Nat) :
    (Blur.slide i a b c t).length = t.length := by
  simp [Blur.slide]

/-- The horizontal pass on row `y` stores only inside row `y`. -/
theorem Blur.hRow_outside (w y : Nat) (t : List Nat) (hw : 1 ≤ w) :
    (Blur.hRow w y t).length = t.length ∧
    ∀ j, (j < y * (w * 4) ∨ y * (w * 4) + w * 4 ≤ j) →
      (Blur.hRow w y t).getD j 0 = t.getD j 0 := by
  unfold Blur.hRow
  simp only [show kRgbChannels = 4 from rfl]
  generalize y * (w * 4) = yo
  refine forFrom_preserves (fun (u : List Nat) => u.length = t.length ∧
    ∀ j, (j < yo ∨ yo + w * 4 ≤ j) → u.getD j 0 = t.getD j 0) _ _ _ _ ?_ ?_
  · refine forFrom_preserves (fun (u : List Nat) => u.length = t.length ∧
      ∀ j, (j < yo ∨ yo + w * 4 ≤ j) → u.getD j 0 = t.getD j 0) _ _ _ _ ?_ ?_
    · refine ⟨by simp, fun j hj => ?_⟩
      simp only [getD_set_nat]
      rw [if_neg (by omega), if_neg (by omega), if_neg (by omega)]
    · intro i u _ hu
      refine ⟨by simp only [Blur.tap_length]; exact hu.1, fun j hj => ?_⟩
      rw [Blur.tap_getD_ne _ _ _ _ (by omega), Blur.tap_getD_ne _ _ _ _ (by omega),
        Blur.tap_getD_ne _ _ _ _ (by omega)]
      exact hu.2 j hj
  · intro i u hi hu
    refine ⟨by simp only [Blur.slide_length]; exact hu.1, fun j hj => ?_⟩
    rw [Blur.slide_getD _ _ _ _ _ _ (by omega), Blur.slide_getD _ _ _ _ _ _ (by omega),
      Blur.slide_getD _ _ _ _ _ _ (by omega)]
    exact hu.2 j hj

/-- The first element of every row after the horizontal pass of `Blur` over all
rows, in terms of the samples the row held before the pass. -/
theorem Blur.hPass_first (w h : Nat) (d : List Nat) (hw : 7 ≤ w)
    (hlen : d.length = h * (w * 4)) (hd : ∀ v ∈ d, v ≤ 65535) :
    ∀ y c, y < h → c < 3 → ∃ centre, centre ≤ 5041 ∧
      (forUp h (fun y t => Blur.hRow w y t) d).getD (y * (w * 4) + c) 0 =
        Blur.sideSum (fun i =>
          Blur.term (d.getD (y * (w * 4) + (modulo i w).toNat * 4 + c) 0)) + centre := by
  have hdj := getD_le_of_mem d 65535 hd
  have inv := forUp_invariant (fun n (t : List Nat) => t.length = d.length ∧
    (∀ j, n * (w * 4) ≤ j → t.getD j 0 = d.getD j 0) ∧
    ∀ y c, y < n → c < 3 → ∃ centre, centre ≤ 5041 ∧
      t.getD (y * (w * 4) + c) 0 =
        Blur.sideSum (fun i =>
          Blur.term (d.getD (y * (w * 4) + (modulo i w).toNat * 4 + c) 0)) + centre)
    h (fun y t => Blur.hRow w y t) d
    ⟨rfl, fun _ _ => rfl, fun y c hy _ => absurd hy (Nat.not_lt_zero y)⟩ (by
      intro n t hn ht
      obtain ⟨tl, tout, tfirst⟩ := ht
      obtain ⟨ol, oout⟩ := Blur.hRow_outside w n t (by omega)
      have hsucc : (n + 1) * (w * 4) = n * (w * 4) + w * 4 := Nat.succ_mul _ _
      have hrow : (n + 1) * (w * 4) ≤ t.length := by
        rw [tl, hlen]
        exact Nat.mul_le_mul_right _ hn
      refine ⟨by rw [ol, tl], fun j hj => ?_, fun y c hy hc => ?_⟩
      · rw [oout j (by omega)]
        exact tout j (by omega)
      · by_cases hyn : y = n
        · subst hyn
          obtain ⟨centre, h1, h2⟩ := Blur.hRow_first w y c t hw hc hrow
            (fun j hj1 _ => by rw [tout j hj1]; exact hdj j)
          have hfun : (fun (i : Int) =>
              Blur.term (t.getD (y * (w * 4) + (modulo i w).toNat * 4 + c) 0)) =
              (fun (i : Int) =>
                Blur.term (d.getD (y * (w * 4) + (modulo i w).toNat * 4 + c) 0)) := by
            funext i
            rw [tout _ (by omega)]
          exact ⟨centre, h1, by rw [h2, hfun]⟩
        · have hle : (y + 1) * (w * 4) ≤ n * (w * 4) := Nat.mul_le_mul_right _ (by omega)
          rw [Nat.succ_mul] at hle
          rw [oout _ (by omega)]
          exact tfirst y c (by omega) hc)
  exact fun y c hy hc => inv.2.2 y c hy hc

end Effects

namespace Effects

/-- C20 (counterexample). On the 23x1 frame `greyFrame`, whose active samples
are all 9, the 13 samples centred on element 0 average to 9, but the first
element of the row after the horizontal pass is 12; the same list as a 1x23
column gives 12 at the top after the vertical pass. -/
theorem first_element_not_average :
    Blur.kernelAverage (fun i => greyFrame.data.getD ((modulo i 23).toNat * 4) 0) = 9 ∧
    (forUp 1 (fun y t => Blur.hRow 23 y t) greyFrame.data).getD 0 0 = 12 ∧
    (Blur.vPass 1 23 greyFrame.data).getD 0 0 = 12 := by
  decide!

/-- C20 (amended). Full kernel for the first element: for a 16-bit frame of
width and height at least 7, after the horizontal pass of `Blur` the first
element of every row, in every active channel, is the sum of the rounded
contributions `round_half(kBoxFactor * s)` of the twelve samples `s` that the row
held before the pass at indices `modulo(i, width)`, `i` in `-6..-1` and `1..6`,
plus the contribution of the centre tap, which lies in `[0, 5041]`; likewise the
top row after the vertical pass with `modulo(i, height)`. -/
theorem first_element_is_sum_of_rounded_taps (w h : Nat) (d : List Nat) (hw : 7 ≤ w)
    (hh : 7 ≤ h) (hlen : d.length = h * (w * 4)) (hd : ∀ v ∈ d, v ≤ 65535) :
    (∀ y c, y < h → c < 3 → ∃ centre, centre ≤ 5041 ∧
      (forUp h (fun y t => Blur.hRow w y t) d).getD (y * (w * 4) + c) 0 =
        Blur.sideSum (fun i =>
          Blur.term (d.getD (y * (w * 4) + (modulo i w).toNat * 4 + c) 0)) + centre) ∧
    (∀ x c, x < w → c < 3 → ∃ centre, centre ≤ 5041 ∧
      (Blur.vPass w h d).getD (x * 4 + c) 0 =
        Blur.sideSum (fun i =>
          Blur.term (d.getD ((modulo i h).toNat * (w * 4) + x * 4 + c) 0)) + centre) :=
  ⟨Blur.hPass_first w h d hw hlen hd,
    fun x c hx hc => Blur.vPass_top w h x c d hh hx hc (le_of_eq hlen.symm) hd⟩

theorem first_element_is_sum_of_rounded_taps_witness :
    (7 ≤ 7) ∧ (List.replicate 196 9).length = 7 * (7 * 4) ∧
    (∀ v ∈ List.replicate 196 9, v ≤ 65535) ∧
    (∀ y c, y < 7 → c < 3 → ∃ centre, centre ≤ 5041 ∧
      (forUp 7 (fun y t => Blur.hRow 7 y t) (List.replicate 196 9)).getD (y * (7 * 4) + c) 0 =
        Blur.sideSum (fun i => Blur.term
          ((List.replicate 196 9).getD (y * (7 * 4) + (modulo i 7).toNat * 4 + c) 0)) + centre) ∧
    (∀ x c, x < 7 → c < 3 → ∃ centre, centre ≤ 5041 ∧
      (Blur.vPass 7 7 (List.replicate 196 9)).getD (x * 4 + c) 0 =
        Blur.sideSum (fun i => Blur.term
          ((List.replicate 196 9).getD ((modulo i 7).toNat * (7 * 4) + x * 4 + c) 0)) + centre) :=
  ⟨by decide, (List.length_replicate 196 9).trans (by decide),
    fun v hv => le_of_eq_of_le (List.eq_of_mem_replicate hv) (by decide),
    first_element_is_sum_of_rounded_taps 7 7 (List.replicate 196 9) (by decide) (by decide)
      ((List.length_replicate 196 9).trans (by decide))
      (fun v hv => le_of_eq_of_le (List.eq_of_mem_replicate hv) (by decide))⟩

end Effects

namespace Effects

/-! ## `Blur` acts on each line by `Blur.line` -/

/-- Two loops that keep a relation between their states step by step. -/
theorem forUp_rel {σ τ : Type} (R : σ → τ → Prop) (n : Nat) (f : Nat → σ → σ)
    (g : Nat → τ → τ) (s : σ) (u : τ) (h0 : R s u)
    (hstep : ∀ i t v, i < n → R t v → R (f i t) (g i v)) :
    R (forUp n f s) (forUp n g u) := by
  induction n with
  | zero => exact h0
  | succ n ih =>
    rw [forUp_succ, forUp_succ]
    exact hstep n _ _ (Nat.lt_succ_self n) (ih (fun i t v hi => hstep i t v (Nat.lt_succ_of_lt hi)))

/-- A loop of which one iteration acts on the related state and the others
leave the relation alone. -/
theorem forUp_one {σ τ : Type} (R : σ → τ → Prop) (n : Nat) (f : Nat → σ → σ) (g : τ → τ)
    (x0 : Nat) (hx0 : x0 < n) (s : σ) (u : τ) (h0 : R s u)
    (hoth : ∀ i t v, i < n → i ≠ x0 → R t v → R (f i t) v)
    (hmine : ∀ t v, R t v → R (f x0 t) (g v)) :
    R (forUp n f s) (g u) := by
  have key := forUp_invariant (fun k t => (k ≤ x0 → R t u) ∧ (x0 < k → R t (g u))) n f s
    ⟨fun _ => h0, fun h => absurd h (Nat.not_lt_zero _)⟩ (by
      intro i t hi ht
      refine ⟨fun hle => ?_, fun hlt => ?_⟩
      · exact hoth i t u hi (by omega) (ht.1 (by omega))
      · by_cases hix : i = x0
        · subst hix
          exact hmine t u (ht.1 (Nat.le_refl _))
        · exact hoth i t (g u) hi hix (ht.2 (by omega)))
  exact key.2 hx0

/-- Of three operations in a row, one acts on the related line and the other
two leave the relation alone (either order of the three). -/
theorem three_ops {σ τ : Type} (R : σ → τ → Prop) (F : Nat → σ → σ) (g : τ → τ) (c : Nat)
    (hc : c < 3) (hmine : ∀ t v, R t v → R (F c t) (g v))
    (hoth : ∀ k, k < 3 → k ≠ c → ∀ t v, R t v → R (F k t) v) (t : σ) (v : τ) (h : R t v) :
    R (F 2 (F 1 (F 0 t))) (g v) ∧ R (F 0 (F 1 (F 2 t))) (g v) := by
  have hc3 : c = 0 ∨ c = 1 ∨ c = 2 := by omega
  rcases hc3 with rfl | rfl | rfl
  · exact ⟨hoth 2 (by omega) (by omega) _ _ (hoth 1 (by omega) (by omega) _ _ (hmine _ _ h)),
      hmine _ _ (hoth 1 (by omega) (by omega) _ _ (hoth 2 (by omega) (by omega) _ _ h))⟩
  · exact ⟨hoth 2 (by omega) (by omega) _ _ (hmine _ _ (hoth 0 (by omega) (by omega) _ _ h)),
      hoth 0 (by omega) (by omega) _ _ (hmine _ _ (hoth 2 (by omega) (by omega) _ _ h))⟩
  · exact ⟨hmine _ _ (hoth 1 (by omega) (by omega) _ _ (hoth 0 (by omega) (by omega) _ _ h)),
      hoth 0 (by omega) (by omega) _ _ (hoth 1 (by omega) (by omega) _ _ (hmine _ _ h))⟩

theorem Blur.View_set_mine (idx : Nat → Nat) (n : Nat) (t l : List Nat)
    (hinj : ∀ i j, i < n → j < n → idx i = idx j → i = j) (hv : Blur.View idx n t l)
    (i0 j : Nat) (v : Nat) (hi0 : i0 < n) (hj : j = idx i0) :
    Blur.View idx n (t.set j v) (l.set i0 v) := by
  obtain ⟨hl, hb, hval⟩ := hv
  subst hj
  refine ⟨by simp [hl], fun i hi => by simp [hb i hi], fun i hi => ?_⟩
  rw [getD_set_nat, getD_set_nat]
  by_cases h : i0 = i
  · subst h
    rw [if_pos ⟨rfl, hb _ hi⟩, if_pos ⟨rfl, by omega⟩]
  · rw [if_neg (fun hh => h (hinj _ _ hi0 hi hh.1)), if_neg (fun hh => h hh.1)]
    exact hval i hi

theorem Blur.View_set_other (idx : Nat → Nat) (n : Nat) (t l : List Nat)
    (hv : Blur.View idx n t l) (j v : Nat) (hj : ∀ i, i < n → idx i ≠ j) :
    Blur.View idx n (t.set j v) l := by
  obtain ⟨hl, hb, hval⟩ := hv
  refine ⟨hl, fun i hi => by simp [hb i hi], fun i hi => ?_⟩
  rw [getD_set_nat, if_neg (fun hh => hj i hi hh.1.symm)]
  exact hval i hi

theorem Blur.View_tap_mine (idx : Nat → Nat) (n : Nat) (t l : List Nat)
    (hinj : ∀ i j, i < n → j < n → idx i = idx j → i = j) (hv : Blur.View idx n t l)
    (a s acc src : Nat) (ha : a < n) (hs : s < n) (hacc : acc = idx a) (hsrc : src = idx s) :
    Blur.View idx n (Blur.tap acc src t) (Blur.tap a s l) := by
  unfold Blur.tap
  rw [hacc, hsrc, hv.2.2 a ha, hv.2.2 s hs]
  exact Blur.View_set_mine idx n t l hinj hv a _ _ ha rfl

theorem Blur.View_tap_other (idx : Nat → Nat) (n : Nat) (t l : List Nat)
    (hv : Blur.View idx n t l) (acc src : Nat) (hj : ∀ i, i < n → idx i ≠ acc) :
    Blur.View idx n (Blur.tap acc src t) l := by
  unfold Blur.tap
  exact Blur.View_set_other idx n t l hv _ _ hj

theorem Blur.View_slide_mine (idx : Nat → Nat) (n : Nat) (t l : List Nat)
    (hinj : ∀ i j, i < n → j < n → idx i = idx j → i = j) (hv : Blur.View idx n t l)
    (i a b c ji ja jb jc : Nat) (hi : i < n) (ha : a < n) (hb : b < n) (hc : c < n)
    (hji : ji = idx i) (hja : ja = idx a) (hjb : jb = idx b) (hjc : jc = idx c) :
    Blur.View idx n (Blur.slide ji ja jb jc t) (Blur.slide i a b c l) := by
  unfold Blur.slide
  rw [hji, hja, hjb, hjc, hv.2.2 a ha, hv.2.2 b hb, hv.2.2 c hc]
  exact Blur.View_set_mine idx n t l hinj hv i _ _ hi rfl

theorem Blur.View_slide_other (idx : Nat → Nat) (n : Nat) (t l : List Nat)
    (hv : Blur.View idx n t l) (ji ja jb jc : Nat) (hj : ∀ i, i < n → idx i ≠ ji) :
    Blur.View idx n (Blur.slide ji ja jb jc t) l := by
  unfold Blur.slide
  exact Blur.View_set_other idx n t l hv _ _ hj

end Effects

namespace Effects

theorem Blur.line_length (n : Nat) (l : List Nat) : (Blur.line n l).length = l.length := by
  unfold Blur.line
  refine forFrom_preserves (fun (u : List Nat) => u.length = l.length) _ _ _ _ ?_ ?_
  · refine forFrom_preserves (fun (u : List Nat) => u.length = l.length) _ _ _ _ ?_ ?_
    · simp
    · intro i u _ hu
      rw [Blur.tap_length]; exact hu
  · intro i u _ hu
    rw [Blur.slide_length]; exact hu

/-- The horizontal pass on row `y` acts on each active channel of that row as
`Blur.line`. -/
theorem Blur.hRow_sim (w y c : Nat) (t l : List Nat) (hc : c < 3)
    (hv : Blur.View (fun x => y * (w * 4) + x * 4 + c) w t l) :
    Blur.View (fun x => y * (w * 4) + x * 4 + c) w (Blur.hRow w y t) (Blur.line w l) := by
  rcases Nat.eq_zero_or_pos w with hw0 | hw
  · subst hw0
    obtain ⟨hl, _, _⟩ := hv
    exact ⟨by rw [Blur.line_length]; exact hl, fun i hi => absurd hi (Nat.not_lt_zero i),
      fun i hi => absurd hi (Nat.not_lt_zero i)⟩
  unfold Blur.hRow Blur.line
  simp only [show kRgbChannels = 4 from rfl]
  generalize y * (w * 4) = yo at hv ⊢
  have hinj : ∀ i j, i < w → j < w →
      (fun x => yo + x * 4 + c) i = (fun x => yo + x * 4 + c) j → i = j := by
    intro i j _ _ h
    beta_reduce at h
    omega
  have hhb : kHalfBox = 6 := rfl
  unfold forFrom
  refine forUp_rel (Blur.View (fun x => yo + x * 4 + c) w) _ _ _ _ _ ?_ ?_
  · refine forUp_rel (Blur.View (fun x => yo + x * 4 + c) w) _ _ _ _ _ ?_ ?_
    · exact (three_ops (Blur.View (fun x => yo + x * 4 + c) w)
        (fun k u => u.set (yo + k) 0) (fun v => v.set 0 0) c hc
        (fun u v huv => Blur.View_set_mine _ w u v hinj huv 0 _ 0 hw (by omega))
        (fun k hk hkc u v huv => Blur.View_set_other _ w u v huv _ 0
          (fun i _ => by omega)) t l hv).2
    · intro i u v _ huv
      have hm := modulo_range (-(kHalfBox : Int) + (i : Int)) w (by omega)
      exact (three_ops (Blur.View (fun x => yo + x * 4 + c) w)
        (fun k u => Blur.tap (yo + k)
          (yo + (modulo (-(kHalfBox : Int) + (i : Int)) w).toNat * 4 + k) u)
        (fun v => Blur.tap 0 (modulo (-(kHalfBox : Int) + (i : Int)) w).toNat v) c hc
        (fun u v huv => Blur.View_tap_mine _ w u v hinj huv 0 _ _ _ hw (by omega)
          (by omega) (by omega))
        (fun k hk hkc u v huv => Blur.View_tap_other _ w u v huv _ _
          (fun i _ => by omega)) u v huv).1
  · intro i u v hi huv
    have hmn := modulo_range (1 + (i : Int) - (kHalfBox : Int) - 1) w (by omega)
    have hmx := modulo_range (1 + (i : Int) + (kHalfBox : Int) + 1) w (by omega)
    exact (three_ops (Blur.View (fun x => yo + x * 4 + c) w)
      (fun k u => Blur.slide (yo + (1 + (i : Int)).toNat * 4 + k)
        (yo + (1 + (i : Int)).toNat * 4 - 4 + k)
        (yo + (modulo (1 + (i : Int) - (kHalfBox : Int) - 1) w).toNat * 4 + k)
        (yo + (modulo (1 + (i : Int) + (kHalfBox : Int) + 1) w).toNat * 4 + k) u)
      (fun v => Blur.slide (1 + (i : Int)).toNat ((1 + (i : Int)).toNat - 1)
        (modulo (1 + (i : Int) - (kHalfBox : Int) - 1) w).toNat
        (modulo (1 + (i : Int) + (kHalfBox : Int) + 1) w).toNat v) c hc
      (fun u v huv => Blur.View_slide_mine _ w u v hinj huv _ _ _ _ _ _ _ _
        (by omega) (by omega) (by omega) (by omega)
        (by omega) (by omega) (by omega)
        (by omega))
      (fun k hk hkc u v huv => Blur.View_slide_other _ w u v huv _ _ _ _
        (fun i _ => by omega)) u v huv).1

end Effects

namespace Effects

/-- Row-major indices: equal indices have equal rows and equal offsets. -/
theorem row_index_inj (W a b r s : Nat) (hr : r < W) (hs : s < W)
    (h : a * W + r = b * W + s) : a = b ∧ r = s := by
  have h1 : (a * W + r) / W = a := by
    rw [Nat.add_comm, Nat.add_mul_div_right _ _ (by omega), Nat.div_eq_of_lt hr, Nat.zero_add]
  have h2 : (b * W + s) / W = b := by
    rw [Nat.add_comm, Nat.add_mul_div_right _ _ (by omega), Nat.div_eq_of_lt hs, Nat.zero_add]
  have hab : a = b := by rw [← h1, ← h2, h]
  subst hab
  exact ⟨rfl, by omega⟩

/-- The vertical pass acts on each active channel of each column as
`Blur.line`. -/
theorem Blur.vPass_sim (w h x0 c : Nat) (t l : List Nat) (hx0 : x0 < w) (hc : c < 3)
    (hv : Blur.View (fun y => y * (w * 4) + x0 * 4 + c) h t l) :
    Blur.View (fun y => y * (w * 4) + x0 * 4 + c) h (Blur.vPass w h t) (Blur.line h l) := by
  rcases Nat.eq_zero_or_pos h with hh0 | hh
  · subst hh0
    obtain ⟨hl, _, _⟩ := hv
    exact ⟨by rw [Blur.line_length]; exact hl, fun i hi => absurd hi (Nat.not_lt_zero i),
      fun i hi => absurd hi (Nat.not_lt_zero i)⟩
  unfold Blur.vPass Blur.line
  simp only [show kRgbChannels = 4 from rfl]
  have hhb : kHalfBox = 6 := rfl
  have hinj : ∀ i j, i < h → j < h →
      (fun y => y * (w * 4) + x0 * 4 + c) i = (fun y => y * (w * 4) + x0 * 4 + c) j → i = j := by
    intro i j _ _ hij
    beta_reduce at hij
    exact (row_index_inj (w * 4) i j (x0 * 4 + c) (x0 * 4 + c) (by omega) (by omega)
      (by omega)).1
  -- an index of another column, or of another channel, is not in the view
  have hother : ∀ (Y x k i : Nat), x < w → k < 3 → (x ≠ x0 ∨ k ≠ c) →
      i * (w * 4) + x0 * 4 + c ≠ Y * (w * 4) + x * 4 + k := by
    intro Y x k i hx hk hne heq
    have := (row_index_inj (w * 4) i Y (x0 * 4 + c) (x * 4 + k) (by omega) (by omega)
      (by omega)).2
    omega
  have hother0 : ∀ (x k i : Nat), x < w → k < 3 → (x ≠ x0 ∨ k ≠ c) →
      i * (w * 4) + x0 * 4 + c ≠ x * 4 + k := by
    intro x k i hx hk hne
    have := hother 0 x k i hx hk hne
    simpa using this
  unfold forFrom
  refine forUp_rel (Blur.View (fun y => y * (w * 4) + x0 * 4 + c) h) _ _ _ _ _ ?_ ?_
  · refine forUp_rel (Blur.View (fun y => y * (w * 4) + x0 * 4 + c) h) _ _ _ _ _ ?_ ?_
    · -- zeroing of the top row
      refine forUp_one (Blur.View (fun y => y * (w * 4) + x0 * 4 + c) h) w _
        (fun v => v.set 0 0) x0 hx0 _ _ hv ?_ ?_
      · intro x u v hx hxx huv
        exact Blur.View_set_other _ h _ v (Blur.View_set_other _ h _ v
          (Blur.View_set_other _ h _ v huv _ 0
            (fun i _ => hother0 x 2 i hx (by omega) (Or.inl hxx))) _ 0
            (fun i _ => hother0 x 1 i hx (by omega) (Or.inl hxx))) _ 0
            (fun i _ => hother0 x 0 i hx (by omega) (Or.inl hxx))
      · intro u v huv
        exact (three_ops (Blur.View (fun y => y * (w * 4) + x0 * 4 + c) h)
          (fun k u => u.set (x0 * 4 + k) 0) (fun v => v.set 0 0) c hc
          (fun u v huv => Blur.View_set_mine _ h u v hinj huv 0 _ 0 hh (by omega))
          (fun k hk hkc u v huv => Blur.View_set_other _ h u v huv _ 0
            (fun i _ => hother0 x0 k i hx0 hk (Or.inr hkc))) u v huv).2
    · -- the full-kernel taps of the top row
      intro i u v _ huv
      have hm := modulo_range (-(kHalfBox : Int) + (i : Int)) h (by omega)
      beta_reduce
      generalize hmm : (modulo (-(kHalfBox : Int) + (i : Int)) h).toNat = m
      have hmh : m < h := by omega
      refine forUp_one (Blur.View (fun y => y * (w * 4) + x0 * 4 + c) h) w _
        (fun v => Blur.tap 0 m v) x0 hx0 _ _ huv ?_ ?_
      · intro x u v hx hxx huv
        exact Blur.View_tap_other _ h _ v (Blur.View_tap_other _ h _ v
          (Blur.View_tap_other _ h _ v huv _ _
            (fun i _ => hother0 x 0 i hx (by omega) (Or.inl hxx))) _ _
            (fun i _ => hother0 x 1 i hx (by omega) (Or.inl hxx))) _ _
            (fun i _ => hother0 x 2 i hx (by omega) (Or.inl hxx))
      · intro u v huv
        exact (three_ops (Blur.View (fun y => y * (w * 4) + x0 * 4 + c) h)
          (fun k u => Blur.tap (x0 * 4 + k) (m * (w * 4) + x0 * 4 + k) u)
          (fun v => Blur.tap 0 m v) c hc
          (fun u v huv => Blur.View_tap_mine _ h u v hinj huv 0 m _ _ hh hmh (by omega) rfl)
          (fun k hk hkc u v huv => Blur.View_tap_other _ h u v huv _ _
            (fun i _ => hother0 x0 k i hx0 hk (Or.inr hkc))) u v huv).1
  · -- the sliding updates of the rows below
    intro i u v hi huv
    have hmn := modulo_range (1 + (i : Int) - (kHalfBox : Int) - 1) h (by omega)
    have hmx := modulo_range (1 + (i : Int) + (kHalfBox : Int) + 1) h (by omega)
    beta_reduce
    generalize hmn' : (modulo (1 + (i : Int) - (kHalfBox : Int) - 1) h).toNat = mn
    generalize hmx' : (modulo (1 + (i : Int) + (kHalfBox : Int) + 1) h).toNat = mx
    have hmnh : mn < h := by omega
    have hmxh : mx < h := by omega
    have hY1 : 1 ≤ (1 + (i : Int)).toNat := by omega
    have hYh : (1 + (i : Int)).toNat < h := by omega
    generalize (1 + (i : Int)).toNat = Y at hY1 hYh
    have hlast : Y * (w * 4) - w * 4 = (Y - 1) * (w * 4) := (Nat.sub_one_mul Y (w * 4)).symm
    rw [hlast]
    refine forUp_one (Blur.View (fun y => y * (w * 4) + x0 * 4 + c) h) w _
      (fun v => Blur.slide Y (Y - 1) mn mx v) x0 hx0 _ _ huv ?_ ?_
    · intro x u v hx hxx huv
      exact Blur.View_slide_other _ h _ v (Blur.View_slide_other _ h _ v
        (Blur.View_slide_other _ h _ v huv _ _ _ _
          (fun i _ => hother Y x 0 i hx (by omega) (Or.inl hxx))) _ _ _ _
          (fun i _ => hother Y x 1 i hx (by omega) (Or.inl hxx))) _ _ _ _
          (fun i _ => hother Y x 2 i hx (by omega) (Or.inl hxx))
    · intro u v huv
      exact (three_ops (Blur.View (fun y => y * (w * 4) + x0 * 4 + c) h)
        (fun k u => Blur.slide (Y * (w * 4) + x0 * 4 + k) ((Y - 1) * (w * 4) + x0 * 4 + k)
          (mn * (w * 4) + x0 * 4 + k) (mx * (w * 4) + x0 * 4 + k) u)
        (fun v => Blur.slide Y (Y - 1) mn mx v) c hc
        (fun u v huv => Blur.View_slide_mine _ h u v hinj huv Y (Y - 1) mn mx _ _ _ _
          hYh (by omega) hmnh hmxh rfl rfl rfl rfl)
        (fun k hk hkc u v huv => Blur.View_slide_other _ h u v huv _ _ _ _
          (fun i _ => hother Y x0 k i hx0 hk (Or.inr hkc))) u v huv).1

end Effects

namespace Effects

/-- The horizontal pass on another row leaves the line alone. -/
theorem Blur.hRow_other (w y y0 c : Nat) (t l : List Nat) (hc : c < 4) (hy : y ≠ y0)
    (hv : Blur.View (fun x => y0 * (w * 4) + x * 4 + c) w t l) :
    Blur.View (fun x => y0 * (w * 4) + x * 4 + c) w (Blur.hRow w y t) l := by
  rcases Nat.eq_zero_or_pos w with hw0 | hw
  · subst hw0
    exact ⟨hv.1, fun i hi => absurd hi (Nat.not_lt_zero i),
      fun i hi => absurd hi (Nat.not_lt_zero i)⟩
  obtain ⟨hl, hb, hval⟩ := hv
  obtain ⟨ol, oout⟩ := Blur.hRow_outside w y t hw
  have hrow : ∀ i, i < w → (y0 * (w * 4) + i * 4 + c < y * (w * 4) ∨
      y * (w * 4) + w * 4 ≤ y0 * (w * 4) + i * 4 + c) := by
    intro i hi
    rcases Nat.lt_or_gt_of_ne hy with h1 | h1
    · right
      have : (y + 1) * (w * 4) ≤ y0 * (w * 4) := Nat.mul_le_mul_right _ h1
      rw [Nat.succ_mul] at this
      omega
    · left
      have : (y0 + 1) * (w * 4) ≤ y * (w * 4) := Nat.mul_le_mul_right _ h1
      rw [Nat.succ_mul] at this
      omega
  refine ⟨hl, fun i hi => by rw [ol]; exact hb i hi, fun i hi => ?_⟩
  beta_reduce
  rw [oout _ (hrow i hi)]
  exact hval i hi

/-- The horizontal pass of `Blur` over all rows acts on each active channel
of each row as `Blur.line`. -/
theorem Blur.hPass_sim (w h y0 c : Nat) (t l : List Nat) (hy0 : y0 < h) (hc : c < 3)
    (hv : Blur.View (fun x => y0 * (w * 4) + x * 4 + c) w t l) :
    Blur.View (fun x => y0 * (w * 4) + x * 4 + c) w
      (forUp h (fun y t => Blur.hRow w y t) t) (Blur.line w l) :=
  forUp_one (Blur.View (fun x => y0 * (w * 4) + x * 4 + c) w) h _ (fun v => Blur.line w v)
    y0 hy0 t l hv
    (fun y u v _ hy huv => Blur.hRow_other w y y0 c u v (by omega) hy huv)
    (fun u v huv => Blur.hRow_sim w y0 c u v hc huv)

theorem Blur.hRow_length (w y : Nat) (t : List Nat) : (Blur.hRow w y t).length = t.length := by
  unfold Blur.hRow
  refine forFrom_preserves (fun (u : List Nat) => u.length = t.length) _ _ _ _ ?_ ?_
  · refine forFrom_preserves (fun (u : List Nat) => u.length = t.length) _ _ _ _ ?_ ?_
    · simp
    · intro i u _ hu
      simp only [Blur.tap_length]; exact hu
  · intro i u _ hu
    simp only [Blur.slide_length]; exact hu

theorem Blur.hPass_length (w h : Nat) (t : List Nat) :
    (forUp h (fun y t => Blur.hRow w y t) t).length = t.length :=
  forUp_preserves (fun (u : List Nat) => u.length = t.length) h _ t rfl
    (fun y u _ hu => by beta_reduce; rw [Blur.hRow_length]; exact hu)

theorem Blur.vPass_length (w h : Nat) (t : List Nat) : (Blur.vPass w h t).length = t.length := by
  unfold Blur.vPass
  refine forFrom_preserves (fun (u : List Nat) => u.length = t.length) _ _ _ _ ?_ ?_
  · refine forFrom_preserves (fun (u : List Nat) => u.length = t.length) _ _ _ _ ?_ ?_
    · refine forUp_preserves (fun (u : List Nat) => u.length = t.length) _ _ _ rfl ?_
      intro x u _ hu
      simpa using hu
    · intro i u _ hu
      refine forUp_preserves (fun (u : List Nat) => u.length = t.length) _ _ _ hu ?_
      intro x u _ hu
      simp only [Blur.tap_length]; exact hu
  · intro i u _ hu
    refine forUp_preserves (fun (u : List Nat) => u.length = t.length) _ _ _ hu ?_
    intro x u _ hu
    simp only [Blur.slide_length]; exact hu

/-- An index of an active channel is not an index of the fourth channel. -/
theorem active_ne_fourth (A B x k j : Nat) (hk : k < 3) (hj : j % 4 = 3) :
    j ≠ A * (B * 4) + x * 4 + k := by
  have : A * (B * 4) = 4 * (A * B) := by ring
  omega

/-- The horizontal pass on any row leaves the fourth channel alone. -/
theorem Blur.hRow_fourth (w y : Nat) (t : List Nat) (j : Nat) (hj : j % 4 = 3) :
    (Blur.hRow w y t).getD j 0 = t.getD j 0 := by
  refine Blur.hRow_preserves (fun (u : List Nat) => u.getD j 0 = t.getD j 0) ?_ ?_ w y t ?_
  · intro l acc src ha _ hl
    rw [Blur.tap_getD_ne _ _ _ _ (by omega)]; exact hl
  · intro l i a b c _ hi _ _ _ hl
    rw [Blur.slide_getD _ _ _ _ _ _ (by omega)]; exact hl
  · beta_reduce
    simp only [getD_set_nat]
    have h0 := active_ne_fourth y w 0 0 j (by omega) hj
    have h1 := active_ne_fourth y w 0 1 j (by omega) hj
    have h2 := active_ne_fourth y w 0 2 j (by omega) hj
    rw [if_neg (by omega), if_neg (by omega), if_neg (by omega)]

theorem Blur.hPass_fourth (w h : Nat) (t : List Nat) (j : Nat) (hj : j % 4 = 3) :
    (forUp h (fun y t => Blur.hRow w y t) t).getD j 0 = t.getD j 0 :=
  forUp_preserves (fun (u : List Nat) => u.getD j 0 = t.getD j 0) h _ t rfl
    (fun y u _ hu => by beta_reduce; rw [Blur.hRow_fourth w y u j hj]; exact hu)

/-- The vertical pass leaves the fourth channel alone. -/
theorem Blur.vPass_fourth (w h : Nat) (t : List Nat) (j : Nat) (hj : j % 4 = 3) :
    (Blur.vPass w h t).getD j 0 = t.getD j 0 := by
  unfold Blur.vPass
  simp only [show kRgbChannels = 4 from rfl]
  refine forFrom_preserves (fun (u : List Nat) => u.getD j 0 = t.getD j 0) _ _ _ _ ?_ ?_
  · refine forFrom_preserves (fun (u : List Nat) => u.getD j 0 = t.getD j 0) _ _ _ _ ?_ ?_
    · refine forUp_preserves (fun (u : List Nat) => u.getD j 0 = t.getD j 0) _ _ _ rfl ?_
      intro x u _ hu
      simp only [getD_set_nat]
      rw [if_neg (by omega), if_neg (by omega), if_neg (by omega)]
      exact hu
    · intro i u _ hu
      refine forUp_preserves (fun (u : List Nat) => u.getD j 0 = t.getD j 0) _ _ _ hu ?_
      intro x u _ hu
      rw [Blur.tap_getD_ne _ _ _ _ (by omega), Blur.tap_getD_ne _ _ _ _ (by omega),
        Blur.tap_getD_ne _ _ _ _ (by omega)]
      exact hu
  · intro i u _ hu
    refine forUp_preserves (fun (u : List Nat) => u.getD j 0 = t.getD j 0) _ _ _ hu ?_
    intro x u _ hu
    rw [Blur.slide_getD _ _ _ _ _ _ (active_ne_fourth _ w x 2 j (by omega) hj),
      Blur.slide_getD _ _ _ _ _ _ (active_ne_fourth _ w x 1 j (by omega) hj),
      Blur.slide_getD _ _ _ _ _ _ (active_ne_fourth _ w x 0 j (by omega) hj)]
    exact hu

/-- A buffer holds, at the indices of a line inside it, the list of its own
samples there. -/
theorem Blur.View_self (idx : Nat → Nat) (n : Nat) (t : List Nat)
    (hb : ∀ i, i < n → idx i < t.length) :
    Blur.View idx n t ((List.range n).map (fun i => t.getD (idx i) 0)) := by
  refine ⟨by simp, hb, fun i hi => ?_⟩
  rw [List.getD_eq_getElem?_getD ((List.range n).map _), List.getElem?_map,
    List.getElem?_range hi]
  rfl

end Effects

namespace Effects

/-! ## Cyclic shifts and the passes of `Blur` -/

/-- Every index of a `w`x`h` RGBA buffer is the index of a channel of a pixel. -/
theorem pixel_decomp (w h j : Nat) (hj : j < h * (w * 4)) :
    ∃ y x c, y < h ∧ x < w ∧ c < 4 ∧ j = y * (w * 4) + x * 4 + c := by
  have hW : 0 < w * 4 := by
    rcases Nat.eq_zero_or_pos (w * 4) with h0 | h0
    · rw [h0] at hj; omega
    · exact h0
  refine ⟨j / (w * 4), j % (w * 4) / 4, j % (w * 4) % 4, ?_, ?_, ?_, ?_⟩
  · exact Nat.div_lt_of_lt_mul (by rw [Nat.mul_comm]; exact hj)
  · have := Nat.mod_lt j hW
    omega
  · omega
  · have := Nat.div_add_mod' j (w * 4)
    omega

theorem pixel_index (w h y x c : Nat) (hy : y < h) (hx : x < w) (hc : c < 4) :
    y * (w * 4) + x * 4 + c < h * (w * 4) ∧ (y * (w * 4) + x * 4 + c) / (w * 4) = y ∧
    (y * (w * 4) + x * 4 + c) % (w * 4) = x * 4 + c ∧ (y * (w * 4) + x * 4 + c) % 4 = c := by
  obtain ⟨h1, h2, h3⟩ := flat_index (w * 4) h (x * 4 + c) y (by omega) hy
  rw [← Nat.add_assoc] at h1 h2 h3
  refine ⟨h1, h2, h3, ?_⟩
  have : y * (w * 4) = 4 * (y * w) := by ring
  omega

theorem shiftRows_getD (w h s : Nat) (d : List Nat) (y x c : Nat) (hy : y < h) (hx : x < w)
    (hc : c < 4) :
    (shiftRows w h s d).getD (y * (w * 4) + x * 4 + c) 0 =
      d.getD (((y + s) % h) * (w * 4) + x * 4 + c) 0 := by
  obtain ⟨h1, h2, h3, _⟩ := pixel_index w h y x c hy hx hc
  unfold shiftRows
  rw [List.getD_eq_getElem?_getD, List.getElem?_map, List.getElem?_range h1]
  simp only [Option.map_some', Option.getD_some]
  rw [h2, h3, Nat.add_assoc]

theorem shiftCols_getD (w h s : Nat) (d : List Nat) (y x c : Nat) (hy : y < h) (hx : x < w)
    (hc : c < 4) :
    (shiftCols w h s d).getD (y * (w * 4) + x * 4 + c) 0 =
      d.getD (y * (w * 4) + ((x + s) % w) * 4 + c) 0 := by
  obtain ⟨h1, h2, h3, h4⟩ := pixel_index w h y x c hy hx hc
  unfold shiftCols
  rw [List.getD_eq_getElem?_getD, List.getElem?_map, List.getElem?_range h1]
  simp only [Option.map_some', Option.getD_some]
  rw [h2, h3, h4, show (x * 4 + c) / 4 = x by omega]

theorem shiftRows_length (w h s : Nat) (d : List Nat) :
    (shiftRows w h s d).length = h * (w * 4) := by
  simp [shiftRows]

theorem shiftCols_length (w h s : Nat) (d : List Nat) :
    (shiftCols w h s d).length = h * (w * 4) := by
  simp [shiftCols]

/-- The horizontal pass commutes with every cyclic shift of the rows. -/
theorem Blur.hPass_shiftRows (w h s : Nat) (d : List Nat) (hh : 1 ≤ h)
    (hlen : d.length = h * (w * 4)) :
    forUp h (fun y t => Blur.hRow w y t) (shiftRows w h s d) =
      shiftRows w h s (forUp h (fun y t => Blur.hRow w y t) d) := by
  apply list_eq_of_getD
  · rw [Blur.hPass_length, shiftRows_length, shiftRows_length]
  · intro j hj
    rw [Blur.hPass_length, shiftRows_length] at hj
    obtain ⟨y, x, c, hy, hx, hc, rfl⟩ := pixel_decomp w h j hj
    have hy' : (y + s) % h < h := Nat.mod_lt _ (by omega)
    rw [shiftRows_getD w h s _ y x c hy hx hc]
    by_cases hc3 : c = 3
    · subst hc3
      rw [Blur.hPass_fourth _ _ _ _ (pixel_index w h y x 3 hy hx hc).2.2.2,
        Blur.hPass_fourth _ _ _ _ (pixel_index w h _ x 3 hy' hx hc).2.2.2,
        shiftRows_getD w h s _ y x 3 hy hx hc]
    · have hc' : c < 3 := by omega
      have v1 := Blur.hPass_sim w h y c (shiftRows w h s d) _ hy hc'
        (Blur.View_self (fun x => y * (w * 4) + x * 4 + c) w (shiftRows w h s d)
          (fun i hi => by
            rw [shiftRows_length]
            exact (pixel_index w h y i c hy hi hc).1))
      have v2 := Blur.hPass_sim w h ((y + s) % h) c d _ hy' hc'
        (Blur.View_self (fun x => (y + s) % h * (w * 4) + x * 4 + c) w d
          (fun i hi => by
            rw [hlen]
            exact (pixel_index w h _ i c hy' hi hc).1))
      have e1 := v1.2.2 x hx
      have e2 := v2.2.2 x hx
      beta_reduce at e1 e2
      rw [e1, e2]
      congr 2
      apply List.map_congr_left
      intro i hi
      exact shiftRows_getD w h s d y i c hy (List.mem_range.1 hi) hc

/-- The vertical pass commutes with every cyclic shift of the columns. -/
theorem Blur.vPass_shiftCols (w h s : Nat) (d : List Nat) (hw : 1 ≤ w)
    (hlen : d.length = h * (w * 4)) :
    Blur.vPass w h (shiftCols w h s d) = shiftCols w h s (Blur.vPass w h d) := by
  apply list_eq_of_getD
  · rw [Blur.vPass_length, shiftCols_length, shiftCols_length]
  · intro j hj
    rw [Blur.vPass_length, shiftCols_length] at hj
    obtain ⟨y, x, c, hy, hx, hc, rfl⟩ := pixel_decomp w h j hj
    have hx' : (x + s) % w < w := Nat.mod_lt _ (by omega)
    rw [shiftCols_getD w h s _ y x c hy hx hc]
    by_cases hc3 : c = 3
    · subst hc3
      rw [Blur.vPass_fourth _ _ _ _ (pixel_index w h y x 3 hy hx hc).2.2.2,
        Blur.vPass_fourth _ _ _ _ (pixel_index w h y _ 3 hy hx' hc).2.2.2,
        shiftCols_getD w h s _ y x 3 hy hx hc]
    · have hc' : c < 3 := by omega
      have v1 := Blur.vPass_sim w h x c (shiftCols w h s d) _ hx hc'
        (Blur.View_self (fun y => y * (w * 4) + x * 4 + c) h (shiftCols w h s d)
          (fun i hi => by
            rw [shiftCols_length]
            exact (pixel_index w h i x c hi hx hc).1))
      have v2 := Blur.vPass_sim w h ((x + s) % w) c d _ hx' hc'
        (Blur.View_self (fun y => y * (w * 4) + (x + s) % w * 4 + c) h d
          (fun i hi => by
            rw [hlen]
            exact (pixel_index w h i _ c hi hx' hc).1))
      have e1 := v1.2.2 y hy
      have e2 := v2.2.2 y hy
      beta_reduce at e1 e2
      rw [e1, e2]
      congr 2
      apply List.map_congr_left
      intro i hi
      exact shiftCols_getD w h s d i x c (List.mem_range.1 hi) hx hc

end Effects

namespace Effects

/-! ## A lower bound on a rounded value -/

/-- Rounding never falls below a power of two: if `2^e ≤ a / q`, the rounded
magnitude is at least `2^e`. -/
theorem roundMag_ge_pow (a q e : Nat) (hq : 0 < q) (h : 2 ^ e * q ≤ a) :
    2 ^ e ≤ roundMag a q := by
  unfold roundMag
  have hM : 2 ^ e ≤ a / q := (Nat.le_div_iff_mul_le hq).2 h
  obtain ⟨hs1, hs2⟩ := dropBits_spec (a / q) (a / q) (Nat.le_refl _)
  generalize dropBits (a / q) (a / q) = s at hs1 hs2 ⊢
  simp only []
  have ht : a / (q * 2 ^ s) = a / q / 2 ^ s := (Nat.div_div_eq_div_mul a q (2 ^ s)).symm
  have hlow : 2 ^ e ≤ a / (q * 2 ^ s) * 2 ^ s := by
    rw [ht]
    rcases le_or_lt s e with hse | hse
    · obtain ⟨c, rfl⟩ := Nat.exists_eq_add_of_le hse
      have h1 : 2 ^ c ≤ a / q / 2 ^ s := by
        rw [Nat.le_div_iff_mul_le (Nat.two_pow_pos _)]
        calc 2 ^ c * 2 ^ s = 2 ^ (s + c) := by rw [Nat.pow_add]; ring
          _ ≤ a / q := hM
      calc 2 ^ (s + c) = 2 ^ c * 2 ^ s := by rw [Nat.pow_add]; ring
        _ ≤ a / q / 2 ^ s * 2 ^ s := Nat.mul_le_mul_right _ h1
    · have h23 : 2 ^ (23 + s) ≤ a / q := by
        rcases hs2 with h0 | h1
        · omega
        · exact h1
      have h1 : 2 ^ 23 ≤ a / q / 2 ^ s := by
        rw [Nat.le_div_iff_mul_le (Nat.two_pow_pos _)]
        calc 2 ^ 23 * 2 ^ s = 2 ^ (23 + s) := by rw [Nat.pow_add]
          _ ≤ a / q := h23
      calc 2 ^ e ≤ 2 ^ s := Nat.pow_le_pow_right (by norm_num) (by omega)
        _ = 1 * 2 ^ s := by ring
        _ ≤ a / q / 2 ^ s * 2 ^ s := Nat.mul_le_mul_right _ (by omega)
  split_ifs
  · calc 2 ^ e ≤ a / (q * 2 ^ s) * 2 ^ s := hlow
      _ ≤ (a / (q * 2 ^ s) + 1) * 2 ^ s := Nat.mul_le_mul_right _ (by omega)
  · exact hlow

theorem kBoxFactor_lower : (0 : Int) ≤ kBoxFactor ∧ 2 ^ 148 ≤ kBoxFactor.toNat * 7 := by
  decide!

/-- A sample of at least 7 contributes at least 1 to a full-kernel sum. -/
theorem Blur.term_pos (v : Nat) (h7 : 7 ≤ v) (hv : v ≤ 65535) : 1 ≤ Blur.term v := by
  obtain ⟨hk0, hk1⟩ := kBoxFactor_lower
  obtain ⟨_, hk2⟩ := kBoxFactor_facts
  have hk : kBoxFactor = ((kBoxFactor.toNat : Nat) : Int) := (Int.toNat_of_nonneg hk0).symm
  unfold Blur.term
  generalize kBoxFactor.toNat = k at hk hk1 hk2
  have hb24 : v ≤ 2 ^ 24 := le_trans hv (by norm_num)
  rw [hk, F32.ofInt_natCast v hb24, F32.mul_natCast]
  have hmu : roundMag (k * (v * 2 ^ 149)) (2 ^ 149) ≤ 20165 * 2 ^ 147 := by
    apply roundMag_le_rep _ _ _ _ (Nat.two_pow_pos _) (by norm_num)
    calc k * (v * 2 ^ 149) = k * v * 2 ^ 149 := by ring
      _ ≤ k * 65535 * 2 ^ 149 :=
        Nat.mul_le_mul_right _ (Nat.mul_le_mul_left _ hv)
      _ ≤ 20165 * 2 ^ 147 * 2 ^ 149 := Nat.mul_le_mul_right _ hk2
  have hm : 2 ^ 148 ≤ roundMag (k * (v * 2 ^ 149)) (2 ^ 149) := by
    apply roundMag_ge_pow _ _ _ (Nat.two_pow_pos _)
    calc 2 ^ 148 * 2 ^ 149 ≤ k * 7 * 2 ^ 149 := Nat.mul_le_mul_right _ hk1
      _ ≤ k * v * 2 ^ 149 := Nat.mul_le_mul_right _ (Nat.mul_le_mul_left _ h7)
      _ = k * (v * 2 ^ 149) := by ring
  generalize roundMag (k * (v * 2 ^ 149)) (2 ^ 149) = m at hm hmu
  unfold round_half
  rw [F32.half_natCast, F32.add_natCast]
  have hr : 2 ^ 149 ≤ roundMag (m + 2 ^ 148) 1 := by
    apply roundMag_ge_pow _ _ _ (by norm_num)
    have : (2 : Nat) ^ 149 = 2 ^ 148 + 2 ^ 148 := by norm_num
    omega
  have hru : roundMag (m + 2 ^ 148) 1 ≤ 20167 * 2 ^ 147 := by
    apply roundMag_le_rep _ _ _ _ (by norm_num) (by norm_num)
    have : (2 : Nat) ^ 148 = 2 * 2 ^ 147 := by norm_num
    omega
  generalize roundMag (m + 2 ^ 148) 1 = r at hr hru
  have hrange : r / 2 ^ 149 < 2 ^ 31 := by
    have h1 : r / 2 ^ 149 ≤ 20167 * 2 ^ 147 / 2 ^ 149 := Nat.div_le_div_right hru
    have h2 : 20167 * 2 ^ 147 / 2 ^ 149 = 5041 := by norm_num
    omega
  rw [F32.toInt_natCast r hrange, Int.toNat_ofNat]
  exact (Nat.le_div_iff_mul_le (Nat.two_pow_pos _)).2 (by omega)

end Effects

namespace Effects

/-! ## Bounds and zero fields, pass by pass -/

theorem Blur.hRowChk_fst (w y : Nat) (s : List Nat × Bool) :
    (Blur.hRowWith Blur.zeroChk Blur.tapChk Blur.slideChk w y s).1 = Blur.hRow w y s.1 := by
  rw [Blur.hRow_eq_with]
  unfold Blur.hRowWith
  simp only [forFrom]
  rw [forUp_map Prod.fst]
  · rw [forUp_map Prod.fst]
    · rfl
    · intro _ _; rfl
  · intro _ _; rfl

theorem Blur.vPassChk_fst (w h : Nat) (s : List Nat × Bool) :
    (Blur.vPassWith Blur.zeroChk Blur.tapChk Blur.slideChk w h s).1 = Blur.vPass w h s.1 := by
  rw [Blur.vPass_eq_with]
  unfold Blur.vPassWith
  simp only [forFrom]
  rw [forUp_map Prod.fst]
  · rw [forUp_map Prod.fst]
    · rw [forUp_map Prod.fst]
      intro _ _; rfl
    · intro _ u
      rw [forUp_map Prod.fst]
      intro _ _; rfl
  · intro _ u
    rw [forUp_map Prod.fst]
    intro _ _; rfl

/-- The horizontal pass keeps every sample in the 16-bit range. -/
theorem Blur.hPass_le (w h : Nat) (t : List Nat) (ht : ∀ j, t.getD j 0 ≤ 65535) :
    ∀ j, (forUp h (fun y t => Blur.hRow w y t) t).getD j 0 ≤ 65535 := by
  refine forUp_preserves (fun (u : List Nat) => ∀ j, u.getD j 0 ≤ 65535) h _ t ht ?_
  intro y u _ hu
  have hg := Blur.hRowChk_good w y (u, true) ⟨rfl, hu⟩
  rw [← Blur.hRowChk_fst w y (u, true)]
  exact hg.2

/-- The vertical pass keeps every sample in the 16-bit range. -/
theorem Blur.vPass_le (w h : Nat) (t : List Nat) (ht : ∀ j, t.getD j 0 ≤ 65535) :
    ∀ j, (Blur.vPass w h t).getD j 0 ≤ 65535 := by
  have hg := Blur.vPassChk_good w h (t, true) ⟨rfl, ht⟩
  rw [← Blur.vPassChk_fst w h (t, true)]
  exact hg.2

theorem mem_le_of_getD (d : List Nat) (B : Nat) (h : ∀ j, d.getD j 0 ≤ B) : ∀ v ∈ d, v ≤ B := by
  intro v hv
  obtain ⟨n, hn, rfl⟩ := List.getElem_of_mem hv
  have := h n
  rwa [List.getD_eq_getElem _ _ hn] at this

/-- The three kinds of store of `Blur` keep the active channels at 0. -/
theorem Blur.zero_steps :
    (∀ (l : List Nat) (i : Nat), (∀ j, j % 4 ≠ 3 → l.getD j 0 = 0) →
      ∀ j, j % 4 ≠ 3 → (l.set i 0).getD j 0 = 0) ∧
    (∀ (l : List Nat) (acc src : Nat), acc % 4 ≠ 3 → src % 4 ≠ 3 →
      (∀ j, j % 4 ≠ 3 → l.getD j 0 = 0) →
      ∀ j, j % 4 ≠ 3 → (Blur.tap acc src l).getD j 0 = 0) ∧
    (∀ (l : List Nat) (i a b c : Nat), 4 ≤ i → i % 4 ≠ 3 → a % 4 ≠ 3 → b % 4 ≠ 3 →
      c % 4 ≠ 3 → (∀ j, j % 4 ≠ 3 → l.getD j 0 = 0) →
      ∀ j, j % 4 ≠ 3 → (Blur.slide i a b c l).getD j 0 = 0) := by
  refine ⟨?_, ?_, ?_⟩
  · intro l i hl j hj
    rw [getD_set_nat]
    split_ifs
    · rfl
    · exact hl j hj
  · intro l acc src ha hs hl j hj
    unfold Blur.tap
    rw [getD_set_nat, hl acc ha, hl src hs, Blur.tap_zero]
    split_ifs
    · rfl
    · exact hl j hj
  · intro l i a b c _ _ ha hb hc hl j hj
    unfold Blur.slide
    rw [getD_set_nat, hl a ha, hl b hb, hl c hc, Blur.slide_zero]
    split_ifs
    · rfl
    · exact hl j hj

theorem Blur.hPass_zero (w h : Nat) (t : List Nat) (ht : ∀ j, j % 4 ≠ 3 → t.getD j 0 = 0) :
    ∀ j, j % 4 ≠ 3 → (forUp h (fun y t => Blur.hRow w y t) t).getD j 0 = 0 := by
  obtain ⟨HZ, HT, HS⟩ := Blur.zero_steps
  refine forUp_preserves (fun (u : List Nat) => ∀ j, j % 4 ≠ 3 → u.getD j 0 = 0) h _ t ht ?_
  intro y u _ hu
  exact Blur.hRow_preserves _ HT HS w y u (HZ _ _ (HZ _ _ (HZ _ _ hu)))

theorem Blur.vPass_zero (w h : Nat) (t : List Nat) (ht : ∀ j, j % 4 ≠ 3 → t.getD j 0 = 0) :
    ∀ j, j % 4 ≠ 3 → (Blur.vPass w h t).getD j 0 = 0 := by
  obtain ⟨HZ, HT, HS⟩ := Blur.zero_steps
  exact Blur.vPass_preserves _ HZ HT HS w h t ht

/-- The two iterations of `Blur`, pass by pass. -/
theorem Blur_passes (base : Frame Nat) :
    (Blur base).data =
      Blur.vPass base.width.toNat base.height.toNat
        (forUp base.height.toNat (fun y t => Blur.hRow base.width.toNat y t)
          (Blur.vPass base.width.toNat base.height.toNat
            (forUp base.height.toNat (fun y t => Blur.hRow base.width.toNat y t)
              base.data))) := rfl

/-- A buffer holds the line given by `f` at the indices `idx`. -/
theorem Blur.View_of_fun (idx : Nat → Nat) (n : Nat) (t : List Nat) (f : Nat → Nat)
    (hb : ∀ i, i < n → idx i < t.length) (hf : ∀ i, i < n → t.getD (idx i) 0 = f i) :
    Blur.View idx n t ((List.range n).map f) := by
  refine ⟨by simp, hb, fun i hi => ?_⟩
  rw [List.getD_eq_getElem?_getD ((List.range n).map _), List.getElem?_map,
    List.getElem?_range hi, hf i hi]
  rfl

theorem Blur.sideSum_ge (g : Int → Nat) : g 1 ≤ Blur.sideSum g := by
  simp only [Blur.sideSum, List.map_cons, List.map_nil, List.sum_cons, List.sum_nil]
  omega

end Effects

namespace Effects

/-! ## C18: `Blur` and cyclic shifts -/

theorem stripeFrame_getD (y x c : Nat) (hy : y < 13) (hx : x < 13) (hc : c < 4) :
    stripeFrame.data.getD (y * (13 * 4) + x * 4 + c) 0 =
      if x = 0 ∧ c < 3 then 13000 else 0 := by
  obtain ⟨h1, _, h3, _⟩ := pixel_index 13 13 y x c hy hx hc
  unfold stripeFrame
  simp only []
  rw [List.getD_eq_getElem?_getD, List.getElem?_map, List.getElem?_range (by omega)]
  simp only [Option.map_some', Option.getD_some]
  have h52 : (y * (13 * 4) + x * 4 + c) % 52 = x * 4 + c := by
    have : (13 * 4 : Nat) = 52 := by norm_num
    rw [this] at h3
    exact h3
  rw [h52]
  by_cases hx0 : x = 0 ∧ c < 3
  · rw [if_pos hx0, if_pos (by omega)]
  · rw [if_neg hx0, if_neg (by omega)]

theorem stripeFrame_length : stripeFrame.data.length = 13 * (13 * 4) := by
  simp [stripeFrame]

theorem Blur.line_stripe :
    (∀ x, x < 13 →
      (Blur.line 13 ((List.range 13).map (fun i => if i = 0 then 13000 else 0))).getD x 0 = 0) ∧
    (Blur.line 13 ((List.range 13).map (fun i => if i = 1 then 13000 else 0))).getD 1 0 = 1000 ∧
    (Blur.line 13 ((List.range 13).map (fun _ => 1000))).getD 1 0 = 960 ∧
    Blur.term 960 = 74 ∧ (modulo 1 13).toNat = 1 := by
  decide!

/-- On the frame whose column 0 alone is not zero, `Blur` leaves 0 in every
active channel: the horizontal pass zeroes element 0 of each row before it is
read. -/
theorem Blur_stripe_zero : ∀ j, j % 4 ≠ 3 → (Blur stripeFrame).data.getD j 0 = 0 := by
  have hB := Blur_passes stripeFrame
  have hw : stripeFrame.width.toNat = 13 := rfl
  have hh : stripeFrame.height.toNat = 13 := rfl
  rw [hw, hh] at hB
  have hV : ∀ j, j % 4 ≠ 3 →
      (forUp 13 (fun y t => Blur.hRow 13 y t) stripeFrame.data).getD j 0 = 0 := by
    intro j hj
    by_cases hlt : j < 13 * (13 * 4)
    · obtain ⟨y, x, c, hy, hx, hc, rfl⟩ := pixel_decomp 13 13 j hlt
      have hc4 := (pixel_index 13 13 y x c hy hx hc).2.2.2
      have hc3 : c < 3 := by omega
      have hv := Blur.hPass_sim 13 13 y c stripeFrame.data _ hy hc3
        (Blur.View_of_fun (fun x => y * (13 * 4) + x * 4 + c) 13 stripeFrame.data
          (fun i => if i = 0 then 13000 else 0)
          (fun i hi => by
            rw [stripeFrame_length]
            exact (pixel_index 13 13 y i c hy hi hc).1)
          (fun i hi => by
            beta_reduce
            rw [stripeFrame_getD y i c hy hi hc]
            by_cases hi0 : i = 0
            · rw [if_pos ⟨hi0, hc3⟩, if_pos hi0]
            · rw [if_neg (fun hh => hi0 hh.1), if_neg hi0]))
      have e := hv.2.2 x hx
      beta_reduce at e
      rw [e]
      exact Blur.line_stripe.1 x hx
    · apply getD_of_length_le
      rw [Blur.hPass_length, stripeFrame_length]
      omega
  intro j hj
  rw [hB]
  exact Blur.vPass_zero 13 13 _ (Blur.hPass_zero 13 13 _ (Blur.vPass_zero 13 13 _ hV)) j hj

theorem shifted_stripe_getD (y x c : Nat) (hy : y < 13) (hx : x < 13) (hc : c < 4) :
    (shiftCols 13 13 12 stripeFrame.data).getD (y * (13 * 4) + x * 4 + c) 0 =
      if x = 1 ∧ c < 3 then 13000 else 0 := by
  rw [shiftCols_getD 13 13 12 _ y x c hy hx hc,
    stripeFrame_getD y ((x + 12) % 13) c hy (Nat.mod_lt _ (by norm_num)) hc]
  by_cases hx1 : x = 1 ∧ c < 3
  · rw [if_pos hx1, if_pos ⟨by omega, hx1.2⟩]
  · rw [if_neg hx1, if_neg (by omega)]

/-- With the same column moved to column 1, `Blur` leaves at least 1 in the
first sample. -/
theorem Blur_shifted_stripe_pos :
    1 ≤ (Blur ⟨13, 13, shiftCols 13 13 12 stripeFrame.data, 0⟩).data.getD 0 0 := by
  rw [Blur_passes]
  have hw : ((13 : Int)).toNat = 13 := rfl
  simp only [hw]
  obtain ⟨_, hR1, hT1, hterm, hmod⟩ := Blur.line_stripe
  have hmod' : (modulo 1 ((13 : Nat) : Int)).toNat = 1 := hmod
  -- the buffers after each pass
  generalize hV : forUp 13 (fun y t => Blur.hRow 13 y t)
    (shiftCols 13 13 12 stripeFrame.data) = V
  generalize hT : Blur.vPass 13 13 V = T
  generalize hS : forUp 13 (fun y t => Blur.hRow 13 y t) T = S
  have hB1len : (shiftCols 13 13 12 stripeFrame.data).length = 13 * (13 * 4) :=
    shiftCols_length _ _ _ _
  have hVlen : V.length = 13 * (13 * 4) := by rw [← hV, Blur.hPass_length, hB1len]
  have hTlen : T.length = 13 * (13 * 4) := by rw [← hT, Blur.vPass_length, hVlen]
  have hSlen : S.length = 13 * (13 * 4) := by rw [← hS, Blur.hPass_length, hTlen]
  -- every sample stays in the 16-bit range
  have hB1le : ∀ j, (shiftCols 13 13 12 stripeFrame.data).getD j 0 ≤ 65535 := by
    intro j
    by_cases hlt : j < 13 * (13 * 4)
    · obtain ⟨y, x, c, hy, hx, hc, rfl⟩ := pixel_decomp 13 13 j hlt
      rw [shifted_stripe_getD y x c hy hx hc]
      split_ifs <;> omega
    · rw [getD_of_length_le _ _ (by rw [hB1len]; omega)]
      omega
  have hVle : ∀ j, V.getD j 0 ≤ 65535 := by rw [← hV]; exact Blur.hPass_le 13 13 _ hB1le
  have hTle : ∀ j, T.getD j 0 ≤ 65535 := by rw [← hT]; exact Blur.vPass_le 13 13 _ hVle
  have hSle : ∀ j, S.getD j 0 ≤ 65535 := by rw [← hS]; exact Blur.hPass_le 13 13 _ hTle
  -- pass 1: column 1 of every row holds 1000
  have hV1 : ∀ y, y < 13 → V.getD (y * (13 * 4) + 1 * 4 + 0) 0 = 1000 := by
    intro y hy
    have hv := Blur.hPass_sim 13 13 y 0 (shiftCols 13 13 12 stripeFrame.data) _ hy (by omega)
      (Blur.View_of_fun (fun x => y * (13 * 4) + x * 4 + 0) 13 _
        (fun i => if i = 1 then 13000 else 0)
        (fun i hi => by
          rw [hB1len]
          exact (pixel_index 13 13 y i 0 hy hi (by omega)).1)
        (fun i hi => by
          beta_reduce
          rw [shifted_stripe_getD y i 0 hy hi (by omega)]
          by_cases hi1 : i = 1
          · rw [if_pos ⟨hi1, by omega⟩, if_pos hi1]
          · rw [if_neg (fun hh => hi1 hh.1), if_neg hi1]))
    have e := hv.2.2 1 (by omega)
    beta_reduce at e
    rw [hV] at e
    rw [e]
    exact hR1
  -- pass 2: the sample of row 1, column 1 is 960
  have hT11 : T.getD (1 * (13 * 4) + 1 * 4 + 0) 0 = 960 := by
    have hv := Blur.vPass_sim 13 13 1 0 V _ (by omega) (by omega)
      (Blur.View_of_fun (fun y => y * (13 * 4) + 1 * 4 + 0) 13 V (fun _ => 1000)
        (fun i hi => by
          rw [hVlen]
          exact (pixel_index 13 13 i 1 0 hi (by omega) (by omega)).1)
        (fun i hi => hV1 i hi))
    have e := hv.2.2 1 (by omega)
    beta_reduce at e
    rw [hT] at e
    rw [e]
    exact hT1
  -- pass 3: the first sample of row 1 is at least 74
  have hS10 : 74 ≤ S.getD (1 * (13 * 4) + 0) 0 := by
    obtain ⟨centre, _, e⟩ := Blur.hPass_first 13 13 T (by omega) hTlen
      (mem_le_of_getD T 65535 hTle) 1 0 (by omega) (by omega)
    rw [hS] at e
    rw [e]
    have hge := Blur.sideSum_ge (fun i =>
      Blur.term (T.getD (1 * (13 * 4) + (modulo i ((13 : Nat) : Int)).toNat * 4 + 0) 0))
    beta_reduce at hge
    rw [hmod', hT11, hterm] at hge
    omega
  -- pass 4: the first sample is at least 1
  obtain ⟨centre, _, e⟩ := Blur.vPass_top 13 13 0 0 S (by omega) (by omega) (by omega)
    (le_of_eq hSlen.symm) (mem_le_of_getD S 65535 hSle)
  have e0 : (Blur.vPass 13 13 S).getD 0 0 = (Blur.vPass 13 13 S).getD (0 * 4 + 0) 0 := rfl
  rw [e0, e]
  have hge := Blur.sideSum_ge (fun i =>
    Blur.term (S.getD ((modulo i ((13 : Nat) : Int)).toNat * (13 * 4) + 0 * 4 + 0) 0))
  beta_reduce at hge
  rw [hmod'] at hge
  have hpos := Blur.term_pos (S.getD (1 * (13 * 4) + 0 * 4 + 0) 0)
    (by
      have : 1 * (13 * 4) + 0 * 4 + 0 = 1 * (13 * 4) + 0 := by norm_num
      rw [this]
      omega)
    (hSle _)
  omega

end Effects

namespace Effects

/-- Shifting the columns by 12 and then by 1 gives the 13-wide buffer back. -/
theorem shiftCols_back (d : List Nat) (hlen : d.length = 13 * (13 * 4)) :
    shiftCols 13 13 1 (shiftCols 13 13 12 d) = d := by
  apply list_eq_of_getD
  · rw [shiftCols_length, hlen]
  · intro j hj
    rw [shiftCols_length] at hj
    obtain ⟨y, x, c, hy, hx, hc, rfl⟩ := pixel_decomp 13 13 j hj
    rw [shiftCols_getD 13 13 1 _ y x c hy hx hc,
      shiftCols_getD 13 13 12 _ y _ c hy (Nat.mod_lt _ (by norm_num)) hc]
    have : ((x + 1) % 13 + 12) % 13 = x := by omega
    rw [this]

/-- C18. `Blur` is not equivariant under cyclic shifts. On the 13x13 frame
`stripeFrame` (column 0 holds 13000, everything else 0) and the cyclic shift by
12 columns, whose inverse is the shift by 1 column: blurring the shifted copy
and shifting the result back leaves at least 1 in channel 0 of pixel `(12, 0)`
(index 48), where blurring the original leaves 0.  Element 0 of every line is
zeroed in place before the full-kernel loop reads it, so a stripe in column 0
is lost and the same stripe in another column is not. -/
theorem Blur_not_shift_equivariant :
    shiftCols 13 13 1 (shiftCols 13 13 12 stripeFrame.data) = stripeFrame.data ∧
    (Blur stripeFrame).data.getD 48 0 = 0 ∧
    1 ≤ (shiftCols 13 13 1
      (Blur ⟨13, 13, shiftCols 13 13 12 stripeFrame.data, 0⟩).data).getD 48 0 := by
  refine ⟨shiftCols_back _ stripeFrame_length, Blur_stripe_zero 48 (by decide), ?_⟩
  have e := shiftCols_getD 13 13 1
    (Blur ⟨13, 13, shiftCols 13 13 12 stripeFrame.data, 0⟩).data 0 12 0
    (by decide) (by decide) (by decide)
  have i1 : 0 * (13 * 4) + 12 * 4 + 0 = 48 := by decide
  have i2 : 0 * (13 * 4) + (12 + 1) % 13 * 4 + 0 = 0 := by decide
  rw [i1, i2] at e
  rw [e]
  exact Blur_shifted_stripe_pos

/-- Each pass of `Blur` commutes with the cyclic shifts along the other
axis: for every 16-bit RGBA buffer of a `w`x`h` frame and every `s`,
the horizontal pass of the buffer shifted by `s` rows is the horizontal pass
shifted by `s` rows, and the vertical pass of the buffer shifted by `s` columns
is the vertical pass shifted by `s` columns. -/
theorem Blur_pass_commutes_with_cross_shift (w h s : Nat) (d : List Nat) (hw : 1 ≤ w)
    (hh : 1 ≤ h) (hlen : d.length = h * (w * 4)) :
    forUp h (fun y t => Blur.hRow w y t) (shiftRows w h s d) =
      shiftRows w h s (forUp h (fun y t => Blur.hRow w y t) d) ∧
    Blur.vPass w h (shiftCols w h s d) = shiftCols w h s (Blur.vPass w h d) :=
  ⟨Blur.hPass_shiftRows w h s d hh hlen, Blur.vPass_shiftCols w h s d hw hlen⟩

theorem Blur_pass_commutes_with_cross_shift_witness :
    (1 ≤ 2) ∧ ([10, 20, 30, 0, 40, 50, 60, 0, 70, 80, 90, 0, 100, 110, 120, 0] : List Nat).length
      = 2 * (2 * 4) ∧
    forUp 2 (fun y t => Blur.hRow 2 y t)
        (shiftRows 2 2 1 [10, 20, 30, 0, 40, 50, 60, 0, 70, 80, 90, 0, 100, 110, 120, 0]) =
      shiftRows 2 2 1 (forUp 2 (fun y t => Blur.hRow 2 y t)
        [10, 20, 30, 0, 40, 50, 60, 0, 70, 80, 90, 0, 100, 110, 120, 0]) ∧
    Blur.vPass 2 2
        (shiftCols 2 2 1 [10, 20, 30, 0, 40, 50, 60, 0, 70, 80, 90, 0, 100, 110, 120, 0]) =
      shiftCols 2 2 1 (Blur.vPass 2 2
        [10, 20, 30, 0, 40, 50, 60, 0, 70, 80, 90, 0, 100, 110, 120, 0]) :=
  ⟨by decide, by decide,
    Blur_pass_commutes_with_cross_shift 2 2 1
      [10, 20, 30, 0, 40, 50, 60, 0, 70, 80, 90, 0, 100, 110, 120, 0]
      (by decide) (by decide) (by decide)⟩

end Effects

namespace Effects

/-! ## C21: the taps of the three full-kernel loops -/

/-- C21. Kernel normalisation. The full-kernel loops of the colour blur and of
the vertical mask blur visit `kBoxSize = 13` and `kMaskBoxSizeY = 15` taps, both
odd, and taps times factor is `1.0f`. The full-kernel loop of the horizontal
mask blur visits the 9 taps `-4..4` while `kMaskBoxSizeX = 8` is even and the
factor is `1/8`: taps times factor is `9/8`, and on a row of nine `1.0` the
first element comes out above `1.0`. -/
theorem mask_horizontal_kernel_has_nine_taps :
    ((kernelTaps kHalfBox).length = kBoxSize ∧ kBoxSize % 2 = 1 ∧
      F32.mul (F32.ofInt (kernelTaps kHalfBox).length) kBoxFactor = F32.one) ∧
    ((kernelTaps kMaskHalfBoxY).length = kMaskBoxSizeY ∧ kMaskBoxSizeY % 2 = 1 ∧
      F32.mul (F32.ofInt (kernelTaps kMaskHalfBoxY).length) kMaskBoxFactorY = F32.one) ∧
    (kernelTaps kMaskHalfBoxX = [-4, -3, -2, -1, 0, 1, 2, 3, 4] ∧
      (kernelTaps kMaskHalfBoxX).length = 9 ∧ kMaskBoxSizeX = 8 ∧ kMaskBoxSizeX % 2 = 0 ∧
      8 * F32.mul (F32.ofInt (kernelTaps kMaskHalfBoxX).length) kMaskBoxFactorX = 9 * F32.one ∧
      F32.one < (BlurMask.hRow 9 0 (List.replicate 9 F32.one)).getD 0 0) := by
  decide!

/-! ## C23: the writes of the expand/downsample loop -/

theorem expandDownsample.pixel_eq (fd : List Nat) (w w16 y x : Nat) (d : List Nat) :
    expandDownsample.pixel fd w w16 y x d =
      ((d.set (expandDownsample.ihalf w16 y x + 0)
          ((fd.getD (y * w * kRgbChannels + x * kRgbChannels + 0) 0 <<< 8) % 65536)).set
        (expandDownsample.ihalf w16 y x + 1)
          ((fd.getD (y * w * kRgbChannels + x * kRgbChannels + 1) 0 <<< 8) % 65536)).set
        (expandDownsample.ihalf w16 y x + 2)
          ((fd.getD (y * w * kRgbChannels + x * kRgbChannels + 2) 0 <<< 8) % 65536) := rfl

/-- C23. Whenever the width or the height of the 8-bit frame is not a multiple
of 3, the index `ihalf + 0` written for the last source pixel
`(W - 1, H - 1)` is at least `(W div 3) * (H div 3) * 4`, the length of the
destination buffer: the write lands past the end of the buffer. -/
theorem downsample_writes_past_buffer (W H : Nat) (hW : 1 ≤ W) (hH : 1 ≤ H)
    (hnot : W % 3 ≠ 0 ∨ H % 3 ≠ 0) :
    (W / 3) * (H / 3) * 4 ≤ expandDownsample.ihalf (W / 3) (H - 1) (W - 1) + 0 := by
  unfold expandDownsample.ihalf
  simp only [show kDownsampleFactor = 3 from rfl, show kRgbChannels = 4 from rfl]
  by_cases hH3 : H % 3 = 0
  · have hW3 : W % 3 ≠ 0 := by
      rcases hnot with h | h
      · exact h
      · exact absurd hH3 h
    have e1 : (W - 1) / 3 = W / 3 := by omega
    have e2 : (H - 1) / 3 + 1 = H / 3 := by omega
    rw [e1, ← e2]
    have : ((H - 1) / 3 + 1) * (W / 3) = (H - 1) / 3 * (W / 3) + W / 3 := by ring
    have c : W / 3 * ((H - 1) / 3 + 1) = ((H - 1) / 3 + 1) * (W / 3) := Nat.mul_comm _ _
    rw [c, this]
    omega
  · have e2 : (H - 1) / 3 = H / 3 := by omega
    rw [e2, Nat.mul_comm (W / 3) (H / 3)]
    omega

/-- C23 on the 4x4 frame: the destination holds 4 samples and the last source
pixel is written at index 8. -/
theorem downsample_writes_past_buffer_witness :
    (1 ≤ 4) ∧ (4 % 3 ≠ 0 ∨ 4 % 3 ≠ 0) ∧
    (4 / 3) * (4 / 3) * 4 ≤ expandDownsample.ihalf (4 / 3) (4 - 1) (4 - 1) + 0 :=
  ⟨by decide, by decide,
    downsample_writes_past_buffer 4 4 (by decide) (by decide) (by decide)⟩

/-! ## C26: the wraparound index -/

/-- C26. For every 32-bit `a` and every `m` with `1 ≤ m ≤ 2^30`, the
intermediate sum `(a % m) + m` of `modulo(a, m)` fits in 32 bits, the result
lies in `[0, m)` and it is congruent to `a` modulo `m`. -/
theorem modulo_spec (a m : Int) (ha : -2 ^ 31 ≤ a ∧ a < 2 ^ 31) (hm : 1 ≤ m ∧ m ≤ 2 ^ 30) :
    (-2 ^ 31 ≤ Int.tmod a m + m ∧ Int.tmod a m + m < 2 ^ 31) ∧
    0 ≤ modulo a m ∧ modulo a m < m ∧ m ∣ modulo a m - a := by
  have hpos : 0 < m := by omega
  have hup := Int.tmod_lt_of_pos a hpos
  have hlo : -m < Int.tmod a m := by
    rcases le_or_lt 0 a with h0 | h0
    · have := Int.tmod_nonneg m h0
      omega
    · rw [tmod_of_nonpos a m (by omega) hpos]
      have := Int.emod_lt_of_pos (-a) hpos
      omega
  obtain ⟨r0, r1⟩ := modulo_range a m hpos
  refine ⟨⟨by omega, by omega⟩, r0, r1, ?_⟩
  unfold modulo
  rw [Int.tmod_def (Int.tmod a m + m) m, Int.tmod_def a m]
  exact ⟨1 - a.tdiv m - (a - m * a.tdiv m + m).tdiv m, by ring⟩

/-- C26 at `a = -7`, `m = 5`: the wrapped index is 3. -/
theorem modulo_spec_witness :
    ((-2 ^ 31 ≤ Int.tmod (-7) 5 + 5 ∧ Int.tmod (-7) 5 + 5 < 2 ^ 31) ∧
    0 ≤ modulo (-7) 5 ∧ modulo (-7) 5 < 5 ∧ (5 : Int) ∣ modulo (-7) 5 - (-7)) ∧
    modulo (-7) 5 = 3 :=
  ⟨modulo_spec (-7) 5 (by decide) (by decide), by decide⟩

/-! ## C28: identity mask on the visual channels -/

/-- C28. For every frame word, every background word and a mask sample of
exactly `1.0`, the R, G and B bytes (bits `[0:8)`, `[8:16)`, `[16:24)`) of the
word that `BackgroundMask` writes are those of the frame word. -/
theorem blend_one_keeps_rgb (frame_color bg_color : Nat) :
    (BackgroundMask.blend frame_color bg_color F32.one >>> 0) % 256 =
      (frame_color >>> 0) % 256 ∧
    (BackgroundMask.blend frame_color bg_color F32.one >>> 8) % 256 =
      (frame_color >>> 8) % 256 ∧
    (BackgroundMask.blend frame_color bg_color F32.one >>> 16) % 256 =
      (frame_color >>> 16) % 256 := by
  have key : ∀ b f : Nat, b < 256 → f < 256 →
      BackgroundMask.mix ((b : Nat) : Int) ((f : Nat) : Int) F32.one = f := by
    intro b f hb hf
    rw [mix_one _ _ (by omega) (by omega) (by omega) (by omega), Int.toNat_ofNat]
  rw [blend_eq, key _ _ (Nat.mod_lt _ (by norm_num)) (Nat.mod_lt _ (by norm_num)),
    key _ _ (Nat.mod_lt _ (by norm_num)) (Nat.mod_lt _ (by norm_num)),
    key _ _ (Nat.mod_lt _ (by norm_num)) (Nat.mod_lt _ (by norm_num))]
  obtain ⟨w0, w1, w2, _⟩ := word_bytes (frame_color % 256) (frame_color / 256 % 256)
    (frame_color / 65536 % 256) (by omega) (by omega) (by omega)
  simp only [Nat.shiftRight_eq_div_pow] at w0 w1 w2 ⊢
  norm_num at w0 w1 w2 ⊢
  omega

end Effects

namespace Effects

/-! ## `BlurMask`: which samples a pass depends on -/

theorem getD_set_eq {α : Type} (l : List α) (i j : Nat) (v d : α) :
    (l.set i v).getD j d = if i = j ∧ i < l.length then v else l.getD j d := by
  simp only [List.getD_eq_getElem?_getD, List.getElem?_set]
  by_cases h : i = j
  · subst h
    by_cases hl : i < l.length
    · simp [hl]
    · have : l[i]? = none := List.getElem?_eq_none (by omega)
      simp [hl, this]
  · simp [h]

/-- A store of values that are equal wherever the index is in `S` keeps two
buffers in agreement on `S`. -/
theorem AgreeOn.set (S : Nat → Prop) (t1 t2 : List F32) (i : Nat) (v1 v2 : F32)
    (h : AgreeOn S t1 t2) (hv : S i → v1 = v2) :
    AgreeOn S (t1.set i v1) (t2.set i v2) := by
  obtain ⟨hl, hg⟩ := h
  refine ⟨by simp [hl], fun j hj => ?_⟩
  rw [getD_set_eq, getD_set_eq, hl]
  by_cases hc : i = j ∧ i < t2.length
  · rw [if_pos hc, if_pos hc]
    exact hv (by rw [hc.1]; exact hj)
  · rw [if_neg hc, if_neg hc]
    exact hg j hj

theorem AgreeOn.mono (S T : Nat → Prop) (t1 t2 : List F32) (h : AgreeOn S t1 t2)
    (hST : ∀ j, T j → S j) : AgreeOn T t1 t2 :=
  ⟨h.1, fun j hj => h.2 j (hST j hj)⟩

theorem row_of_index (w y r : Nat) (hr : r < w) : (y * w + r) / w = y ∧ (y * w + r) % w = r := by
  constructor
  · rw [Nat.add_comm, Nat.add_mul_div_right _ _ (by omega), Nat.div_eq_of_lt hr, Nat.zero_add]
  · rw [Nat.add_comm, Nat.add_mul_mod_self_right, Nat.mod_eq_of_lt hr]

/-- The horizontal pass of `BlurMask` on row `y` reads and writes row `y` only:
it keeps two buffers in agreement on any set of whole rows. -/
theorem BlurMask.hRow_agree (w y : Nat) (P : Nat → Prop) (hw : 1 ≤ w) (t1 t2 : List F32)
    (h : AgreeOn (fun j => P (j / w)) t1 t2) :
    AgreeOn (fun j => P (j / w)) (BlurMask.hRow w y t1) (BlurMask.hRow w y t2) := by
  unfold BlurMask.hRow
  simp only []
  have hrow : ∀ r, r < w → (y * w + r) / w = y := fun r hr => (row_of_index w y r hr).1
  have hrow0 : y * w / w = y := by
    have := hrow 0 (by omega)
    rwa [Nat.add_zero] at this
  unfold forFrom
  refine forUp_rel (AgreeOn (fun j => P (j / w))) _ _ _ _ _ ?_ ?_
  · refine forUp_rel (AgreeOn (fun j => P (j / w))) _ _ _ _ _ ?_ ?_
    · exact AgreeOn.set _ _ _ _ _ _ h (fun _ => rfl)
    · intro i u v _ huv
      have hm := modulo_range (-(kMaskHalfBoxX : Int) + (i : Int)) w (by omega)
      refine AgreeOn.set _ _ _ _ _ _ huv (fun hS => ?_)
      beta_reduce at hS
      rw [hrow0] at hS
      rw [huv.2 (y * w) (by beta_reduce; rw [hrow0]; exact hS),
        huv.2 (y * w + (modulo (-(kMaskHalfBoxX : Int) + (i : Int)) w).toNat)
          (by beta_reduce; rw [hrow _ (by omega)]; exact hS)]
  · intro i u v hi huv
    have hmn := modulo_range (1 + (i : Int) - (kMaskHalfBoxX : Int) - 1) w (by omega)
    have hmx := modulo_range (1 + (i : Int) + (kMaskHalfBoxX : Int) + 1) w (by omega)
    refine AgreeOn.set _ _ _ _ _ _ huv (fun hS => ?_)
    beta_reduce at hS
    rw [hrow _ (by omega)] at hS
    have e : y * w + (1 + (i : Int)).toNat - 1 = y * w + ((1 + (i : Int)).toNat - 1) := by omega
    rw [e, huv.2 (y * w + ((1 + (i : Int)).toNat - 1))
        (by beta_reduce; rw [hrow _ (by omega)]; exact hS),
      huv.2 (y * w + (modulo (1 + (i : Int) - (kMaskHalfBoxX : Int) - 1) w).toNat)
        (by beta_reduce; rw [hrow _ (by omega)]; exact hS),
      huv.2 (y * w + (modulo (1 + (i : Int) + (kMaskHalfBoxX : Int) + 1) w).toNat)
        (by beta_reduce; rw [hrow _ (by omega)]; exact hS)]

/-- The horizontal pass of `BlurMask` over all rows keeps two buffers in
agreement on any set of whole rows. -/
theorem BlurMask.hPass_agree (w h : Nat) (P : Nat → Prop) (hw : 1 ≤ w) (t1 t2 : List F32)
    (hag : AgreeOn (fun j => P (j / w)) t1 t2) :
    AgreeOn (fun j => P (j / w)) (forUp h (fun y t => BlurMask.hRow w y t) t1)
      (forUp h (fun y t => BlurMask.hRow w y t) t2) :=
  forUp_rel (AgreeOn (fun j => P (j / w))) h _ _ t1 t2 hag
    (fun y u v _ huv => BlurMask.hRow_agree w y P hw u v huv)

end Effects

namespace Effects

/-- The wrapped index of a value already in `[0, m)` is the value itself. -/
theorem modulo_of_lt (a m : Int) (h0 : 0 ≤ a) (h1 : a < m) : modulo a m = a := by
  unfold modulo
  rw [Int.tmod_eq_of_lt h0 h1, Int.tmod_eq_emod (by omega) (by omega), Int.add_emod_self,
    Int.emod_eq_of_lt h0 h1]

/-- The vertical pass of `BlurMask` reads and writes, for each sample, its own
column only: it keeps two buffers in agreement on any set of whole columns of
the `w`x`h` grid. -/
theorem BlurMask.vPass_agree (w h : Nat) (Q : Nat → Prop) (hh : 1 ≤ h)
    (t1 t2 : List F32) (hag : AgreeOn (fun j => j / w < h ∧ Q (j % w)) t1 t2) :
    AgreeOn (fun j => j / w < h ∧ Q (j % w)) (BlurMask.vPass w h t1) (BlurMask.vPass w h t2) := by
  unfold BlurMask.vPass
  simp only []
  have hsmall : ∀ x, x < w → x / w = 0 ∧ x % w = x :=
    fun x hx => ⟨Nat.div_eq_of_lt hx, Nat.mod_eq_of_lt hx⟩
  unfold forFrom
  refine forUp_rel (AgreeOn (fun j => j / w < h ∧ Q (j % w))) _ _ _ _ _ ?_ ?_
  · refine forUp_rel (AgreeOn (fun j => j / w < h ∧ Q (j % w))) _ _ _ _ _ ?_ ?_
    · refine forUp_rel (AgreeOn (fun j => j / w < h ∧ Q (j % w))) _ _ _ _ _ hag ?_
      intro x u v _ huv
      exact AgreeOn.set _ _ _ _ _ _ huv (fun _ => rfl)
    · intro i u v _ huv
      have hm := modulo_range (((-(kMaskHalfBoxY : Int) + (i : Int)).natAbs : Nat) : Int) h
        (by omega)
      beta_reduce
      generalize hwyd :
        (modulo (((-(kMaskHalfBoxY : Int) + (i : Int)).natAbs : Nat) : Int) h).toNat = wy
      have hwy : wy < h := by omega
      refine forUp_rel (AgreeOn (fun j => j / w < h ∧ Q (j % w))) _ _ _ _ _ huv ?_
      intro x u v hx huv
      refine AgreeOn.set _ _ _ _ _ _ huv (fun hS => ?_)
      beta_reduce at hS
      rw [(hsmall x hx).2] at hS
      rw [huv.2 x (by beta_reduce; rw [(hsmall x hx).1, (hsmall x hx).2]; exact ⟨by omega, hS.2⟩),
        huv.2 (wy * w + x) (by
          beta_reduce
          rw [(row_of_index w wy x hx).1, (row_of_index w wy x hx).2]
          exact ⟨hwy, hS.2⟩)]
  · intro i u v hi huv
    have hmn := modulo_range (1 + (i : Int) - (kMaskHalfBoxY : Int) - 1) h (by omega)
    have hmx := modulo_range (1 + (i : Int) + (kMaskHalfBoxY : Int) + 1) h (by omega)
    beta_reduce
    generalize hmnd : (modulo (1 + (i : Int) - (kMaskHalfBoxY : Int) - 1) h).toNat = mn
    generalize hmxd : (modulo (1 + (i : Int) + (kMaskHalfBoxY : Int) + 1) h).toNat = mx
    have hmnh : mn < h := by omega
    have hmxh : mx < h := by omega
    have hY1 : 1 ≤ (1 + (i : Int)).toNat := by omega
    have hYh : (1 + (i : Int)).toNat < h := by omega
    generalize (1 + (i : Int)).toNat = Y at hY1 hYh
    have hlast : Y * w - w = (Y - 1) * w := (Nat.sub_one_mul Y w).symm
    rw [hlast]
    refine forUp_rel (AgreeOn (fun j => j / w < h ∧ Q (j % w))) _ _ _ _ _ huv ?_
    intro x u v hx huv
    refine AgreeOn.set _ _ _ _ _ _ huv (fun hS => ?_)
    beta_reduce at hS
    rw [(row_of_index w Y x hx).2] at hS
    have key : ∀ r, r < h → u.getD (r * w + x) 0 = v.getD (r * w + x) 0 := by
      intro r hr
      exact huv.2 (r * w + x) (by
        beta_reduce
        rw [(row_of_index w r x hx).1, (row_of_index w r x hx).2]
        exact ⟨hr, hS.2⟩)
    rw [key (Y - 1) (by omega), key mn hmnh, key mx hmxh]

/-- The top row after `BlurMask` is determined by rows `0..7` of the input. -/
theorem BlurMask.top_row_agree (w h : Nat) (hw : 1 ≤ w) (hh : 7 < h) (t1 t2 : List F32)
    (hag : AgreeOn (fun j => j / w ≤ 7) t1 t2) :
    AgreeOn (fun j => j < w)
      (BlurMask.vPass w h (forUp h (fun y t => BlurMask.hRow w y t) t1))
      (BlurMask.vPass w h (forUp h (fun y t => BlurMask.hRow w y t) t2)) := by
  have hrows := BlurMask.hPass_agree w h (fun r => r ≤ 7) hw t1 t2 hag
  generalize forUp h (fun y t => BlurMask.hRow w y t) t1 = u1 at hrows
  generalize forUp h (fun y t => BlurMask.hRow w y t) t2 = u2 at hrows
  unfold BlurMask.vPass
  simp only []
  have hsmall : ∀ x, x < w → x / w = 0 := fun x hx => Nat.div_eq_of_lt hx
  unfold forFrom
  refine forUp_rel (AgreeOn (fun j => j < w)) _ _ _ _ _ ?_ ?_
  · refine AgreeOn.mono (fun j => j / w ≤ 7) _ _ _ ?_ (fun j hj => by
      beta_reduce
      rw [hsmall j hj]
      omega)
    refine forUp_rel (AgreeOn (fun j => j / w ≤ 7)) _ _ _ _ _ ?_ ?_
    · refine forUp_rel (AgreeOn (fun j => j / w ≤ 7)) _ _ _ _ _ hrows ?_
      intro x u v _ huv
      exact AgreeOn.set _ _ _ _ _ _ huv (fun _ => rfl)
    · intro i u v hi huv
      have hk : kMaskHalfBoxY = 7 := rfl
      have hi15 : i < 15 := hi
      have hna : (((-(kMaskHalfBoxY : Int) + (i : Int)).natAbs : Nat) : Int) ≤ 7 := by omega
      have hmod := modulo_of_lt (((-(kMaskHalfBoxY : Int) + (i : Int)).natAbs : Nat) : Int) h
        (by omega) (by omega)
      beta_reduce
      rw [hmod, Int.toNat_ofNat]
      generalize (-(kMaskHalfBoxY : Int) + (i : Int)).natAbs = wy at hna
      refine forUp_rel (AgreeOn (fun j => j / w ≤ 7)) _ _ _ _ _ huv ?_
      intro x u v hx huv
      refine AgreeOn.set _ _ _ _ _ _ huv (fun _ => ?_)
      rw [huv.2 x (by beta_reduce; rw [hsmall x hx]; omega),
        huv.2 (wy * w + x) (by
          beta_reduce
          rw [(row_of_index w wy x hx).1]
          omega)]
  · intro i u v hi huv
    beta_reduce
    have hY1 : 1 ≤ (1 + (i : Int)).toNat := by omega
    generalize (1 + (i : Int)).toNat = Y at hY1
    refine forUp_rel (AgreeOn (fun j => j < w)) _ _ _ _ _ huv ?_
    intro x u v hx huv
    refine AgreeOn.set _ _ _ _ _ _ huv (fun hS => ?_)
    beta_reduce at hS
    have : w ≤ Y * w := Nat.le_mul_of_pos_left _ (by omega)
    omega

end Effects

namespace Effects

/-- The single iteration of `BlurMask`, pass by pass. -/
theorem BlurMask_passes (mask : Frame F32) :
    (BlurMask mask).data =
      BlurMask.vPass mask.width.toNat mask.height.toNat
        (forUp mask.height.toNat (fun y t => BlurMask.hRow mask.width.toNat y t) mask.data) :=
  rfl

/-! ## C22: no bleed from the bottom of the mask into the top row -/

/-- C22. For every mask of height above 7, two masks of the same size that
agree on rows `0..7` have the same top row after `BlurMask`. -/
theorem BlurMask_no_bottom_bleed (w h : Nat) (d1 d2 : List F32) (s1 s2 : Int) (hh : 7 < h)
    (hlen : d1.length = d2.length)
    (hagree : ∀ y, y < 8 → ∀ x, x < w → d1.getD (y * w + x) 0 = d2.getD (y * w + x) 0) :
    ∀ x, x < w → (BlurMask ⟨w, h, d1, s1⟩).data.getD x 0 =
      (BlurMask ⟨w, h, d2, s2⟩).data.getD x 0 := by
  intro x hx
  rw [BlurMask_passes, BlurMask_passes]
  simp only [Int.toNat_ofNat]
  have hag : AgreeOn (fun j => j / w ≤ 7) d1 d2 := by
    refine ⟨hlen, fun j hj => ?_⟩
    have e := Nat.div_add_mod' j w
    have hm : j % w < w := Nat.mod_lt _ (by omega)
    rw [← e]
    exact hagree (j / w) (by omega) (j % w) hm
  exact (BlurMask.top_row_agree w h (by omega) hh d1 d2 hag).2 x hx

/-- C22 on two 3x9 masks that are `1.0` on rows 0..7 and differ in the bottom
row: the top rows of the two results are equal (and not zero), while the
bottom rows of the results differ. -/
theorem BlurMask_no_bottom_bleed_witness :
    (7 < 9) ∧ onesOverZeroRow.length = onesMask27.length ∧
    (∀ y, y < 8 → ∀ x, x < 3 →
      onesOverZeroRow.getD (y * 3 + x) 0 = onesMask27.getD (y * 3 + x) 0) ∧
    (∀ x, x < 3 →
      (BlurMask ⟨(3 : Nat), (9 : Nat), onesOverZeroRow, 0⟩).data.getD x 0 =
        (BlurMask ⟨(3 : Nat), (9 : Nat), onesMask27, 0⟩).data.getD x 0) ∧
    0 < (BlurMask ⟨(3 : Nat), (9 : Nat), onesOverZeroRow, 0⟩).data.getD 1 0 ∧
    (BlurMask ⟨(3 : Nat), (9 : Nat), onesOverZeroRow, 0⟩).data.getD 26 0 ≠
      (BlurMask ⟨(3 : Nat), (9 : Nat), onesMask27, 0⟩).data.getD 26 0 :=
  ⟨by decide, by decide, by decide!,
    BlurMask_no_bottom_bleed 3 9 onesOverZeroRow onesMask27 0 0
      (by decide) (by decide) (by decide!), by decide!, by decide!⟩

/-! ## `Blur`: which samples a pass depends on -/

/-- Two buffers that agree on a channel of a row agree on it after the
horizontal pass of `Blur`. -/
theorem Blur.hPass_row_agree (w h y c : Nat) (t1 t2 : List Nat) (hy : y < h) (hc : c < 4)
    (hl1 : t1.length = h * (w * 4)) (hl2 : t2.length = h * (w * 4))
    (hag : ∀ x, x < w → t1.getD (y * (w * 4) + x * 4 + c) 0 = t2.getD (y * (w * 4) + x * 4 + c) 0) :
    ∀ x, x < w → (forUp h (fun y t => Blur.hRow w y t) t1).getD (y * (w * 4) + x * 4 + c) 0 =
      (forUp h (fun y t => Blur.hRow w y t) t2).getD (y * (w * 4) + x * 4 + c) 0 := by
  intro x hx
  by_cases hc3 : c = 3
  · subst hc3
    rw [Blur.hPass_fourth _ _ _ _ (pixel_index w h y x 3 hy hx hc).2.2.2,
      Blur.hPass_fourth _ _ _ _ (pixel_index w h y x 3 hy hx hc).2.2.2]
    exact hag x hx
  · have hc' : c < 3 := by omega
    have v1 := Blur.hPass_sim w h y c t1 _ hy hc'
      (Blur.View_self (fun x => y * (w * 4) + x * 4 + c) w t1
        (fun i hi => by rw [hl1]; exact (pixel_index w h y i c hy hi hc).1))
    have v2 := Blur.hPass_sim w h y c t2 _ hy hc'
      (Blur.View_of_fun (fun x => y * (w * 4) + x * 4 + c) w t2
        (fun i => t1.getD (y * (w * 4) + i * 4 + c) 0)
        (fun i hi => by rw [hl2]; exact (pixel_index w h y i c hy hi hc).1)
        (fun i hi => (hag i hi).symm))
    have e1 := v1.2.2 x hx
    have e2 := v2.2.2 x hx
    beta_reduce at e1 e2
    rw [e1, e2]

/-- Two buffers that agree on a channel of a column agree on it after the
vertical pass of `Blur`. -/
theorem Blur.vPass_col_agree (w h x c : Nat) (t1 t2 : List Nat) (hx : x < w) (hc : c < 4)
    (hl1 : t1.length = h * (w * 4)) (hl2 : t2.length = h * (w * 4))
    (hag : ∀ y, y < h → t1.getD (y * (w * 4) + x * 4 + c) 0 = t2.getD (y * (w * 4) + x * 4 + c) 0) :
    ∀ y, y < h → (Blur.vPass w h t1).getD (y * (w * 4) + x * 4 + c) 0 =
      (Blur.vPass w h t2).getD (y * (w * 4) + x * 4 + c) 0 := by
  intro y hy
  by_cases hc3 : c = 3
  · subst hc3
    rw [Blur.vPass_fourth _ _ _ _ (pixel_index w h y x 3 hy hx hc).2.2.2,
      Blur.vPass_fourth _ _ _ _ (pixel_index w h y x 3 hy hx hc).2.2.2]
    exact hag y hy
  · have hc' : c < 3 := by omega
    have v1 := Blur.vPass_sim w h x c t1 _ hx hc'
      (Blur.View_self (fun y => y * (w * 4) + x * 4 + c) h t1
        (fun i hi => by rw [hl1]; exact (pixel_index w h i x c hi hx hc).1))
    have v2 := Blur.vPass_sim w h x c t2 _ hx hc'
      (Blur.View_of_fun (fun y => y * (w * 4) + x * 4 + c) h t2
        (fun i => t1.getD (i * (w * 4) + x * 4 + c) 0)
        (fun i hi => by rw [hl2]; exact (pixel_index w h i x c hi hx hc).1)
        (fun i hi => (hag i hi).symm))
    have e1 := v1.2.2 y hy
    have e2 := v2.2.2 y hy
    beta_reduce at e1 e2
    rw [e1, e2]

/-! ## C25: line independence -/

/-- C25. Line independence. For two colour buffers of the same `w`x`h` frame
size and two masks of the same length: buffers that agree on a row agree on
that row after the horizontal pass (of `Blur`, all four channels, and of
`BlurMask`), and buffers that agree on a column (per channel for `Blur`) agree
on that column after the vertical pass. -/
theorem passes_are_line_independent (w h : Nat) (b1 b2 : List Nat) (m1 m2 : List F32)
    (hb1 : b1.length = h * (w * 4)) (hb2 : b2.length = h * (w * 4))
    (hm : m1.length = m2.length) :
    (∀ y, y < h →
      (∀ x c, x < w → c < 4 →
        b1.getD (y * (w * 4) + x * 4 + c) 0 = b2.getD (y * (w * 4) + x * 4 + c) 0) →
      ∀ x c, x < w → c < 4 →
        (forUp h (fun y t => Blur.hRow w y t) b1).getD (y * (w * 4) + x * 4 + c) 0 =
          (forUp h (fun y t => Blur.hRow w y t) b2).getD (y * (w * 4) + x * 4 + c) 0) ∧
    (∀ x c, x < w → c < 4 →
      (∀ y, y < h →
        b1.getD (y * (w * 4) + x * 4 + c) 0 = b2.getD (y * (w * 4) + x * 4 + c) 0) →
      ∀ y, y < h →
        (Blur.vPass w h b1).getD (y * (w * 4) + x * 4 + c) 0 =
          (Blur.vPass w h b2).getD (y * (w * 4) + x * 4 + c) 0) ∧
    (∀ y, y < h →
      (∀ x, x < w → m1.getD (y * w + x) 0 = m2.getD (y * w + x) 0) →
      ∀ x, x < w →
        (forUp h (fun y t => BlurMask.hRow w y t) m1).getD (y * w + x) 0 =
          (forUp h (fun y t => BlurMask.hRow w y t) m2).getD (y * w + x) 0) ∧
    (∀ x, x < w →
      (∀ y, y < h → m1.getD (y * w + x) 0 = m2.getD (y * w + x) 0) →
      ∀ y, y < h →
        (BlurMask.vPass w h m1).getD (y * w + x) 0 =
          (BlurMask.vPass w h m2).getD (y * w + x) 0) := by
  refine ⟨?_, ?_, ?_, ?_⟩
  · intro y hy hag x c hx hc
    exact Blur.hPass_row_agree w h y c b1 b2 hy hc hb1 hb2 (fun i hi => hag i c hi hc) x hx
  · intro x c hx hc hag y hy
    exact Blur.vPass_col_agree w h x c b1 b2 hx hc hb1 hb2 hag y hy
  · intro y _ hag x hx
    have hw : 1 ≤ w := by omega
    have hA : AgreeOn (fun j => j / w = y) m1 m2 := by
      refine ⟨hm, fun j hj => ?_⟩
      beta_reduce at hj
      have e := Nat.div_add_mod' j w
      have hlt : j % w < w := Nat.mod_lt _ (by omega)
      rw [← e, hj]
      exact hag (j % w) hlt
    exact (BlurMask.hPass_agree w h (fun r => r = y) hw m1 m2 hA).2 (y * w + x)
      (row_of_index w y x hx).1
  · intro x hx hag y hy
    have hA : AgreeOn (fun j => j / w < h ∧ j % w = x) m1 m2 := by
      refine ⟨hm, fun j hj => ?_⟩
      beta_reduce at hj
      have e := Nat.div_add_mod' j w
      rw [← e, hj.2]
      exact hag (j / w) hj.1
    exact (BlurMask.vPass_agree w h (fun r => r = x) (by omega) m1 m2 hA).2 (y * w + x)
      ⟨by rw [(row_of_index w y x hx).1]; exact hy, (row_of_index w y x hx).2⟩

/-- C25 on a 2x2 frame and a 2x2 mask. -/
theorem passes_are_line_independent_witness :
    ([1, 2, 3, 4, 5, 6, 7, 8, 9, 10, 11, 12, 13, 14, 15, 16] : List Nat).length = 2 * (2 * 4) ∧
    ([1, 2, 3, 4, 5, 6, 7, 8, 0, 0, 0, 0, 0, 0, 0, 0] : List Nat).length = 2 * (2 * 4) ∧
    ([1, 2, 3, 4] : List F32).length = ([1, 2, 9, 9] : List F32).length ∧
    ((∀ x c, x < 2 → c < 4 →
        ([1, 2, 3, 4, 5, 6, 7, 8, 9, 10, 11, 12, 13, 14, 15, 16] : List Nat).getD
          (0 * (2 * 4) + x * 4 + c) 0 =
        ([1, 2, 3, 4, 5, 6, 7, 8, 0, 0, 0, 0, 0, 0, 0, 0] : List Nat).getD
          (0 * (2 * 4) + x * 4 + c) 0) →
      ∀ x c, x < 2 → c < 4 →
        (forUp 2 (fun y t => Blur.hRow 2 y t)
          [1, 2, 3, 4, 5, 6, 7, 8, 9, 10, 11, 12, 13, 14, 15, 16]).getD
            (0 * (2 * 4) + x * 4 + c) 0 =
        (forUp 2 (fun y t => Blur.hRow 2 y t)
          [1, 2, 3, 4, 5, 6, 7, 8, 0, 0, 0, 0, 0, 0, 0, 0]).getD
            (0 * (2 * 4) + x * 4 + c) 0) ∧
    ((∀ x, x < 2 → ([1, 2, 3, 4] : List F32).getD (0 * 2 + x) 0 =
        ([1, 2, 9, 9] : List F32).getD (0 * 2 + x) 0) →
      ∀ x, x < 2 →
        (forUp 2 (fun y t => BlurMask.hRow 2 y t) [1, 2, 3, 4]).getD (0 * 2 + x) 0 =
          (forUp 2 (fun y t => BlurMask.hRow 2 y t) [1, 2, 9, 9]).getD (0 * 2 + x) 0) :=
  ⟨by decide, by decide, by decide,
    (passes_are_line_independent 2 2 [1, 2, 3, 4, 5, 6, 7, 8, 9, 10, 11, 12, 13, 14, 15, 16]
      [1, 2, 3, 4, 5, 6, 7, 8, 0, 0, 0, 0, 0, 0, 0, 0] [1, 2, 3, 4] [1, 2, 9, 9]
      (by decide) (by decide) (by decide)).1 0 (by decide),
    (passes_are_line_independent 2 2 [1, 2, 3, 4, 5, 6, 7, 8, 9, 10, 11, 12, 13, 14, 15, 16]
      [1, 2, 3, 4, 5, 6, 7, 8, 0, 0, 0, 0, 0, 0, 0, 0] [1, 2, 3, 4] [1, 2, 9, 9]
      (by decide) (by decide) (by decide)).2.2.1 0 (by decide)⟩

end Effects

namespace Effects

/-! ## C24: the fourth channel -/

/-- Two frame buffers that agree on the active channels agree on them after
the horizontal pass of `Blur`. -/
theorem Blur.hPass_active_agree (w h : Nat) (t1 t2 : List Nat)
    (hl1 : t1.length = h * (w * 4)) (hl2 : t2.length = h * (w * 4))
    (hag : ∀ j, j % 4 ≠ 3 → t1.getD j 0 = t2.getD j 0) :
    ∀ j, j % 4 ≠ 3 → (forUp h (fun y t => Blur.hRow w y t) t1).getD j 0 =
      (forUp h (fun y t => Blur.hRow w y t) t2).getD j 0 := by
  intro j hj
  rcases Nat.lt_or_ge j (h * (w * 4)) with hlt | hge
  · obtain ⟨y, x, c, hy, hx, hc, rfl⟩ := pixel_decomp w h j hlt
    have hc3 : c ≠ 3 := by
      have := (pixel_index w h y x c hy hx hc).2.2.2
      omega
    refine Blur.hPass_row_agree w h y c t1 t2 hy hc hl1 hl2 (fun i hi => hag _ ?_) x hx
    have := (pixel_index w h y i c hy hi hc).2.2.2
    omega
  · rw [getD_of_length_le _ _ (by rw [Blur.hPass_length, hl1]; exact hge),
      getD_of_length_le _ _ (by rw [Blur.hPass_length, hl2]; exact hge)]

/-- Two frame buffers that agree on the active channels agree on them after
the vertical pass of `Blur`. -/
theorem Blur.vPass_active_agree (w h : Nat) (t1 t2 : List Nat)
    (hl1 : t1.length = h * (w * 4)) (hl2 : t2.length = h * (w * 4))
    (hag : ∀ j, j % 4 ≠ 3 → t1.getD j 0 = t2.getD j 0) :
    ∀ j, j % 4 ≠ 3 → (Blur.vPass w h t1).getD j 0 = (Blur.vPass w h t2).getD j 0 := by
  intro j hj
  rcases Nat.lt_or_ge j (h * (w * 4)) with hlt | hge
  · obtain ⟨y, x, c, hy, hx, hc, rfl⟩ := pixel_decomp w h j hlt
    have hc3 : c ≠ 3 := by
      have := (pixel_index w h y x c hy hx hc).2.2.2
      omega
    refine Blur.vPass_col_agree w h x c t1 t2 hx hc hl1 hl2 (fun i hi => hag _ ?_) y hy
    have := (pixel_index w h i x c hi hx hc).2.2.2
    omega
  · rw [getD_of_length_le _ _ (by rw [Blur.vPass_length, hl1]; exact hge),
      getD_of_length_le _ _ (by rw [Blur.vPass_length, hl2]; exact hge)]

/-- C24. `Blur` ignores the fourth channel. For every `w`x`h` frame of four
samples per pixel: the sample at index `4 * p + 3` is the same after `Blur` as
before, for every pixel `p`; two frames that agree on the three active
channels have results that agree on the three active channels, whatever their
fourth-channel samples are; width, height and buffer length are unchanged. -/
theorem Blur_ignores_fourth_channel (w h : Nat) (d1 d2 : List Nat) (s1 s2 : Int)
    (hl1 : d1.length = h * (w * 4)) (hl2 : d2.length = h * (w * 4))
    (hag : ∀ j, j % 4 ≠ 3 → d1.getD j 0 = d2.getD j 0) :
    (∀ p, (Blur ⟨w, h, d1, s1⟩).data.getD (4 * p + 3) 0 = d1.getD (4 * p + 3) 0) ∧
    (∀ j, j % 4 ≠ 3 →
      (Blur ⟨w, h, d1, s1⟩).data.getD j 0 = (Blur ⟨w, h, d2, s2⟩).data.getD j 0) ∧
    (Blur ⟨w, h, d1, s1⟩).width = w ∧ (Blur ⟨w, h, d1, s1⟩).height = h ∧
    (Blur ⟨w, h, d1, s1⟩).data.length = d1.length := by
  refine ⟨?_, ?_, rfl, rfl, Blur_length _⟩
  · intro p
    have hp : (4 * p + 3) % 4 = 3 := by omega
    rw [Blur_passes]
    simp only [Int.toNat_ofNat]
    rw [Blur.vPass_fourth _ _ _ _ hp, Blur.hPass_fourth _ _ _ _ hp,
      Blur.vPass_fourth _ _ _ _ hp, Blur.hPass_fourth _ _ _ _ hp]
  · rw [Blur_passes, Blur_passes]
    simp only [Int.toNat_ofNat]
    have a1 := Blur.hPass_active_agree w h d1 d2 hl1 hl2 hag
    have l1 : (forUp h (fun y t => Blur.hRow w y t) d1).length = h * (w * 4) := by
      rw [Blur.hPass_length]; exact hl1
    have l2 : (forUp h (fun y t => Blur.hRow w y t) d2).length = h * (w * 4) := by
      rw [Blur.hPass_length]; exact hl2
    have a2 := Blur.vPass_active_agree w h _ _ l1 l2 a1
    have l3 := (Blur.vPass_length w h (forUp h (fun y t => Blur.hRow w y t) d1)).trans l1
    have l4 := (Blur.vPass_length w h (forUp h (fun y t => Blur.hRow w y t) d2)).trans l2
    have a3 := Blur.hPass_active_agree w h _ _ l3 l4 a2
    have l5 := (Blur.hPass_length w h
      (Blur.vPass w h (forUp h (fun y t => Blur.hRow w y t) d1))).trans l3
    have l6 := (Blur.hPass_length w h
      (Blur.vPass w h (forUp h (fun y t => Blur.hRow w y t) d2))).trans l4
    exact Blur.vPass_active_agree w h _ _ l5 l6 a3

/-- C24 on two 2x1 frames that differ in the fourth channel only. -/
theorem Blur_ignores_fourth_channel_witness :
    ([10, 20, 30, 7, 40, 50, 60, 8] : List Nat).length = 1 * (2 * 4) ∧
    ([10, 20, 30, 99, 40, 50, 60, 1234] : List Nat).length = 1 * (2 * 4) ∧
    ((∀ p, (Blur ⟨(2 : Nat), (1 : Nat), [10, 20, 30, 7, 40, 50, 60, 8], 0⟩).data.getD
        (4 * p + 3) 0 = ([10, 20, 30, 7, 40, 50, 60, 8] : List Nat).getD (4 * p + 3) 0) ∧
    (∀ j, j % 4 ≠ 3 →
      (Blur ⟨(2 : Nat), (1 : Nat), [10, 20, 30, 7, 40, 50, 60, 8], 0⟩).data.getD j 0 =
        (Blur ⟨(2 : Nat), (1 : Nat), [10, 20, 30, 99, 40, 50, 60, 1234], 0⟩).data.getD j 0) ∧
    (Blur ⟨(2 : Nat), (1 : Nat), [10, 20, 30, 7, 40, 50, 60, 8], 0⟩).width = (2 : Nat) ∧
    (Blur ⟨(2 : Nat), (1 : Nat), [10, 20, 30, 7, 40, 50, 60, 8], 0⟩).height = (1 : Nat) ∧
    (Blur ⟨(2 : Nat), (1 : Nat), [10, 20, 30, 7, 40, 50, 60, 8], 0⟩).data.length =
      ([10, 20, 30, 7, 40, 50, 60, 8] : List Nat).length) :=
  ⟨by decide, by decide,
    Blur_ignores_fourth_channel 2 1 [10, 20, 30, 7, 40, 50, 60, 8]
      [10, 20, 30, 99, 40, 50, 60, 1234] 0 0 (by decide) (by decide)
      (by
        intro j hj
        rcases Nat.lt_or_ge j 8 with h8 | h8
        · interval_cases j <;> first | rfl | exact absurd rfl hj
        · rw [getD_of_length_le _ _ h8, getD_of_length_le _ _ h8])⟩

end Effects

namespace xnor_sample

open Effects

/-! ## C29: `Canvas::FillRectangle` -/

theorem int32_of_range (v : Int) (h1 : -2 ^ 31 ≤ v) (h2 : v < 2 ^ 31) : int32 v = v := by
  unfold int32
  omega

/-- The stores of `std::fill`. -/
theorem fill_getD (d : List Nat) (first last : Int) (v : Nat) (h0 : 0 ≤ first) :
    (fill d first last v).length = d.length ∧
    ∀ j : Nat, (fill d first last v).getD j 0 =
      if first ≤ (j : Int) ∧ (j : Int) < last ∧ j < d.length then v else d.getD j 0 := by
  unfold fill forFrom
  have key := forUp_invariant
    (fun k (t : List Nat) => t.length = d.length ∧ ∀ j : Nat, t.getD j 0 =
      if first ≤ (j : Int) ∧ (j : Int) < first + k ∧ j < d.length then v else d.getD j 0)
    (last - first).toNat
    (fun i d => if 0 ≤ first + (i : Int) then d.set (first + (i : Int)).toNat v else d) d
    ⟨rfl, fun j => by rw [if_neg]; omega⟩
    (by
      intro i t _ ht
      beta_reduce at ht ⊢
      obtain ⟨hl, hg⟩ := ht
      rw [if_pos (by omega)]
      refine ⟨by rw [List.length_set]; exact hl, fun j => ?_⟩
      rw [getD_set_eq, hg j, hl]
      by_cases h1 : (first + (i : Int)).toNat = j ∧ (first + (i : Int)).toNat < d.length
      · rw [if_pos h1, if_pos]
        omega
      · rw [if_neg h1]
        by_cases h2 : first ≤ (j : Int) ∧ (j : Int) < first + i ∧ j < d.length
        · rw [if_pos h2, if_pos]
          omega
        · rw [if_neg h2, if_neg]
          omega)
  beta_reduce at key
  refine ⟨key.1, fun j => ?_⟩
  rw [key.2 j]
  by_cases h : first ≤ (j : Int) ∧ (j : Int) < last ∧ j < d.length
  · rw [if_pos h, if_pos]
    omega
  · rw [if_neg h, if_neg]
    omega

/-- An offset lies in the span `[y * W + a, y * W + b)` of row `y` exactly
when it is in row `y` and its column is in `[a, b)`. -/
theorem row_span (W y a b j : Int) (hW : 0 < W) (ha : 0 ≤ a) (hb : b ≤ W) :
    (y * W + a ≤ j ∧ j < y * W + b) ↔ (j / W = y ∧ a ≤ j % W ∧ j % W < b) := by
  have e := Int.ediv_add_emod j W
  have r0 := Int.emod_nonneg j (ne_of_gt hW)
  have r1 := Int.emod_lt_of_pos j hW
  constructor
  · rintro ⟨h1, h2⟩
    have hq : j / W = y := by
      apply le_antisymm
      · have : j / W < y + 1 := by
          apply Int.ediv_lt_of_lt_mul hW
          have : (y + 1) * W = y * W + W := by ring
          omega
        omega
      · apply Int.le_ediv_of_mul_le hW
        omega
    refine ⟨hq, ?_, ?_⟩
    · rw [hq, Int.mul_comm] at e
      omega
    · rw [hq, Int.mul_comm] at e
      omega
  · rintro ⟨hq, h1, h2⟩
    rw [hq, Int.mul_comm] at e
    omega

end xnor_sample

namespace xnor_sample

open Effects

/-- The rows loop of `FillRectangle`: rows `y0 .. y0 + n - 1`, columns
`[a, b)` of each. -/
theorem fill_rows (W H y0 a b : Int) (n color : Nat) (d : List Nat) (hW : 0 < W)
    (hy0 : 0 ≤ y0) (hn : y0 + n ≤ H) (harea : W * H < 2 ^ 31) (ha : 0 ≤ a) (hb : b ≤ W) :
    (forFrom y0 n (fun y t => fill t (int32 (y * W) + a) (int32 (y * W) + b) color) d).length =
      d.length ∧
    ∀ j : Nat, (forFrom y0 n
        (fun y t => fill t (int32 (y * W) + a) (int32 (y * W) + b) color) d).getD j 0 =
      if (y0 ≤ (j : Int) / W ∧ (j : Int) / W < y0 + n ∧ a ≤ (j : Int) % W ∧ (j : Int) % W < b) ∧
          j < d.length then color else d.getD j 0 := by
  unfold forFrom
  have key := forUp_invariant
    (fun k (t : List Nat) => t.length = d.length ∧ ∀ j : Nat, t.getD j 0 =
      if (y0 ≤ (j : Int) / W ∧ (j : Int) / W < y0 + k ∧ a ≤ (j : Int) % W ∧ (j : Int) % W < b) ∧
          j < d.length then color else d.getD j 0)
    n (fun i t => fill t (int32 ((y0 + (i : Int)) * W) + a) (int32 ((y0 + (i : Int)) * W) + b) color)
    d ⟨rfl, fun j => by rw [if_neg]; omega⟩
    (by
      intro i t hi ht
      beta_reduce at ht ⊢
      obtain ⟨hl, hg⟩ := ht
      have hy : 0 ≤ y0 + (i : Int) := by omega
      have hyH : y0 + (i : Int) + 1 ≤ H := by omega
      have hp0 : 0 ≤ (y0 + (i : Int)) * W := Int.mul_nonneg hy (le_of_lt hW)
      have hp1 : (y0 + (i : Int)) * W + W ≤ W * H := by
        have := Int.mul_le_mul_of_nonneg_left hyH (le_of_lt hW)
        have e : W * (y0 + (i : Int) + 1) = (y0 + (i : Int)) * W + W := by ring
        omega
      have hwrap : int32 ((y0 + (i : Int)) * W) = (y0 + (i : Int)) * W :=
        int32_of_range _ (by omega) (by omega)
      rw [hwrap]
      obtain ⟨fl, fg⟩ := fill_getD t ((y0 + (i : Int)) * W + a) ((y0 + (i : Int)) * W + b) color
        (by omega)
      refine ⟨fl.trans hl, fun j => ?_⟩
      rw [fg j, hg j, hl]
      have span := row_span W (y0 + (i : Int)) a b (j : Int) hW ha hb
      by_cases h1 : (y0 + (i : Int)) * W + a ≤ (j : Int) ∧ (j : Int) < (y0 + (i : Int)) * W + b
      · have h1' := span.1 h1
        by_cases hj : j < d.length
        · rw [if_pos ⟨h1.1, h1.2, hj⟩, if_pos]
          exact ⟨⟨by omega, by omega, h1'.2.1, h1'.2.2⟩, hj⟩
        · rw [if_neg (fun h => hj h.2.2), if_neg (fun h => hj h.2), if_neg (fun h => hj h.2)]
      · rw [if_neg (fun h => h1 ⟨h.1, h.2.1⟩)]
        by_cases h2 : (y0 ≤ (j : Int) / W ∧ (j : Int) / W < y0 + i ∧ a ≤ (j : Int) % W ∧
            (j : Int) % W < b) ∧ j < d.length
        · rw [if_pos h2, if_pos]
          exact ⟨⟨h2.1.1, by omega, h2.1.2.2⟩, h2.2⟩
        · rw [if_neg h2, if_neg]
          rintro ⟨⟨q1, q2, q3, q4⟩, q5⟩
          by_cases hq : (j : Int) / W = y0 + (i : Int)
          · exact h1 (span.2 ⟨hq, q3, q4⟩)
          · exact h2 ⟨⟨q1, by omega, q3, q4⟩, q5⟩)
  beta_reduce at key
  exact key

/-- The flat offset of pixel `(px, py)`. -/
theorem pixel_offset (W H px py : Int) (hpx : 0 ≤ px ∧ px < W) (hpy : 0 ≤ py ∧ py < H) :
    0 ≤ py * W + px ∧ py * W + px < W * H ∧ (py * W + px) / W = py ∧ (py * W + px) % W = px := by
  have hW : 0 < W := by omega
  have h0 : 0 ≤ py * W := Int.mul_nonneg hpy.1 (le_of_lt hW)
  have h1 : py * W + W ≤ W * H := by
    have := Int.mul_le_mul_of_nonneg_left (show py + 1 ≤ H by omega) (le_of_lt hW)
    have e : W * (py + 1) = py * W + W := by ring
    omega
  have span := (row_span W py 0 W (py * W + px) hW (le_refl 0) (le_refl W)).1
    ⟨by omega, by omega⟩
  have e := Int.ediv_add_emod (py * W + px) W
  rw [span.1, Int.mul_comm] at e
  exact ⟨by omega, by omega, span.1, by omega⟩

/-- C29. `Canvas::FillRectangle(color, rect)` on a `W`x`H` canvas, for a
rectangle of non-negative width and height whose right and bottom edges are
`int32` values: an exception is thrown exactly when no pixel of the canvas
lies in the rectangle, and then the canvas is unchanged; otherwise the size
of the canvas is unchanged, every pixel of the canvas inside the rectangle
holds `color` and every other pixel keeps its value. -/
theorem FillRectangle_spec (c : Canvas) (color : Nat) (rect : Rect)
    (hW : 0 ≤ c.width) (hH : 0 ≤ c.height)
    (hlen : (c.data_.length : Int) = c.width * c.height) (harea : c.width * c.height < 2 ^ 31)
    (hw : 0 ≤ rect.width) (hh : 0 ≤ rect.height)
    (hx : -2 ^ 31 ≤ rect.x) (hr : rect.x + rect.width < 2 ^ 31)
    (hy : -2 ^ 31 ≤ rect.y) (hb : rect.y + rect.height < 2 ^ 31) :
    ((c.FillRectangle color rect).2 ≠ none ↔
      ∀ px py : Int, 0 ≤ px → px < c.width → 0 ≤ py → py < c.height →
        ¬ (rect.x ≤ px ∧ px < rect.x + rect.width ∧ rect.y ≤ py ∧ py < rect.y + rect.height)) ∧
    ((c.FillRectangle color rect).2 ≠ none → (c.FillRectangle color rect).1 = c) ∧
    ((c.FillRectangle color rect).2 = none →
      (c.FillRectangle color rect).1.face_size_ = c.face_size_ ∧
      (c.FillRectangle color rect).1.data_.length = c.data_.length ∧
      ∀ px py : Int, 0 ≤ px → px < c.width → 0 ≤ py → py < c.height →
        (c.FillRectangle color rect).1.data_.getD (py * c.width + px).toNat 0 =
          if rect.x ≤ px ∧ px < rect.x + rect.width ∧ rect.y ≤ py ∧ py < rect.y + rect.height
          then color else c.data_.getD (py * c.width + px).toNat 0) := by
  have hright : rect.right = rect.x + rect.width := int32_of_range _ (by omega) (by omega)
  have hbottom : rect.bottom = rect.y + rect.height := int32_of_range _ (by omega) (by omega)
  unfold Canvas.FillRectangle
  simp only [Rect.left, Rect.top, hright, hbottom, ge_iff_le]
  generalize hWd : c.width = W at *
  generalize hHd : c.height = H at *
  by_cases hX : min W (rect.x + rect.width) ≤ max 0 rect.x
  · rw [if_pos hX]
    refine ⟨⟨fun _ px py h1 h2 _ _ hin => ?_, fun _ => by simp⟩, fun _ => rfl,
      fun h => absurd h (by simp)⟩
    omega
  · rw [if_neg hX]
    by_cases hY : min H (rect.y + rect.height) ≤ max 0 rect.y
    · rw [if_pos hY]
      refine ⟨⟨fun _ px py _ _ h3 h4 hin => ?_, fun _ => by simp⟩, fun _ => rfl,
        fun h => absurd h (by simp)⟩
      omega
    · rw [if_neg hY]
      have hWpos : 0 < W := by omega
      obtain ⟨rl, rg⟩ := fill_rows W H (max 0 rect.y) (max 0 rect.x) (min W (rect.x + rect.width))
        (min H (rect.y + rect.height) - max 0 rect.y).toNat color c.data_ hWpos
        (by omega) (by omega) harea (by omega) (by omega)
      refine ⟨⟨fun h => absurd rfl h, fun h1 h2 => ?_⟩, fun h => absurd rfl h,
        fun _ => ⟨rfl, rl, fun px py h1 h2 h3 h4 => ?_⟩⟩
      · exact absurd ⟨by omega, by omega, by omega, by omega⟩
          (h1 (max 0 rect.x) (max 0 rect.y) (by omega) (by omega) (by omega) (by omega))
      · obtain ⟨o1, o2, o3, o4⟩ := pixel_offset W H px py ⟨h1, h2⟩ ⟨h3, h4⟩
        dsimp only
        rw [rg (py * W + px).toNat]
        have ecast : (((py * W + px).toNat : Nat) : Int) = py * W + px := Int.toNat_of_nonneg o1
        rw [ecast, o3, o4]
        have hlt : (py * W + px).toNat < c.data_.length := by omega
        by_cases hin : rect.x ≤ px ∧ px < rect.x + rect.width ∧ rect.y ≤ py ∧
            py < rect.y + rect.height
        · rw [if_pos hin, if_pos]
          exact ⟨⟨by omega, by omega, by omega, by omega⟩, hlt⟩
        · rw [if_neg hin, if_neg]
          rintro ⟨⟨q1, q2, q3, q4⟩, _⟩
          exact hin ⟨by omega, by omega, by omega, by omega⟩

/-- C29 on a 4x3 canvas and the rectangle `x = 2, y = -1, 5x3`, which covers
the pixels `(2, 0), (3, 0), (2, 1), (3, 1)`. -/
theorem FillRectangle_spec_witness :
    ((⟨List.replicate 12 0, ⟨4, 3⟩⟩ : Canvas).FillRectangle 7 ⟨2, -1, 5, 3⟩).2 = none ∧
    ((⟨List.replicate 12 0, ⟨4, 3⟩⟩ : Canvas).FillRectangle 7 ⟨2, -1, 5, 3⟩).1.data_ =
      [0, 0, 7, 7, 0, 0, 7, 7, 0, 0, 0, 0] ∧
    (∀ px py : Int, 0 ≤ px → px < 4 → 0 ≤ py → py < 3 →
      ((⟨List.replicate 12 0, ⟨4, 3⟩⟩ : Canvas).FillRectangle 7 ⟨2, -1, 5, 3⟩).1.data_.getD
          (py * 4 + px).toNat 0 =
        if (2 : Int) ≤ px ∧ px < 2 + 5 ∧ (-1 : Int) ≤ py ∧ py < -1 + 3 then 7
        else (List.replicate 12 0).getD (py * 4 + px).toNat 0) :=
  ⟨by decide, by decide,
    ((FillRectangle_spec ⟨List.replicate 12 0, ⟨4, 3⟩⟩ 7 ⟨2, -1, 5, 3⟩ (by decide) (by decide)
      (by decide) (by decide) (by decide) (by decide) (by decide) (by decide) (by decide)
      (by decide)).2.2 (by decide)).2.2⟩

end xnor_sample

namespace xnor_sample

open Effects

/-! ## C30: `MovingAverage` -/

/-- The state of a `MovingAverage` of length `n` after the updates `vs`: the
slots of the last `n` values hold them and the slots never written hold
`0.0`. -/
theorem MovingAverage.state (n : Nat) (hn : 1 ≤ n) (vs : List F64) (hk : vs.length < 2 ^ 64) :
    (vs.foldl MovingAverage.Update (MovingAverage.create n)).buffer_.length = n ∧
    (vs.foldl MovingAverage.Update (MovingAverage.create n)).num_updates_ = vs.length ∧
    (∀ i, i < vs.length → vs.length ≤ i + n →
      (vs.foldl MovingAverage.Update (MovingAverage.create n)).buffer_.getD (i % n) F64.zero =
        vs.getD i F64.zero) ∧
    (∀ j, vs.length ≤ j → j < n →
      (vs.foldl MovingAverage.Update (MovingAverage.create n)).buffer_.getD j F64.zero =
        F64.zero) := by
  induction vs using List.reverseRecOn with
  | nil =>
    refine ⟨by simp [MovingAverage.create], rfl, fun i hi => absurd hi (Nat.not_lt_zero _),
      fun j _ hj => ?_⟩
    simp [MovingAverage.create, List.getD_eq_getElem?_getD, hj]
  | append_singleton vs v ih =>
    have hk' : vs.length < 2 ^ 64 := by
      rw [List.length_append, List.length_singleton] at hk
      omega
    obtain ⟨il, iu, iw, iz⟩ := ih hk'
    rw [List.foldl_append, List.foldl_cons, List.foldl_nil]
    generalize vs.foldl MovingAverage.Update (MovingAverage.create n) = m at il iu iw iz
    obtain ⟨buf, num⟩ := m
    simp only at il iu iw iz
    subst iu
    simp only [MovingAverage.Update, List.length_append, List.length_singleton, il]
    have hmod : vs.length % n < n := Nat.mod_lt _ (by omega)
    refine ⟨by rw [List.length_set]; exact il, ?_, ?_, ?_⟩
    · rw [List.length_append, List.length_singleton] at hk
      exact Nat.mod_eq_of_lt hk
    · intro i hi hin
      rw [getD_set_eq, il]
      rcases Nat.lt_or_ge i vs.length with hlt | hge
      · have hne : ¬ (vs.length % n = i % n ∧ vs.length % n < n) := by
          rintro ⟨e, _⟩
          have e' : i % n = vs.length % n := e.symm
          have hd : n ∣ vs.length - i := (Nat.modEq_iff_dvd' (le_of_lt hlt)).1 e'
          have := Nat.le_of_dvd (by omega) hd
          omega
        rw [if_neg hne, iw i hlt (by omega), List.getD_append _ _ _ _ hlt]
      · have hi' : i = vs.length := by omega
        subst hi'
        rw [if_pos ⟨rfl, hmod⟩, List.getD_append_right _ _ _ _ (le_refl _)]
        simp
    · intro j hj hjn
      rw [getD_set_eq, il, if_neg, iz j (by omega) hjn]
      rintro ⟨e, _⟩
      rw [Nat.mod_eq_of_lt (by omega)] at e
      omega

/-- C30 fails as stated. With a buffer of length 3 and the updates `1e16`,
`1.0`, `-1e16`, whose exact sum is `1.0` (mean `1/3`), `GetAverage` returns
`0.0`: the `1.0` is lost when it is added to `1e16`. With a buffer of length 2
and the update `2^1023` twice (mean `2^1023`), the sum overflows and
`GetAverage` returns `+inf`. -/
theorem MovingAverage_not_exact_mean :
    (([F64.ofExactInt 10000000000000000, F64.ofExactInt 1,
        F64.ofExactInt (-10000000000000000)].map F64.units).sum = 1 * 2 ^ 1074 ∧
      ([F64.ofExactInt 10000000000000000, F64.ofExactInt 1,
        F64.ofExactInt (-10000000000000000)].foldl MovingAverage.Update
          (MovingAverage.create 3)).GetAverage = F64.finite false 0) ∧
    (([F64.finite false (2 ^ 2097), F64.finite false (2 ^ 2097)].map F64.units).sum =
        2 * 2 ^ 2097 ∧
      ([F64.finite false (2 ^ 2097), F64.finite false (2 ^ 2097)].foldl MovingAverage.Update
          (MovingAverage.create 2)).GetAverage = F64.inf false) := by
  decide!

/-- C30 (amended). `MovingAverage` over a ring buffer of length `n ≥ 1`, after
the updates `vs` (`k` of them, `k < 2^64`): the buffer still has `n` slots;
slot `i mod n` holds the `i`-th value (counted from 0) for each of the last
`min k n` updates and every slot never written holds `0.0`; `GetAverage`
returns `0.0` when `k = 0` and otherwise the `double` quotient of the `double`
sum of the slots, accumulated in slot order from `0.0` with every addition
rounded, by `min k n`. -/
theorem MovingAverage_rounded_mean (n : Nat) (vs : List F64) (hn : 1 ≤ n)
    (hk : vs.length < 2 ^ 64) :
    (vs.foldl MovingAverage.Update (MovingAverage.create n)).buffer_.length = n ∧
    (∀ i, i < vs.length → vs.length ≤ i + n →
      (vs.foldl MovingAverage.Update (MovingAverage.create n)).buffer_.getD (i % n) F64.zero =
        vs.getD i F64.zero) ∧
    (∀ j, vs.length ≤ j → j < n →
      (vs.foldl MovingAverage.Update (MovingAverage.create n)).buffer_.getD j F64.zero =
        F64.zero) ∧
    (vs.foldl MovingAverage.Update (MovingAverage.create n)).GetAverage =
      if vs.length = 0 then F64.zero
      else F64.div
        ((vs.foldl MovingAverage.Update (MovingAverage.create n)).buffer_.foldl
          (fun sum v => F64.add sum v) F64.zero)
        (F64.ofNat (min vs.length n)) := by
  obtain ⟨il, iu, iw, iz⟩ := MovingAverage.state n hn vs hk
  refine ⟨il, iw, iz, ?_⟩
  unfold MovingAverage.GetAverage
  simp only [il, iu]
  by_cases h0 : vs.length = 0
  · rw [if_pos h0, if_neg (by omega)]
  · rw [if_neg h0, if_pos (by omega)]
    rcases Nat.lt_or_ge n vs.length with hlt | hge
    · rw [if_pos hlt, Nat.min_eq_right (le_of_lt hlt)]
    · rw [if_neg (by omega), Nat.min_eq_left hge]

/-- C30 (amended) on a buffer of length 3 and the updates 1, 2, 3, 4, 6: the
slots hold 4, 6, 3 and the result is the `double` nearest to `13/3`. -/
theorem MovingAverage_rounded_mean_witness :
    1 ≤ 3 ∧
    [F64.ofExactInt 1, F64.ofExactInt 2, F64.ofExactInt 3, F64.ofExactInt 4,
      F64.ofExactInt 6].length < 2 ^ 64 ∧
    ([F64.ofExactInt 1, F64.ofExactInt 2, F64.ofExactInt 3, F64.ofExactInt 4,
      F64.ofExactInt 6].foldl MovingAverage.Update (MovingAverage.create 3)).buffer_ =
      [F64.ofExactInt 4, F64.ofExactInt 6, F64.ofExactInt 3] ∧
    ([F64.ofExactInt 1, F64.ofExactInt 2, F64.ofExactInt 3, F64.ofExactInt 4,
      F64.ofExactInt 6].foldl MovingAverage.Update (MovingAverage.create 3)).GetAverage =
      F64.div
        (([F64.ofExactInt 1, F64.ofExactInt 2, F64.ofExactInt 3, F64.ofExactInt 4,
          F64.ofExactInt 6].foldl MovingAverage.Update (MovingAverage.create 3)).buffer_.foldl
          (fun sum v => F64.add sum v) F64.zero)
        (F64.ofNat (min [F64.ofExactInt 1, F64.ofExactInt 2, F64.ofExactInt 3,
          F64.ofExactInt 4, F64.ofExactInt 6].length 3)) ∧
    ([F64.ofExactInt 1, F64.ofExactInt 2, F64.ofExactInt 3, F64.ofExactInt 4,
      F64.ofExactInt 6].foldl MovingAverage.Update (MovingAverage.create 3)).GetAverage =
      F64.round false (13 * 2 ^ 1074) 3 :=
  ⟨by decide, by simp, by decide!,
    (MovingAverage_rounded_mean 3 [F64.ofExactInt 1, F64.ofExactInt 2, F64.ofExactInt 3,
      F64.ofExactInt 4, F64.ofExactInt 6] (by decide) (by simp)).2.2.2.trans
      (if_neg (by decide)),
    by decide!⟩

end xnor_sample

namespace Effects

/-! ## C27: index safety of `Blur` and `BlurMask` -/

theorem inBuffer_cast (N a : Nat) (h : a < N) : inBuffer (N : Int) (a : Int) = true := by
  unfold inBuffer
  rw [decide_eq_true_iff]
  omega

/-- A loop on a flagged buffer whose every iteration keeps the flag set and
acts on the buffer as `g` does. -/
theorem forUp_flag {α : Type} {n : Nat} {f : Nat → List α × Bool → List α × Bool}
    {g : Nat → List α → List α} {s : List α × Bool} {t : List α} (hs : s = (t, true))
    (h : ∀ i u, i < n → f i (u, true) = (g i u, true)) :
    forUp n f s = (forUp n g t, true) :=
  forUp_rel (fun (s : List α × Bool) (u : List α) => s = (u, true)) n f g s t hs
    (fun i s u hi hs => by rw [hs]; exact h i u hi)

theorem forFrom_flag {α : Type} {lo : Int} {n : Nat} {f : Int → List α × Bool → List α × Bool}
    {g : Int → List α → List α} {s : List α × Bool} {t : List α} (hs : s = (t, true))
    (h : ∀ (i : Nat) u, i < n → f (lo + i) (u, true) = (g (lo + i) u, true)) :
    forFrom lo n f s = (forFrom lo n g t, true) :=
  forUp_flag hs h

/-- A signed loop from 0 is the unsigned loop. -/
theorem forFrom_zero_flag {α : Type} {n : Nat} {f : Int → List α × Bool → List α × Bool}
    {g : Nat → List α → List α} {s : List α × Bool} {t : List α} (hs : s = (t, true))
    (h : ∀ (i : Nat) u, i < n → f (i : Int) (u, true) = (g i u, true)) :
    forFrom 0 n f s = (forUp n g t, true) :=
  forUp_flag hs (fun i u hi => by rw [Int.zero_add]; exact h i u hi)

theorem Blur.zeroAt_ok {N a : Nat} {i : Int} {s : List Nat × Bool} {t : List Nat}
    (hs : s = (t, true)) (hi : i = (a : Int)) (ha : a < N) :
    Blur.zeroAt (N : Int) i s = (t.set a 0, true) := by
  subst hi hs
  simp [Blur.zeroAt, Blur.storeAt, inBuffer_cast N a ha]

theorem Blur.tapAt_ok {N a b : Nat} {acc src : Int} {s : List Nat × Bool} {t : List Nat}
    (hs : s = (t, true)) (h1 : acc = (a : Int)) (h2 : src = (b : Int)) (ha : a < N)
    (hb : b < N) : Blur.tapAt (N : Int) acc src s = (Blur.tap a b t, true) := by
  subst h1 h2 hs
  simp [Blur.tapAt, Blur.storeAt, Blur.loadAt, Blur.tap, inBuffer_cast N a ha,
    inBuffer_cast N b hb]

theorem Blur.slideAt_ok {N a b c d : Nat} {i last mn mx : Int} {s : List Nat × Bool}
    {t : List Nat} (hs : s = (t, true))
    (h1 : i = (a : Int)) (h2 : last = (b : Int)) (h3 : mn = (c : Int)) (h4 : mx = (d : Int))
    (ha : a < N) (hb : b < N) (hc : c < N) (hd : d < N) :
    Blur.slideAt (N : Int) i last mn mx s = (Blur.slide a b c d t, true) := by
  subst h1 h2 h3 h4 hs
  simp [Blur.slideAt, Blur.storeAt, Blur.loadAt, Blur.slide, inBuffer_cast N a ha,
    inBuffer_cast N b hb, inBuffer_cast N c hc, inBuffer_cast N d hd]

theorem BlurMask.zeroAt_sound {N a : Nat} {i : Int} {s : List F32 × Bool} {t : List F32}
    (hs : s = (t, true)) (hi : i = (a : Int)) (ha : a < N) :
    BlurMask.zeroAt (N : Int) i s = (t.set a 0, true) := by
  subst hi hs
  simp [BlurMask.zeroAt, BlurMask.storeAt, inBuffer_cast N a ha]

theorem BlurMask.tapAt_sound {factor : F32} {N a b : Nat} {acc src : Int} {s : List F32 × Bool}
    {t : List F32} (hs : s = (t, true)) (h1 : acc = (a : Int)) (h2 : src = (b : Int))
    (ha : a < N) (hb : b < N) :
    BlurMask.tapAt factor (N : Int) acc src s =
      (t.set a (F32.add (t.getD a 0) (F32.mul factor (t.getD b 0))), true) := by
  subst h1 h2 hs
  simp [BlurMask.tapAt, BlurMask.storeAt, BlurMask.loadAt, inBuffer_cast N a ha,
    inBuffer_cast N b hb]

theorem BlurMask.slideAt_sound {factor : F32} {N a b c d : Nat} {i last mn mx : Int}
    {s : List F32 × Bool} {t : List F32} (hs : s = (t, true))
    (h1 : i = (a : Int)) (h2 : last = (b : Int)) (h3 : mn = (c : Int))
    (h4 : mx = (d : Int)) (ha : a < N) (hb : b < N) (hc : c < N) (hd : d < N) :
    BlurMask.slideAt factor (N : Int) i last mn mx s =
      (t.set a (zero_one (F32.add
        (F32.sub (t.getD b 0) (F32.mul factor (t.getD c 0)))
        (F32.mul factor (t.getD d 0)))), true) := by
  subst h1 h2 h3 h4 hs
  simp [BlurMask.slideAt, BlurMask.storeAt, BlurMask.loadAt, inBuffer_cast N a ha,
    inBuffer_cast N b hb, inBuffer_cast N c hc, inBuffer_cast N d hd]

/-- Row `a` of a buffer of `h` rows of `S` samples ends inside the buffer. -/
theorem row_bound (a h S : Nat) (ha : a < h) : a * S + S ≤ h * S := by
  calc a * S + S = (a + 1) * S := by ring
    _ ≤ h * S := Nat.mul_le_mul_right S ha

/-- `modulo a w` as a natural number below `w`. -/
theorem modulo_nat (a : Int) (w : Nat) (hw : 1 ≤ w) :
    modulo a (w : Int) = (((modulo a (w : Int)).toNat : Nat) : Int) ∧
      (modulo a (w : Int)).toNat < w := by
  have := modulo_range a (w : Int) (by omega)
  omega

end Effects

namespace Effects

/-- The checked horizontal pass of `Blur` on a row of the frame keeps the flag
set and acts on the buffer as `Blur.hRow` does. -/
theorem Blur.hRowAt_ok (w h y : Nat) (hw : 1 ≤ w) (hy : y < h) (t : List Nat) :
    Blur.hRowAt ((h * (w * 4) : Nat) : Int) (w : Int) (y : Int) (t, true) =
      (Blur.hRow w y t, true) := by
  unfold Blur.hRowAt Blur.hRow
  simp only [show kRgbChannels = 4 from rfl]
  have hY : (y : Int) * ((w : Int) * ((4 : Nat) : Int)) = ((y * (w * 4) : Nat) : Int) := by
    push_cast; ring
  have hb := row_bound y h (w * 4) hy
  have hwn : ((w : Int) - 1).toNat = w - 1 := by omega
  rw [hY, hwn]
  generalize y * (w * 4) = Y at hb ⊢
  generalize h * (w * 4) = N at hb ⊢
  refine forFrom_flag (forFrom_flag
    (Blur.zeroAt_ok (Blur.zeroAt_ok (Blur.zeroAt_ok rfl ?_ ?_) ?_ ?_) ?_ ?_) ?_) ?_
  any_goals (first | (push_cast; rfl) | omega)
  · intro i u _
    beta_reduce
    obtain ⟨hm, hml⟩ := modulo_nat (-(kHalfBox : Int) + i) w hw
    generalize hM : (modulo (-(kHalfBox : Int) + i) (w : Int)).toNat = M at hm hml ⊢
    rw [hm]
    refine Blur.tapAt_ok (Blur.tapAt_ok (Blur.tapAt_ok rfl ?_ ?_ ?_ ?_) ?_ ?_ ?_ ?_) ?_ ?_ ?_ ?_
    all_goals (first | (push_cast; rfl) | omega)
  · intro i u hi
    beta_reduce
    obtain ⟨hm, hml⟩ := modulo_nat (1 + (i : Int) - kHalfBox - 1) w hw
    obtain ⟨hx, hxl⟩ := modulo_nat (1 + (i : Int) + kHalfBox + 1) w hw
    generalize (modulo (1 + (i : Int) - kHalfBox - 1) (w : Int)).toNat = M1 at hm hml ⊢
    generalize (modulo (1 + (i : Int) + kHalfBox + 1) (w : Int)).toNat = M2 at hx hxl ⊢
    rw [hm, hx]
    have hyn : (1 + (i : Int)).toNat = i + 1 := by omega
    rw [hyn]
    refine Blur.slideAt_ok (Blur.slideAt_ok (Blur.slideAt_ok rfl ?_ ?_ ?_ ?_ ?_ ?_ ?_ ?_)
      ?_ ?_ ?_ ?_ ?_ ?_ ?_ ?_) ?_ ?_ ?_ ?_ ?_ ?_ ?_ ?_
    all_goals (first | (push_cast; rfl) | omega)

end Effects

namespace Effects

/-- The checked vertical pass of `Blur` keeps the flag set and acts on the
buffer as `Blur.vPass` does. -/
theorem Blur.vPassAt_ok (w h : Nat) (hh : 1 ≤ h) (t : List Nat) :
    Blur.vPassAt ((h * (w * 4) : Nat) : Int) (w : Int) (h : Int) (t, true) =
      (Blur.vPass w h t, true) := by
  unfold Blur.vPassAt Blur.vPass
  simp only [show kRgbChannels = 4 from rfl]
  have hhn : ((h : Int) - 1).toNat = h - 1 := by omega
  have hS : (w : Int) * ((4 : Nat) : Int) = ((w * 4 : Nat) : Int) := by push_cast; rfl
  have h0 := row_bound 0 h (w * 4) (by omega)
  rw [hhn, Int.toNat_ofNat, hS]
  refine forFrom_flag (forFrom_flag (forFrom_zero_flag rfl ?_) ?_) ?_
  · intro x u hx
    beta_reduce
    refine Blur.zeroAt_ok (Blur.zeroAt_ok (Blur.zeroAt_ok rfl ?_ ?_) ?_ ?_) ?_ ?_
    all_goals (first | (push_cast; rfl) | omega)
  · intro i u _
    beta_reduce
    obtain ⟨hm, hml⟩ := modulo_nat (-(kHalfBox : Int) + i) h hh
    generalize (modulo (-(kHalfBox : Int) + i) (h : Int)).toNat = M at hm hml ⊢
    rw [hm]
    have hb := row_bound M h (w * 4) hml
    refine forFrom_zero_flag rfl ?_
    intro x v hx
    beta_reduce
    refine Blur.tapAt_ok (Blur.tapAt_ok (Blur.tapAt_ok rfl ?_ ?_ ?_ ?_) ?_ ?_ ?_ ?_) ?_ ?_ ?_ ?_
    all_goals (first | (push_cast; rfl) | omega)
  · intro i u hi
    beta_reduce
    obtain ⟨hm, hml⟩ := modulo_nat (1 + (i : Int) - kHalfBox - 1) h hh
    obtain ⟨hx, hxl⟩ := modulo_nat (1 + (i : Int) + kHalfBox + 1) h hh
    generalize (modulo (1 + (i : Int) - kHalfBox - 1) (h : Int)).toNat = M1 at hm hml ⊢
    generalize (modulo (1 + (i : Int) + kHalfBox + 1) (h : Int)).toNat = M2 at hx hxl ⊢
    rw [hm, hx]
    have hyn : (1 + (i : Int)).toNat = i + 1 := by omega
    have hyc : (1 + (i : Int)) * ((w * 4 : Nat) : Int) = ((i * (w * 4) + w * 4 : Nat) : Int) := by
      push_cast; ring
    have hys : (i + 1) * (w * 4) = i * (w * 4) + w * 4 := Nat.succ_mul _ _
    have hc1 : ((M1 : Nat) : Int) * ((w * 4 : Nat) : Int) = ((M1 * (w * 4) : Nat) : Int) := by
      push_cast; rfl
    have hc2 : ((M2 : Nat) : Int) * ((w * 4 : Nat) : Int) = ((M2 * (w * 4) : Nat) : Int) := by
      push_cast; rfl
    rw [hyn, hyc, hys, hc1, hc2]
    have hb := row_bound (i + 1) h (w * 4) (by omega)
    rw [hys] at hb
    have hb1 := row_bound M1 h (w * 4) hml
    have hb2 := row_bound M2 h (w * 4) hxl
    generalize i * (w * 4) = A at hb ⊢
    generalize M1 * (w * 4) = B1 at hb1 ⊢
    generalize M2 * (w * 4) = B2 at hb2 ⊢
    generalize h * (w * 4) = N at hb hb1 hb2 h0 ⊢
    refine forFrom_zero_flag rfl ?_
    intro x v hx
    beta_reduce
    refine Blur.slideAt_ok (Blur.slideAt_ok (Blur.slideAt_ok rfl ?_ ?_ ?_ ?_ ?_ ?_ ?_ ?_)
      ?_ ?_ ?_ ?_ ?_ ?_ ?_ ?_) ?_ ?_ ?_ ?_ ?_ ?_ ?_ ?_
    all_goals (first | (push_cast; rfl) | omega)

/-- The checked run of `Blur` keeps the flag set and ends with the buffer of
`Blur`. -/
theorem Blur.runAt_ok (w h : Nat) (hw : 1 ≤ w) (hh : 1 ≤ h) (t : List Nat) :
    Blur.runAt ((h * (w * 4) : Nat) : Int) (w : Int) (h : Int) (t, true) =
      (forUp kBlurIterations (fun _ result =>
        Blur.vPass w h (forUp h (fun y result => Blur.hRow w y result) result)) t, true) := by
  unfold Blur.runAt
  rw [Int.toNat_ofNat]
  refine forUp_flag rfl ?_
  intro _ u _
  beta_reduce
  have hrows : forFrom 0 h (fun y s => Blur.hRowAt ((h * (w * 4) : Nat) : Int) (w : Int) y s)
      (u, true) = (forUp h (fun y result => Blur.hRow w y result) u, true) :=
    forFrom_zero_flag rfl (fun y v hy => Blur.hRowAt_ok w h y hw hy v)
  rw [hrows]
  exact Blur.vPassAt_ok w h hh _

end Effects

namespace Effects

/-- The checked horizontal pass of `BlurMask` on a row of the mask keeps the
flag set and acts on the buffer as `BlurMask.hRow` does. -/
theorem BlurMask.hRowAt_sound (w h y : Nat) (hw : 1 ≤ w) (hy : y < h) (t : List F32) :
    BlurMask.hRowAt ((h * w : Nat) : Int) (w : Int) (y : Int) (t, true) =
      (BlurMask.hRow w y t, true) := by
  unfold BlurMask.hRowAt BlurMask.hRow
  have hY : (y : Int) * (w : Int) = ((y * w : Nat) : Int) := by push_cast; rfl
  have hb := row_bound y h w hy
  have hwn : ((w : Int) - 1).toNat = w - 1 := by omega
  simp only [hY, hwn]
  generalize y * w = Y at hb ⊢
  generalize h * w = N at hb ⊢
  refine forFrom_flag (forFrom_flag (BlurMask.zeroAt_sound rfl rfl ?_) ?_) ?_
  · omega
  · intro i u _
    beta_reduce
    obtain ⟨hm, hml⟩ := modulo_nat (-(kMaskHalfBoxX : Int) + i) w hw
    generalize (modulo (-(kMaskHalfBoxX : Int) + i) (w : Int)).toNat = M at hm hml ⊢
    rw [hm]
    refine BlurMask.tapAt_sound rfl ?_ ?_ ?_ ?_
    all_goals (first | (push_cast; rfl) | omega)
  · intro i u hi
    beta_reduce
    obtain ⟨hm, hml⟩ := modulo_nat (1 + (i : Int) - kMaskHalfBoxX - 1) w hw
    obtain ⟨hx, hxl⟩ := modulo_nat (1 + (i : Int) + kMaskHalfBoxX + 1) w hw
    generalize (modulo (1 + (i : Int) - kMaskHalfBoxX - 1) (w : Int)).toNat = M1 at hm hml ⊢
    generalize (modulo (1 + (i : Int) + kMaskHalfBoxX + 1) (w : Int)).toNat = M2 at hx hxl ⊢
    rw [hm, hx]
    have hyn : (1 + (i : Int)).toNat = i + 1 := by omega
    rw [hyn]
    refine BlurMask.slideAt_sound rfl ?_ ?_ ?_ ?_ ?_ ?_ ?_ ?_
    all_goals (first | (push_cast; rfl) | omega)

/-- The checked vertical pass of `BlurMask` keeps the flag set and acts on the
buffer as `BlurMask.vPass` does. -/
theorem BlurMask.vPassAt_sound (w h : Nat) (hh : 1 ≤ h) (t : List F32) :
    BlurMask.vPassAt ((h * w : Nat) : Int) (w : Int) (h : Int) (t, true) =
      (BlurMask.vPass w h t, true) := by
  unfold BlurMask.vPassAt BlurMask.vPass
  have hhn : ((h : Int) - 1).toNat = h - 1 := by omega
  have h0 := row_bound 0 h w (by omega)
  simp only [hhn, Int.toNat_ofNat]
  refine forFrom_flag (forFrom_flag (forFrom_zero_flag rfl ?_) ?_) ?_
  · intro x u hx
    beta_reduce
    refine BlurMask.zeroAt_sound rfl rfl ?_
    omega
  · intro i u _
    beta_reduce
    obtain ⟨hm, hml⟩ :=
      modulo_nat (((-(kMaskHalfBoxY : Int) + i).natAbs : Nat) : Int) h hh
    generalize (modulo (((-(kMaskHalfBoxY : Int) + i).natAbs : Nat) : Int) (h : Int)).toNat = M
      at hm hml ⊢
    rw [hm]
    have hb := row_bound M h w hml
    refine forFrom_zero_flag rfl ?_
    intro x v hx
    beta_reduce
    refine BlurMask.tapAt_sound rfl ?_ ?_ ?_ ?_
    all_goals (first | (push_cast; rfl) | omega)
  · intro i u hi
    beta_reduce
    obtain ⟨hm, hml⟩ := modulo_nat (1 + (i : Int) - kMaskHalfBoxY - 1) h hh
    obtain ⟨hx, hxl⟩ := modulo_nat (1 + (i : Int) + kMaskHalfBoxY + 1) h hh
    generalize (modulo (1 + (i : Int) - kMaskHalfBoxY - 1) (h : Int)).toNat = M1 at hm hml ⊢
    generalize (modulo (1 + (i : Int) + kMaskHalfBoxY + 1) (h : Int)).toNat = M2 at hx hxl ⊢
    rw [hm, hx]
    have hyn : (1 + (i : Int)).toNat = i + 1 := by omega
    have hyc : (1 + (i : Int)) * (w : Int) = ((i * w + w : Nat) : Int) := by
      push_cast; ring
    have hys : (i + 1) * w = i * w + w := Nat.succ_mul _ _
    have hc1 : ((M1 : Nat) : Int) * (w : Int) = ((M1 * w : Nat) : Int) := by
      push_cast; rfl
    have hc2 : ((M2 : Nat) : Int) * (w : Int) = ((M2 * w : Nat) : Int) := by
      push_cast; rfl
    rw [hyn, hyc, hys, hc1, hc2]
    have hb := row_bound (i + 1) h w (by omega)
    rw [hys] at hb
    have hb1 := row_bound M1 h w hml
    have hb2 := row_bound M2 h w hxl
    generalize i * w = A at hb ⊢
    generalize M1 * w = B1 at hb1 ⊢
    generalize M2 * w = B2 at hb2 ⊢
    generalize h * w = N at hb hb1 hb2 h0 ⊢
    refine forFrom_zero_flag rfl ?_
    intro x v hx
    beta_reduce
    refine BlurMask.slideAt_sound rfl ?_ ?_ ?_ ?_ ?_ ?_ ?_ ?_
    all_goals (first | (push_cast; rfl) | omega)

/-- The checked run of `BlurMask` keeps the flag set and ends with the buffer
of `BlurMask`. -/
theorem BlurMask.runAt_sound (w h : Nat) (hw : 1 ≤ w) (hh : 1 ≤ h) (t : List F32) :
    BlurMask.runAt ((h * w : Nat) : Int) (w : Int) (h : Int) (t, true) =
      (forUp kMaskBlurIterations (fun _ result =>
        BlurMask.vPass w h (forUp h (fun y result => BlurMask.hRow w y result) result)) t,
        true) := by
  unfold BlurMask.runAt
  rw [Int.toNat_ofNat]
  refine forUp_flag rfl ?_
  intro _ u _
  beta_reduce
  have hrows : forFrom 0 h (fun y s => BlurMask.hRowAt ((h * w : Nat) : Int) (w : Int) y s)
      (u, true) = (forUp h (fun y result => BlurMask.hRow w y result) u, true) :=
    forFrom_zero_flag rfl (fun y v hy => BlurMask.hRowAt_sound w h y hw hy v)
  rw [hrows]
  exact BlurMask.vPassAt_sound w h hh _

/-- C27. Index safety. For every frame with `width ≥ 1` and `height ≥ 1`,
whatever its buffer holds: the run of `Blur` in which every index read or
written is checked against `[0, width * height * 4)` ends with the flag still
set and with the buffer that `Blur` returns, and the run of `BlurMask` in
which every index is checked against `[0, width * height)` ends with the flag
still set and with the buffer that `BlurMask` returns. The kernel may be
wider than the buffer. -/
theorem Blur_indices_in_buffer (base : Frame Nat) (mask : Frame F32)
    (hbw : 1 ≤ base.width) (hbh : 1 ≤ base.height)
    (hmw : 1 ≤ mask.width) (hmh : 1 ≤ mask.height) :
    Blur.runAt (base.width * base.height * 4) base.width base.height (base.data, true) =
      ((Blur base).data, true) ∧
    BlurMask.runAt (mask.width * mask.height) mask.width mask.height (mask.data, true) =
      ((BlurMask mask).data, true) := by
  constructor
  · have e1 : base.width = ((base.width.toNat : Nat) : Int) := by omega
    have e2 : base.height = ((base.height.toNat : Nat) : Int) := by omega
    have hN : base.width * base.height * 4 =
        ((base.height.toNat * (base.width.toNat * 4) : Nat) : Int) := by
      push_cast
      rw [← e1, ← e2]
      ring
    rw [hN]
    have key := Blur.runAt_ok base.width.toNat base.height.toNat (by omega) (by omega) base.data
    rw [← e1, ← e2] at key
    exact key
  · have e1 : mask.width = ((mask.width.toNat : Nat) : Int) := by omega
    have e2 : mask.height = ((mask.height.toNat : Nat) : Int) := by omega
    have hN : mask.width * mask.height =
        ((mask.height.toNat * mask.width.toNat : Nat) : Int) := by
      push_cast
      rw [← e1, ← e2]
      ring
    rw [hN]
    have key := BlurMask.runAt_sound mask.width.toNat mask.height.toNat (by omega) (by omega)
      mask.data
    rw [← e1, ← e2] at key
    exact key

/-- C27 on a 2x1 frame and a 3x2 mask, both narrower than the kernels. -/
theorem Blur_indices_in_buffer_witness :
    Blur.runAt (2 * 1 * 4) 2 1 ([10, 20, 30, 7, 40, 50, 60, 8], true) =
      ((Blur ⟨2, 1, [10, 20, 30, 7, 40, 50, 60, 8], 0⟩).data, true) ∧
    BlurMask.runAt (3 * 2) 3 2 ([0, F32.one, 0, F32.one, 0, 0], true) =
      ((BlurMask ⟨3, 2, [0, F32.one, 0, F32.one, 0, 0], 0⟩).data, true) :=
  Blur_indices_in_buffer ⟨2, 1, [10, 20, 30, 7, 40, 50, 60, 8], 0⟩
    ⟨3, 2, [0, F32.one, 0, F32.one, 0, 0], 0⟩ (by decide) (by decide) (by decide) (by decide)

end Effects

namespace Effects

/-! ## C4: the blend within the `int32_t` range -/

/-- The magnitude of a rounded value is the rounded magnitude. -/
theorem F32.round_natAbs (p : Int) (q : Nat) :
    (F32.round p q).natAbs = roundMag p.natAbs q := by
  unfold F32.round
  split_ifs <;> simp

set_option maxRecDepth 100000 in
/-- Truncation of a value of magnitude at most `B`. -/
theorem tdiv_abs_le (x : Int) (B : Nat) (h : x.natAbs ≤ B * 2 ^ 149) :
    -(B : Int) ≤ Int.tdiv x (2 ^ 149) ∧ Int.tdiv x (2 ^ 149) ≤ (B : Int) := by
  have hq : (0 : Int) < 2 ^ 149 := by positivity
  have hc : ((x.natAbs : Nat) : Int) ≤ (B : Int) * 2 ^ 149 := by
    have := Int.ofNat_le.2 h
    simpa only [Nat.cast_mul, Nat.cast_pow, Nat.cast_ofNat] using this
  rcases le_or_lt 0 x with hx | hx
  · rw [Int.tdiv_eq_ediv hx (le_of_lt hq)]
    have h1 : x ≤ (B : Int) * 2 ^ 149 := by
      rwa [Int.natAbs_of_nonneg hx] at hc
    have h2 : x / 2 ^ 149 ≤ (B : Int) := by
      have := Int.ediv_le_ediv hq h1
      rwa [Int.mul_ediv_cancel _ (ne_of_gt hq)] at this
    have h3 : 0 ≤ x / 2 ^ 149 := Int.ediv_nonneg hx (le_of_lt hq)
    generalize x / 2 ^ 149 = t at h2 h3 ⊢
    omega
  · have hx' : 0 ≤ -x := by omega
    have e : Int.tdiv x (2 ^ 149) = -((-x) / 2 ^ 149) := by
      have := Int.neg_tdiv (-x) (2 ^ 149)
      rw [Int.neg_neg] at this
      rw [this, Int.tdiv_eq_ediv hx' (le_of_lt hq)]
    rw [e]
    have h1 : -x ≤ (B : Int) * 2 ^ 149 := by
      rwa [Int.ofNat_natAbs_of_nonpos (le_of_lt hx)] at hc
    have h2 : (-x) / 2 ^ 149 ≤ (B : Int) := by
      have := Int.ediv_le_ediv hq h1
      rwa [Int.mul_ediv_cancel _ (ne_of_gt hq)] at this
    have h3 : 0 ≤ (-x) / 2 ^ 149 := Int.ediv_nonneg hx' (le_of_lt hq)
    generalize (-x) / 2 ^ 149 = t at h2 h3 ⊢
    omega

theorem natAbs_le_of_bounds (z : Int) (h1 : -(2 ^ 23 * 2 ^ 149) ≤ z)
    (h2 : z ≤ 2 ^ 23 * 2 ^ 149) : z.natAbs ≤ 2 ^ 23 * 2 ^ 149 := by
  omega

/-- For a mask sample of magnitude at most `2^23` the blend of two bytes stays
within the `int32_t` range, so its conversion is the truncation toward zero. -/
theorem mix_trunc (b f : Nat) (m : F32) (hb : b < 256) (hf : f < 256)
    (hm : m.natAbs ≤ 2 ^ 23 * 2 ^ 149) :
    BackgroundMask.mix b f m =
      clampint 8 (Int.tdiv (F32.add (F32.ofInt b) (F32.mul (F32.ofInt ((f : Int) - b)) m))
        (2 ^ 149)) := by
  unfold BackgroundMask.mix
  have h1 : F32.ofInt ((f : Int) - b) = ((f : Int) - b) * 2 ^ 149 :=
    F32.ofInt_exact _ (by norm_num; omega)
  have h2 : F32.ofInt (b : Int) = (b : Int) * 2 ^ 149 := F32.ofInt_exact _ (by norm_num; omega)
  have hp : (F32.mul (F32.ofInt ((f : Int) - b)) m).natAbs ≤ 255 * 2 ^ 172 := by
    rw [h1]
    unfold F32.mul
    rw [F32.round_natAbs]
    apply roundMag_le_rep _ _ _ _ (Nat.two_pow_pos _) (by norm_num)
    rw [Int.natAbs_mul, Int.natAbs_mul, Int.natAbs_pow]
    have hd : ((f : Int) - b).natAbs ≤ 255 := by omega
    calc ((f : Int) - b).natAbs * (2 : Int).natAbs ^ 149 * m.natAbs
        ≤ 255 * 2 ^ 149 * (2 ^ 23 * 2 ^ 149) := by
          apply Nat.mul_le_mul _ hm
          exact Nat.mul_le_mul_right _ hd
      _ = 255 * 2 ^ 172 * 2 ^ 149 := by norm_num
  generalize F32.mul (F32.ofInt ((f : Int) - b)) m = p at hp
  have hs : (F32.add (F32.ofInt (b : Int)) p).natAbs ≤ (2 ^ 24 - 1) * 2 ^ 156 := by
    rw [h2]
    unfold F32.add
    rw [F32.round_natAbs]
    apply roundMag_le_rep _ _ _ _ (by norm_num) (by norm_num)
    have ht : ((b : Int) * 2 ^ 149 + p).natAbs ≤ ((b : Int) * 2 ^ 149).natAbs + p.natAbs :=
      Int.natAbs_add_le _ _
    have hb' : ((b : Int) * 2 ^ 149).natAbs ≤ 255 * 2 ^ 149 := by
      rw [Int.natAbs_mul, Int.natAbs_pow, Int.natAbs_ofNat]
      exact Nat.mul_le_mul_right _ (by omega)
    have hnum : 255 * 2 ^ 149 + 255 * 2 ^ 172 ≤ (2 ^ 24 - 1) * 2 ^ 156 * 1 := by norm_num
    omega
  generalize F32.add (F32.ofInt (b : Int)) p = v at hs
  have hB : v.natAbs ≤ 2147483520 * 2 ^ 149 := by
    have : 2147483520 * 2 ^ 149 = (2 ^ 24 - 1) * 2 ^ 156 := by norm_num
    rw [this]
    exact hs
  obtain ⟨t1, t2⟩ := tdiv_abs_le v 2147483520 hB
  have hr : -2 ^ 31 ≤ Int.tdiv v (2 ^ 149) ∧ Int.tdiv v (2 ^ 149) < 2 ^ 31 := by
    generalize Int.tdiv v (2 ^ 149) = t at t1 t2 ⊢
    constructor <;> omega
  rw [F32.toInt_of_range v hr]

/-- C4 (amended): for a sampled mask value `m` of magnitude at most `2^23`,
every colour channel written by `BackgroundMask` is
`clamp(trunc(b + (f - b) * m), 0, 255)` in `float` arithmetic, for the frame
byte `f` and the sampled background byte `b`: the blend is within the
`int32_t` range and is truncated toward zero, with no `+ 0.5`. -/
theorem compositor_truncates (W H : Nat) (d : List Nat) (s : Int) (mask : Frame F32)
    (bg : Frame Nat) (x y : Nat) (hx : x < W) (hy : y < H)
    (hlen : 4 * (y * W + x) + 3 < d.length)
    (hd : ∀ b ∈ d, b < 256) (hbg : ∀ b ∈ bg.data, b < 256) (c : Nat) (hc : c < 3)
    (hm : -(2 ^ 23 * F32.one) ≤ mask.data.getD (sampleIndex W H mask.width mask.height x y) 0 ∧
      mask.data.getD (sampleIndex W H mask.width mask.height x y) 0 ≤ 2 ^ 23 * F32.one) :
    (BackgroundMask ⟨W, H, d, s⟩ mask bg).data.getD (4 * (y * W + x) + c) 0 =
      clampint 8 (Int.tdiv (F32.add
        (F32.ofInt (bg.data.getD (4 * sampleIndex W H bg.width bg.height x y + c) 0))
        (F32.mul
          (F32.ofInt ((d.getD (4 * (y * W + x) + c) 0 : Int) -
            (bg.data.getD (4 * sampleIndex W H bg.width bg.height x y + c) 0 : Int)))
          (mask.data.getD (sampleIndex W H mask.width mask.height x y) 0))) (2 ^ 149)) := by
  obtain ⟨h0, h1, h2, _⟩ := BackgroundMask_bytes W H d s mask bg x y hx hy hlen hd hbg
  have hm' : (mask.data.getD (sampleIndex W H mask.width mask.height x y) 0).natAbs ≤
      2 ^ 23 * 2 ^ 149 := by
    exact natAbs_le_of_bounds _ hm.1 hm.2
  have hbyte : ∀ (l : List Nat), (∀ b ∈ l, b < 256) → ∀ j, l.getD j 0 < 256 := by
    intro l hl j
    rw [List.getD_eq_getElem?_getD]
    rcases hj : l[j]? with _ | v
    · exact Nat.zero_lt_succ _
    · exact hl v (List.getElem?_mem hj)
  interval_cases c
  · rw [Nat.add_zero, Nat.add_zero]
    rw [h0]
    exact mix_trunc _ _ _ (hbyte _ hbg _) (hbyte _ hd _) hm'
  · rw [h1]
    exact mix_trunc _ _ _ (hbyte _ hbg _) (hbyte _ hd _) hm'
  · rw [h2]
    exact mix_trunc _ _ _ (hbyte _ hbg _) (hbyte _ hd _) hm'

/-- C4 (amended) on red over blue with mask `0.5`: the red channel of pixel
`(0, 0)` is `trunc(0 + 255 * 0.5) = 127`. -/
theorem compositor_truncates_witness :
    (BackgroundMask ⟨(2 : Nat), (2 : Nat), redFrame.data, 0⟩ (constMask F32.half)
        blueFrame).data.getD (4 * (0 * 2 + 0) + 0) 0 =
      clampint 8 (Int.tdiv (F32.add
        (F32.ofInt (blueFrame.data.getD
          (4 * sampleIndex (2 : Nat) (2 : Nat) blueFrame.width blueFrame.height 0 0 + 0) 0))
        (F32.mul
          (F32.ofInt ((redFrame.data.getD (4 * (0 * 2 + 0) + 0) 0 : Int) -
            (blueFrame.data.getD
              (4 * sampleIndex (2 : Nat) (2 : Nat) blueFrame.width blueFrame.height 0 0 + 0) 0 : Int)))
          ((constMask F32.half).data.getD
            (sampleIndex (2 : Nat) (2 : Nat) (constMask F32.half).width
              (constMask F32.half).height 0 0) 0))) (2 ^ 149)) ∧
    clampint 8 (Int.tdiv (F32.add (F32.ofInt 0)
      (F32.mul (F32.ofInt (255 - 0)) F32.half)) (2 ^ 149)) = 127 :=
  ⟨compositor_truncates 2 2 redFrame.data 0 (constMask F32.half) blueFrame 0 0
    (by decide) (by decide) (by decide) (by decide) (by decide) 0 (by decide) (by decide!),
    by decide!⟩

end Effects
